import Mathlib

/-!
Verification of the CPM scheduler of `civ-vision`
(`src/lib/scheduler-engine.ts`, `src/lib/scheduler-dependencies.ts`,
`src/types/scheduler.ts`).

The TypeScript sources are embedded shallowly:

* JavaScript numbers that the code inspects with `Number.isFinite` are
  modelled by `JSNum` (`nan`, `posInf`, `negInf`, or a finite rational);
  arbitrary (`unknown`) values in numeric positions by `JSVal`.
  `Math.ceil` / `Math.floor` / `Math.round` become `Int.ceil`, `Int.floor`,
  and `⌊q + 1/2⌋` (JavaScript rounds half away from zero towards +∞).
* `undefined` / non-array / non-string positions are modelled with `Option`.
* The mutable `Map`s of the engine become functions `String → Option _`,
  updated pointwise; JavaScript `Map` iteration order (insertion order,
  i.e. order of first `set`) is recovered by `firstOccurrences` over the
  order in which the code inserts keys.
* The `while` loop of Kahn's algorithm is driven by explicit fuel
  `acts.length`; the loop appends one pairwise-distinct key of the
  in-degree map to the sorted order per iteration
  (`kahnLoop_invariant` below), so `acts.length` iterations always
  suffice, and `kahnLoop_fuel_stable` shows the result does not depend
  on any sufficient fuel.
-/

namespace Scheduler

open scoped List

/-- A JavaScript number: NaN, ±Infinity, or a finite value (modelled as ℚ). -/
inductive JSNum where
  | nan
  | posInf
  | negInf
  | fin (q : ℚ)
deriving DecidableEq

/-- An arbitrary JavaScript value sitting in a numeric field:
either not a number at all, or a number. -/
inductive JSVal where
  | notNum
  | num (n : JSNum)
deriving DecidableEq

/-- JavaScript `Math.ceil` on a finite number. -/
def jsCeil (q : ℚ) : Int := ⌈q⌉

/-- JavaScript `Math.floor` on a finite number. -/
def jsFloor (q : ℚ) : Int := ⌊q⌋

/-- JavaScript `Math.round` on a finite number (half rounds towards +∞), i.e.
`⌊q + 1/2⌋`, written as a floor division of integers so that it evaluates
inside the kernel; `jsRound_eq_floor` below proves the two forms equal. -/
def jsRound (q : ℚ) : Int := (2 * q.num + q.den) / (2 * q.den)

/-- `src/types/scheduler.ts`: `type SchedulerDependencyType = "FS" | "SS" | "FF" | "SF"`. -/
inductive SchedulerDependencyType where
  | FS
  | SS
  | FF
  | SF
deriving DecidableEq

/-- The string of a dependency type, as it appears in the dedup key template. -/
def depTypeStr : SchedulerDependencyType → String
  | .FS => "FS"
  | .SS => "SS"
  | .FF => "FF"
  | .SF => "SF"

/-- A normalized dependency (`SchedulerDependency` with `lagDays` always set,
as produced by `normalizeActivityDependencies`). -/
structure SchedulerDependency where
  activityId : String
  type : SchedulerDependencyType
  lagDays : Int
deriving DecidableEq

/-- A raw dependency entry before normalization: `activityId` may fail the
`typeof === "string"` check (`none`), `type` is an arbitrary string or a
non-string (`none`), `lagDays` is an arbitrary value. -/
structure RawDependency where
  activityId : Option String
  type : Option String
  lagDays : JSVal
deriving DecidableEq

/-- A raw input activity (`SchedulerActivity` from `src/types/scheduler.ts`),
restricted to the fields the scheduler reads.  `dependencies` is `none` when
absent / not an array, and each entry is `none` when falsy; `predecessors`
entries are `none` when not strings; `manualStart` is `none` when absent or
not a number. -/
structure SchedulerActivity where
  id : String
  duration : JSNum
  predecessors : Option (List (Option String))
  dependencies : Option (List (Option RawDependency))
  manualStart : Option JSNum
deriving DecidableEq

/-! ## `src/lib/scheduler-dependencies.ts` -/

/-- JavaScript `String.prototype.trim`: strip leading and trailing whitespace
(modelled with `Char.isWhitespace`, implemented structurally on the character
list so that it evaluates inside the kernel). -/
def jsTrim (s : String) : String :=
  ⟨((s.data.dropWhile Char.isWhitespace).reverse.dropWhile Char.isWhitespace).reverse⟩

/-- `isDependencyType`: `typeof value === "string" && DEPENDENCY_TYPES.includes(value)`. -/
def isDependencyType : Option String → Bool
  | some s => s = "FS" || s = "SS" || s = "FF" || s = "SF"
  | none => false

/-- The coercion `isDependencyType(dep.type) ? dep.type : "FS"` applied to the
raw `type` value. -/
def coerceDepType : Option String → SchedulerDependencyType
  | some "FS" => .FS
  | some "SS" => .SS
  | some "FF" => .FF
  | some "SF" => .SF
  | _ => .FS

/-- `toLagDays`: non-numbers and non-finite numbers become 0, finite numbers
are `Math.round`ed. -/
def toLagDays : JSVal → Int
  | .num (.fin q) => jsRound q
  | _ => 0

/-- The dedup key template literal `` `${dep.activityId}|${dep.type}|${dep.lagDays ?? 0}` ``. -/
def depKey (dep : SchedulerDependency) : String :=
  dep.activityId ++ "|" ++ depTypeStr dep.type ++ "|" ++ toString dep.lagDays

/-- The local `append` closure of `normalizeActivityDependencies`: state is
(`seen` keys, `normalized` output). -/
def appendDep (st : List String × List SchedulerDependency) (dep : SchedulerDependency) :
    List String × List SchedulerDependency :=
  if dep.activityId = "" then st
  else if depKey dep ∈ st.1 then st
  else (depKey dep :: st.1, st.2 ++ [dep])

/-- Processing of one entry of the raw `dependencies` array. -/
def explicitStep (st : List String × List SchedulerDependency) (odep : Option RawDependency) :
    List String × List SchedulerDependency :=
  match odep with
  | none => st
  | some dep =>
    match dep.activityId with
    | none => st
    | some rawId =>
      let activityId := jsTrim rawId
      if activityId = "" then st
      else appendDep st ⟨activityId, coerceDepType dep.type, toLagDays dep.lagDays⟩

/-- Processing of one entry of the raw legacy `predecessors` array. -/
def legacyStep (st : List String × List SchedulerDependency) (opred : Option String) :
    List String × List SchedulerDependency :=
  match opred with
  | none => st
  | some predId =>
    let activityId := jsTrim predId
    if activityId = "" then st
    else appendDep st ⟨activityId, .FS, 0⟩

/-- `normalizeActivityDependencies`: explicit dependencies first, then legacy
predecessors, deduplicated by the string key, first occurrence wins. -/
def normalizeActivityDependencies (activity : SchedulerActivity) : List SchedulerDependency :=
  let st0 : List String × List SchedulerDependency := ([], [])
  let st1 := match activity.dependencies with
    | some deps => deps.foldl explicitStep st0
    | none => st0
  let st2 := match activity.predecessors with
    | some preds => preds.foldl legacyStep st1
    | none => st1
  st2.2

/-- First-occurrence deduplication (JavaScript `Set` insertion order); also
used to model the key order of a JavaScript `Map`. -/
def firstOccurrences {α : Type} [DecidableEq α] (seen : List α) : List α → List α
  | [] => []
  | x :: xs => if x ∈ seen then firstOccurrences seen xs else x :: firstOccurrences (x :: seen) xs

/-- `derivePredecessorsFromDependencies`: the unique trimmed ids, first-seen
order preserved. -/
def derivePredecessorsFromDependencies (dependencies : List SchedulerDependency) : List String :=
  firstOccurrences []
    ((dependencies.map (fun dep => jsTrim dep.activityId)).filter (fun s => s ≠ ""))

/-! ## `src/lib/scheduler-engine.ts` -/

/-- `toPositiveDuration`: non-finite or non-positive durations become 1,
otherwise `Math.ceil`. -/
def toPositiveDuration : JSNum → Int
  | .fin q => if q ≤ 0 then 1 else jsCeil q
  | _ => 1

/-- `toValidStartDay`: absent, non-finite or < 1 becomes 1, otherwise `Math.floor`. -/
def toValidStartDay : Option JSNum → Int
  | some (.fin q) => if q < 1 then 1 else jsFloor q
  | _ => 1

/-- `earliestStartFromDependency`. -/
def earliestStartFromDependency (dependency : SchedulerDependency)
    (predecessorStart predecessorFinish currentDuration : Int) : Int :=
  let lag := dependency.lagDays
  match dependency.type with
  | .SS => predecessorStart + lag
  | .FF => predecessorFinish + lag - currentDuration + 1
  | .SF => predecessorStart + lag - currentDuration + 1
  | .FS => predecessorFinish + 1 + lag

/-- `latestStartUpperBoundFromSuccessor`. -/
def latestStartUpperBoundFromSuccessor (dependencyType : SchedulerDependencyType)
    (lagDays predecessorDuration successorLateStart successorLateFinish : Int) : Int :=
  match dependencyType with
  | .SS => successorLateStart - lagDays
  | .FF => successorLateFinish - lagDays - predecessorDuration + 1
  | .SF => successorLateFinish - lagDays
  | .FS => successorLateStart - lagDays - predecessorDuration

/-- `freeFloatAgainstSuccessor`. -/
def freeFloatAgainstSuccessor (dependency : SchedulerDependency)
    (activityStart activityFinish successorStart successorFinish : Int) : Int :=
  let lag := dependency.lagDays
  match dependency.type with
  | .SS => successorStart - (activityStart + lag)
  | .FF => successorFinish - (activityFinish + lag)
  | .SF => successorFinish - (activityStart + lag)
  | .FS => successorStart - (activityFinish + 1 + lag)

/-- An activity after the normalization step at the top of `calculateSchedule`:
duration coerced to a positive integer, dependencies normalized with
self-references dropped, computed fields reset. -/
structure NormalizedActivity where
  id : String
  duration : Int
  dependencies : List SchedulerDependency
  manualStart : Option JSNum
deriving DecidableEq

/-- The computed fields of an activity returned by `calculateSchedule`
(the source spreads them onto the input record). -/
structure ScheduledActivity where
  id : String
  duration : Int
  startDay : Int
  endDay : Int
  totalFloat : Int
  freeFloat : Int
  isCritical : Bool
deriving DecidableEq

/-- The per-activity normalization in `calculateSchedule` (lines 108-123). -/
def normalizeActivity (activity : SchedulerActivity) : NormalizedActivity :=
  { id := activity.id
    duration := toPositiveDuration activity.duration
    dependencies := (normalizeActivityDependencies activity).filter
      (fun dep => dep.activityId ≠ activity.id)
    manualStart := activity.manualStart }

/-- `type SuccessorRelation = { successorId, dependency }`. -/
structure SuccessorRelation where
  successorId : String
  dependency : SchedulerDependency
deriving DecidableEq

/-- The two adjacency maps built before the topological sort. -/
structure GraphState where
  inDegree : String → Option Int
  successors : String → Option (List SuccessorRelation)

/-- `activityMap`: `Map.set` for every activity, so later duplicates of an id
overwrite earlier ones. -/
def buildActivityMap (acts : List NormalizedActivity) : String → Option NormalizedActivity :=
  acts.foldl (fun m a => fun k => if k = a.id then some a else m k) (fun _ => none)

/-- Initialization `inDegree.set(id, 0)`, `successors.set(id, [])` for every activity. -/
def initGraph (acts : List NormalizedActivity) : GraphState :=
  { inDegree := acts.foldl (fun m a => fun k => if k = a.id then some 0 else m k) (fun _ => none)
    successors := acts.foldl (fun m a => fun k => if k = a.id then some [] else m k) (fun _ => none) }

/-- `successors.get(dependency.activityId)?.push(...)`: push only when the key
is present (optional chaining). -/
def pushSuccessor (succ : String → Option (List SuccessorRelation)) (key : String)
    (rel : SuccessorRelation) : String → Option (List SuccessorRelation) :=
  match succ key with
  | some rels => fun k => if k = key then some (rels ++ [rel]) else succ k
  | none => succ

/-- `inDegree.set(id, (inDegree.get(id) || 0) + 1)`. -/
def bumpInDegree (deg : String → Option Int) (key : String) : String → Option Int :=
  fun k => if k = key then some ((deg key).getD 0 + 1) else deg k

/-- One edge insertion (lines 138-148): when the dependency's target exists in
the activity map, record a successor relation at the target and bump the
in-degree of the owning activity. -/
def addEdge (amap : String → Option NormalizedActivity) (aid : String) (st : GraphState)
    (dependency : SchedulerDependency) : GraphState :=
  if (amap dependency.activityId).isSome then
    { inDegree := bumpInDegree st.inDegree aid
      successors := pushSuccessor st.successors dependency.activityId ⟨aid, dependency⟩ }
  else st

/-- Edge insertion over the whole batch (lines 138-149). -/
def buildEdges (amap : String → Option NormalizedActivity) (acts : List NormalizedActivity)
    (st0 : GraphState) : GraphState :=
  acts.foldl (fun st a => a.dependencies.foldl (addEdge amap a.id) st) st0

/-- The initial queue: all keys of the in-degree map (in insertion order,
i.e. first occurrence of each id) whose count is 0. -/
def initialQueue (acts : List NormalizedActivity) (deg : String → Option Int) : List String :=
  (firstOccurrences [] (acts.map (fun a => a.id))).filter (fun id => deg id = some 0)

/-- One decrement step of Kahn's loop (lines 164-170): lower the successor's
count, and enqueue it when the count reaches exactly 0. -/
def kahnDecrement (st : (String → Option Int) × List String) (rel : SuccessorRelation) :
    (String → Option Int) × List String :=
  let nextCount := (st.1 rel.successorId).getD 0 - 1
  ((fun k => if k = rel.successorId then some nextCount else st.1 k),
   if nextCount = 0 then st.2 ++ [rel.successorId] else st.2)

/-- Kahn's `while (queue.length > 0)` loop, driven by fuel (see header note).
Each iteration shifts the queue head into the sorted order and decrements the
in-degree of each successor, enqueueing those that reach exactly 0. -/
def kahnLoop (succ : String → Option (List SuccessorRelation)) :
    Nat → List String → (String → Option Int) → List String → List String
  | 0, _, _, sorted => sorted
  | _ + 1, [], _, sorted => sorted
  | fuel + 1, current :: rest, deg, sorted =>
    let step := ((succ current).getD []).foldl kahnDecrement (deg, rest)
    kahnLoop succ fuel step.2 step.1 (sorted ++ [current])

/-- One step of a pass: resolve the activity, compute its value, store value
and value + duration − 1 at its id. -/
def passStep (amap : String → Option NormalizedActivity)
    (stepValue : ((String → Option Int) × (String → Option Int)) → String →
      NormalizedActivity → Int)
    (st : (String → Option Int) × (String → Option Int)) (id : String) :
    (String → Option Int) × (String → Option Int) :=
  match amap id with
  | none => st
  | some activity =>
    let v := stepValue st id activity
    ((fun k => if k = id then some v else st.1 k),
     (fun k => if k = id then some (v + activity.duration - 1) else st.2 k))

/-- The common skeleton of the forward and backward passes: walk the order,
compute a value for each resolvable activity and store value and
value + duration − 1 in the two maps. -/
def schedulePass (amap : String → Option NormalizedActivity)
    (stepValue : ((String → Option Int) × (String → Option Int)) → String →
      NormalizedActivity → Int)
    (order : List String) : (String → Option Int) × (String → Option Int) :=
  order.foldl (passStep amap stepValue) ((fun _ => none), (fun _ => none))

/-- Forward-pass body (lines 185-199): start from the manual/default floor and
raise it by every constraint from an already-resolved predecessor. -/
def forwardStep (st : (String → Option Int) × (String → Option Int)) (_id : String)
    (activity : NormalizedActivity) : Int :=
  activity.dependencies.foldl
    (fun start dependency =>
      match st.1 dependency.activityId, st.2 dependency.activityId with
      | some predecessorStart, some predecessorFinish =>
        max start (earliestStartFromDependency dependency predecessorStart predecessorFinish
          activity.duration)
      | _, _ => start)
    (toValidStartDay activity.manualStart)

/-- Backward-pass body (lines 214-233): start from the tail-end bound, lower it
by every resolved successor bound, then floor at 1. -/
def backwardStep (succ : String → Option (List SuccessorRelation)) (projectDuration : Int)
    (st : (String → Option Int) × (String → Option Int)) (id : String)
    (activity : NormalizedActivity) : Int :=
  let bounded := ((succ id).getD []).foldl
    (fun latestStart rel =>
      match st.1 rel.successorId, st.2 rel.successorId with
      | some successorLateStart, some successorLateFinish =>
        min latestStart (latestStartUpperBoundFromSuccessor rel.dependency.type
          rel.dependency.lagDays activity.duration successorLateStart successorLateFinish)
      | _, _ => latestStart)
    (projectDuration - activity.duration + 1)
  max 1 bounded

/-- The body of the forward fold over one dependency, as a named function
(extensionally equal to the lambda inside `forwardStep`). -/
def forwardUpdate (st : (String → Option Int) × (String → Option Int)) (duration : Int)
    (start : Int) (dependency : SchedulerDependency) : Int :=
  match st.1 dependency.activityId, st.2 dependency.activityId with
  | some predecessorStart, some predecessorFinish =>
    max start (earliestStartFromDependency dependency predecessorStart predecessorFinish duration)
  | _, _ => start

/-- The body of the backward fold over one successor relation, as a named
function (extensionally equal to the lambda inside `backwardStep`). -/
def backwardUpdate (st : (String → Option Int) × (String → Option Int)) (duration : Int)
    (latestStart : Int) (rel : SuccessorRelation) : Int :=
  match st.1 rel.successorId, st.2 rel.successorId with
  | some successorLateStart, some successorLateFinish =>
    min latestStart (latestStartUpperBoundFromSuccessor rel.dependency.type
      rel.dependency.lagDays duration successorLateStart successorLateFinish)
  | _, _ => latestStart

/-- The keys of a pass map in `Map` insertion order: the processed ids (those
with a map entry), first occurrence first. -/
def passKeys (amap : String → Option NormalizedActivity) (order : List String) : List String :=
  firstOccurrences [] (order.filter (fun id => (amap id).isSome))

/-- `sequentialFallback`: non-overlapping chain in input order, cursor starting
at day 1; every activity critical with zero float. -/
def sequentialFallback (activities : List NormalizedActivity) : List ScheduledActivity :=
  (activities.foldl
    (fun (st : Int × List ScheduledActivity) activity =>
      let startDay := max st.1 (toValidStartDay activity.manualStart)
      let duration := toPositiveDuration (.fin (activity.duration : ℚ))
      let endDay := startDay + duration - 1
      (endDay + 1,
       st.2 ++ [{ id := activity.id, duration := duration, startDay := startDay,
                  endDay := endDay, totalFloat := 0, freeFloat := 0, isCritical := true }]))
    (1, [])).2

/-- Stable insertion of one element behind every already-placed element the
comparator puts (weakly) before it. -/
def stableInsert {α : Type} (le : α → α → Bool) (x : α) : List α → List α
  | [] => [x]
  | y :: ys => if le y x then y :: stableInsert le x ys else x :: y :: ys

/-- A stable comparator sort: the model of JavaScript `Array.prototype.sort`
(stable since ES2019).  Implemented structurally (insertion sort) so that it
evaluates inside the kernel; it agrees with any stable sort by the same total
comparator. -/
def stableSortBy {α : Type} (le : α → α → Bool) (l : List α) : List α :=
  l.foldl (fun acc x => stableInsert le x acc) []

/-- The per-activity assembly of the returned record (lines 240-281). -/
def assembleActivity (es ef ls : String → Option Int)
    (succ : String → Option (List SuccessorRelation)) (activity : NormalizedActivity) :
    ScheduledActivity :=
  let startDay := (es activity.id).getD 1
  let endDay := (ef activity.id).getD activity.duration
  let lsv := (ls activity.id).getD startDay
  let totalFloat := lsv - startDay
  let activitySuccessors := (succ activity.id).getD []
  let freeFloat :=
    if activitySuccessors.length > 0 then
      let slacks := activitySuccessors.filterMap (fun rel =>
        match es rel.successorId, ef rel.successorId with
        | some successorStart, some successorFinish =>
          some (freeFloatAgainstSuccessor rel.dependency startDay endDay successorStart
            successorFinish)
        | _, _ => none)
      match slacks with
      | [] => totalFloat
      | s :: rest => rest.foldl min s
    else totalFloat
  { id := activity.id, duration := activity.duration, startDay := startDay, endDay := endDay,
    totalFloat := totalFloat, freeFloat := freeFloat, isCritical := decide (totalFloat = 0) }

/-- The activity map of a normalized batch. -/
def amapN (acts : List NormalizedActivity) : String → Option NormalizedActivity :=
  buildActivityMap acts

/-- The dependency graph of a normalized batch. -/
def graphN (acts : List NormalizedActivity) : GraphState :=
  buildEdges (amapN acts) acts (initGraph acts)

/-- The initial Kahn queue of a normalized batch. -/
def queueN (acts : List NormalizedActivity) : List String :=
  initialQueue acts (graphN acts).inDegree

/-- The topological order produced by Kahn's algorithm. -/
def sortedN (acts : List NormalizedActivity) : List String :=
  kahnLoop (graphN acts).successors acts.length (queueN acts) (graphN acts).inDegree []

/-- The forward pass maps (earliest start, earliest finish). -/
def earlyN (acts : List NormalizedActivity) :
    (String → Option Int) × (String → Option Int) :=
  schedulePass (amapN acts) forwardStep (sortedN acts)

/-- `projectDuration = Math.max(1, ...earlyFinish.values())`. -/
def pdN (acts : List NormalizedActivity) : Int :=
  ((passKeys (amapN acts) (sortedN acts)).filterMap (earlyN acts).2).foldl max 1

/-- The backward pass maps (latest start, latest finish), over the reversed order. -/
def lateN (acts : List NormalizedActivity) :
    (String → Option Int) × (String → Option Int) :=
  schedulePass (amapN acts) (backwardStep (graphN acts).successors (pdN acts))
    (sortedN acts).reverse

/-- `calculateSchedule` after the input normalization step: graph, Kahn sort
with cycle fallback, forward and backward passes, assembly, and the final
stable sort by start day. -/
def scheduleN (acts : List NormalizedActivity) : List ScheduledActivity :=
  if (sortedN acts).length ≠ acts.length then sequentialFallback acts
  else
    stableSortBy (fun a b => decide (a.startDay ≤ b.startDay))
      (acts.map (assembleActivity (earlyN acts).1 (earlyN acts).2 (lateN acts).1
        (graphN acts).successors))

/-- `calculateSchedule` (the exported entry point). -/
def calculateSchedule (activities : List SchedulerActivity) : List ScheduledActivity :=
  if activities.isEmpty then []
  else scheduleN (activities.map normalizeActivity)

/-! ## Specification-side definitions

The following definitions are written from the words of the specification (not
from the source); the refinement theorems below compare them with the
source-derived definitions above. -/

/-- Spec, §4.1: what one raw explicit entry contributes — dropped when the
target id is not a string or empty after trimming; otherwise the id is
trimmed, the type coerced (default `FS`) and the lag coerced (rounded
integer, default 0). -/
def explicitEntry (odep : Option RawDependency) : Option SchedulerDependency :=
  match odep with
  | none => none
  | some dep =>
    match dep.activityId with
    | none => none
    | some rawId =>
      let activityId := jsTrim rawId
      if activityId = "" then none
      else some ⟨activityId, coerceDepType dep.type, toLagDays dep.lagDays⟩

/-- Spec, §4.1: what one raw legacy predecessor contributes — an `FS`
dependency with lag 0 on the trimmed id, when it is a nonempty string. -/
def legacyEntry (opred : Option String) : Option SchedulerDependency :=
  match opred with
  | none => none
  | some predId =>
    let activityId := jsTrim predId
    if activityId = "" then none
    else some ⟨activityId, .FS, 0⟩

/-- Spec, §4.1: the explicit-dependency phase of the normalizer. -/
def explicitPhaseSpec (activity : SchedulerActivity) : List SchedulerDependency :=
  match activity.dependencies with
  | none => []
  | some deps => deps.filterMap explicitEntry

/-- Spec, §4.1: the legacy phase. -/
def legacyPhaseSpec (activity : SchedulerActivity) : List SchedulerDependency :=
  match activity.predecessors with
  | none => []
  | some preds => preds.filterMap legacyEntry

/-- Spec, §4.2 cycle policy: the sequential schedule — each activity starts at
`max(running cursor, manualStart-or-1)`, ends at start + duration − 1, the
cursor advances to end + 1; every activity critical with zero float.
(`firstOccurrences []` on `SchedulerDependency` deduplicates by the whole
record, i.e. exactly by the key (activityId, type, lagDays).) -/
def seqSpec (cursor : Int) : List NormalizedActivity → List ScheduledActivity
  | [] => []
  | activity :: rest =>
    let startDay := max cursor (toValidStartDay activity.manualStart)
    let duration := toPositiveDuration (.fin (activity.duration : ℚ))
    let endDay := startDay + duration - 1
    { id := activity.id, duration := duration, startDay := startDay, endDay := endDay,
      totalFloat := 0, freeFloat := 0, isCritical := true } :: seqSpec (endDay + 1) rest

/-- Does this raw dependency entry name the activity itself (after trimming)? -/
def isSelfRawDep (selfId : String) (odep : Option RawDependency) : Bool :=
  match odep with
  | some dep =>
    match dep.activityId with
    | some s => decide (jsTrim s = selfId)
    | none => false
  | none => false

/-- Does this raw legacy predecessor entry name the activity itself? -/
def isSelfRawPred (selfId : String) (opred : Option String) : Bool :=
  match opred with
  | some p => decide (jsTrim p = selfId)
  | none => false

/-- Spec, §7: the same raw activity with every self-referencing link (typed or
legacy) removed. -/
def dropSelfDeps (a : SchedulerActivity) : SchedulerActivity :=
  { a with
    dependencies := a.dependencies.map (fun ds => ds.filter (fun od => !(isSelfRawDep a.id od)))
    predecessors := a.predecessors.map (fun ps => ps.filter (fun op => !(isSelfRawPred a.id op))) }

/-- The numeric value of a decimal digit string (used to invert `Nat.repr` when
proving the dedup key injective). -/
def digitsVal (l : List Char) : Nat :=
  l.foldl (fun a c => 10 * a + (c.toNat - 48)) 0

/-- The ids of a normalized batch, in input order. -/
def idsOfN (acts : List NormalizedActivity) : List String :=
  acts.map (fun a => a.id)

/-- The keys of the engine's `Map`s, in insertion order. -/
def keysOfN (acts : List NormalizedActivity) : List String :=
  firstOccurrences [] (idsOfN acts)

/-- The number of edges recorded from `u` into `v` in a successor map. -/
def succCount (succ : String → Option (List SuccessorRelation)) (u v : String) : Nat :=
  ((succ u).getD []).countP (fun r => decide (r.successorId = v))

/-- The number of edges into `v` whose sources lie in `processed` (with
multiplicity; sources listed once each). -/
def receivedCount (succ : String → Option (List SuccessorRelation)) (processed : List String)
    (v : String) : Nat :=
  (processed.map (fun u => succCount succ u v)).sum

/-- The invariant of graph construction: both maps are keyed exactly by the
activity ids, successor targets are ids, and each id's in-degree equals the
number of successor relations pointing at it. -/
def EdgeInv (ids keys : List String) (st : GraphState) : Prop :=
  (∀ k, (st.inDegree k).isSome ↔ k ∈ ids) ∧
    (∀ u, (st.successors u).isSome ↔ u ∈ ids) ∧
    (∀ u, ∀ rel ∈ (st.successors u).getD [], rel.successorId ∈ ids) ∧
    (∀ k ∈ ids, st.inDegree k = some (receivedCount st.successors keys k : Int))

/-- The invariant of Kahn's loop: the sorted order and queue are disjoint
pairwise-distinct keys; each key's count is its total in-degree minus the
edges already received from the sorted order; queue members and every sorted
member (at its position) have received all their in-edges. -/
def KahnInv (keys : List String) (succ : String → Option (List SuccessorRelation))
    (queue : List String) (deg : String → Option Int) (sorted : List String) : Prop :=
  (sorted ++ queue).Nodup ∧
    (∀ v ∈ sorted ++ queue, v ∈ keys) ∧
    (∀ k ∈ keys, deg k =
      some ((receivedCount succ keys k : Int) - receivedCount succ sorted k)) ∧
    (∀ v ∈ queue, receivedCount succ sorted v = receivedCount succ keys v) ∧
    (∀ s₁ v s₂, sorted = s₁ ++ v :: s₂ →
      receivedCount succ s₁ v = receivedCount succ keys v)

/-- Relation between a normalizer state fed the raw lists with self-links and
the state fed the same lists with self-links removed: the outputs agree after
discarding self-entries, and the seen keys agree up to keys of self-triples. -/
def SelfFilterSync (selfId : String) (st₁ st₂ : List String × List SchedulerDependency) : Prop :=
  st₁.2.filter (fun d => decide (d.activityId ≠ selfId)) =
      st₂.2.filter (fun d => decide (d.activityId ≠ selfId)) ∧
    (∀ k ∈ st₂.1, k ∈ st₁.1) ∧
    (∀ k ∈ st₁.1, k ∈ st₂.1 ∨ ∃ (t : SchedulerDependencyType) (lag : Int),
      k = depKey ⟨selfId, t, lag⟩)

/-- Spec, §4.2: the start-day floor — `manualStart` when it is a finite number
≥ 1 (floored to an integer), else 1. -/
def validStartSpec : Option JSNum → Int
  | some (.fin q) => if 1 ≤ q then ⌊q⌋ else 1
  | _ => 1

/-- Spec, §4.2 forward table: the per-edge earliest-start contribution. -/
def edgeContribSpec (t : SchedulerDependencyType)
    (lag predStart predFinish currentDuration : Int) : Int :=
  match t with
  | .FS => predFinish + 1 + lag
  | .SS => predStart + lag
  | .FF => predFinish + lag - currentDuration + 1
  | .SF => predStart + lag - currentDuration + 1

/-- Spec, §4.2: the earliest start of one activity — the maximum of the start
floor and the contributions of the dependencies whose target exists in the
input. -/
def forwardSpec (ids : List String) (es ef : String → Option Int)
    (a : NormalizedActivity) : Int :=
  a.dependencies.foldl
    (fun start dep =>
      if dep.activityId ∈ ids then
        max start (edgeContribSpec dep.type dep.lagDays ((es dep.activityId).getD 0)
          ((ef dep.activityId).getD 0) a.duration)
      else start)
    (validStartSpec a.manualStart)

/-- Spec, §4.2 backward table: the per-successor latest-start upper bound. -/
def backwardBoundSpec (t : SchedulerDependencyType)
    (lag predDuration succLateStart succLateFinish : Int) : Int :=
  match t with
  | .FS => succLateStart - lag - predDuration
  | .SS => succLateStart - lag
  | .FF => succLateFinish - lag - predDuration + 1
  | .SF => succLateFinish - lag

/-- Spec, §4.2: `projectDuration = max(1, max earliest finish over all
activities)`. -/
def projectDurationSpec (acts : List NormalizedActivity) (ef : String → Option Int) : Int :=
  (acts.map (fun a => (ef a.id).getD 0)).foldl max 1

/-- Spec, §4.2: the latest start — the maximum of 1 and the minimum of the
tail-end bound and all per-successor bounds. -/
def backwardSpec (ls lf : String → Option Int) (pd : Int) (rels : List SuccessorRelation)
    (duration : Int) : Int :=
  max 1 (rels.foldl
    (fun bound rel =>
      min bound (backwardBoundSpec rel.dependency.type rel.dependency.lagDays duration
        ((ls rel.successorId).getD 0) ((lf rel.successorId).getD 0)))
    (pd - duration + 1))

/-- Spec, §4.2: the per-successor free-float slack, evaluated with earliest
dates on both sides. -/
def freeSlackSpec (t : SchedulerDependencyType)
    (lag actStart actFinish succStart succFinish : Int) : Int :=
  match t with
  | .FS => succStart - (actFinish + 1 + lag)
  | .SS => succStart - (actStart + lag)
  | .FF => succFinish - (actFinish + lag)
  | .SF => succFinish - (actStart + lag)

/-! ## Concrete fixtures used to evaluate the development on closed inputs -/

/-- A three-day activity with no links. -/
def wA : SchedulerActivity :=
  { id := "A", duration := .fin 3, predecessors := none, dependencies := none,
    manualStart := none }

/-- A four-day activity depending on `wA` (FS, lag 0). -/
def wB : SchedulerActivity :=
  { id := "B", duration := .fin 4, predecessors := none,
    dependencies := some [some ⟨some "A", some "FS", .num (.fin 0)⟩], manualStart := none }

/-- A two-activity acyclic batch. -/
def wActs : List SchedulerActivity := [wA, wB]

/-- The record the engine computes for `wA` in `wActs`. -/
def wRecA : ScheduledActivity :=
  { id := "A", duration := 3, startDay := 1, endDay := 3, totalFloat := 0, freeFloat := 0,
    isCritical := true }

/-- The record the engine computes for `wB` in `wActs`. -/
def wRecB : ScheduledActivity :=
  { id := "B", duration := 4, startDay := 4, endDay := 7, totalFloat := 0, freeFloat := 0,
    isCritical := true }

/-- An activity naming `"A"` both as an explicit dependency and as a legacy
predecessor. -/
def wE : SchedulerActivity :=
  { id := "E", duration := .fin 2, predecessors := some [some "A"],
    dependencies := some [some ⟨some "A", some "FS", .num (.fin 0)⟩], manualStart := none }

/-- One half of a two-cycle. -/
def wCycC : SchedulerActivity :=
  { id := "C", duration := .fin 2, predecessors := none,
    dependencies := some [some ⟨some "D", some "FS", .num (.fin 0)⟩], manualStart := none }

/-- The other half of a two-cycle. -/
def wCycD : SchedulerActivity :=
  { id := "D", duration := .fin 2, predecessors := none,
    dependencies := some [some ⟨some "C", some "FS", .num (.fin 0)⟩], manualStart := none }

/-- A cyclic batch. -/
def wCyc : List SchedulerActivity := [wCycC, wCycD]

/-- A normalized activity with no dependencies. -/
def wNA : NormalizedActivity :=
  { id := "A", duration := 3, dependencies := [], manualStart := none }

/-- A normalized activity with one resolvable and one dangling dependency. -/
def wNB : NormalizedActivity :=
  { id := "B", duration := 4, dependencies := [⟨"A", .FS, 0⟩, ⟨"Z", .FS, 0⟩],
    manualStart := none }

/-- `wNB` with the dangling dependency removed. -/
def wNB2 : NormalizedActivity :=
  { id := "B", duration := 4, dependencies := [⟨"A", .FS, 0⟩], manualStart := none }

/-! ## Basic lemmas about the numeric coercions -/

theorem jsRound_eq_floor (q : ℚ) : jsRound q = ⌊q + 1 / 2⌋ := by
  have h : q + 1 / 2 = ((2 * q.num + (q.den : ℤ) : ℤ) : ℚ) / ((2 * q.den : ℕ) : ℚ) := by
    have hden : (q.den : ℚ) ≠ 0 := Nat.cast_ne_zero.mpr q.den_nz
    conv_lhs => rw [← Rat.num_div_den q]
    push_cast
    field_simp
    ring
  rw [jsRound, h, Rat.floor_intCast_div_natCast]
  push_cast
  rfl

theorem toPositiveDuration_pos (n : JSNum) : 1 ≤ toPositiveDuration n := by
  cases n with
  | fin q =>
    simp only [toPositiveDuration]
    split
    · exact le_refl 1
    · rename_i h
      have : (0 : ℚ) < q := lt_of_not_le h
      have := Int.ceil_pos.mpr this
      simpa [jsCeil] using this
  | nan => exact le_refl 1
  | posInf => exact le_refl 1
  | negInf => exact le_refl 1

theorem toValidStartDay_pos (m : Option JSNum) : 1 ≤ toValidStartDay m := by
  cases m with
  | none => exact le_refl 1
  | some n =>
    cases n with
    | fin q =>
      simp only [toValidStartDay]
      split
      · exact le_refl 1
      · rename_i h
        have : (1 : ℚ) ≤ q := le_of_not_lt h
        have := Int.le_floor.mpr (by exact_mod_cast this)
        simpa [jsFloor] using this
    | nan => exact le_refl 1
    | posInf => exact le_refl 1
    | negInf => exact le_refl 1

/-! ## `firstOccurrences` -/

theorem mem_firstOccurrences {α : Type} [DecidableEq α] (seen l : List α) (x : α) :
    x ∈ firstOccurrences seen l ↔ x ∈ l ∧ x ∉ seen := by
  induction l generalizing seen with
  | nil => simp [firstOccurrences]
  | cons y ys ih =>
    by_cases hy : y ∈ seen
    · rw [firstOccurrences, if_pos hy, ih]
      constructor
      · rintro ⟨h1, h2⟩
        exact ⟨List.mem_cons_of_mem _ h1, h2⟩
      · rintro ⟨h1, h2⟩
        rcases List.mem_cons.mp h1 with rfl | h1
        · exact absurd hy h2
        · exact ⟨h1, h2⟩
    · rw [firstOccurrences, if_neg hy]
      constructor
      · intro hx
        rcases List.mem_cons.mp hx with rfl | hx
        · exact ⟨List.mem_cons_self _ _, hy⟩
        · obtain ⟨h1, h2⟩ := (ih _).mp hx
          exact ⟨List.mem_cons_of_mem _ h1, fun hs => h2 (List.mem_cons_of_mem _ hs)⟩
      · rintro ⟨h1, h2⟩
        rcases List.mem_cons.mp h1 with rfl | h1
        · exact List.mem_cons_self _ _
        · by_cases hxy : x = y
          · subst hxy
            exact List.mem_cons_self _ _
          · refine List.mem_cons_of_mem _ ((ih _).mpr ⟨h1, fun hs => ?_⟩)
            rcases List.mem_cons.mp hs with h | h
            · exact hxy h
            · exact h2 h

theorem nodup_firstOccurrences {α : Type} [DecidableEq α] (seen l : List α) :
    (firstOccurrences seen l).Nodup := by
  induction l generalizing seen with
  | nil => simp [firstOccurrences]
  | cons y ys ih =>
    simp only [firstOccurrences]
    split
    · exact ih seen
    · refine List.Nodup.cons (fun hy => ?_) (ih (y :: seen))
      have := (mem_firstOccurrences _ _ _).mp hy
      exact this.2 (List.mem_cons_self _ _)

theorem length_firstOccurrences_le {α : Type} [DecidableEq α] (seen l : List α) :
    (firstOccurrences seen l).length ≤ l.length := by
  induction l generalizing seen with
  | nil => simp [firstOccurrences]
  | cons y ys ih =>
    simp only [firstOccurrences]
    split
    · exact le_trans (ih seen) (Nat.le_succ _)
    · simpa using ih (y :: seen)

theorem firstOccurrences_eq_self {α : Type} [DecidableEq α] (seen l : List α)
    (hn : l.Nodup) (hs : ∀ x ∈ l, x ∉ seen) : firstOccurrences seen l = l := by
  induction l generalizing seen with
  | nil => simp [firstOccurrences]
  | cons y ys ih =>
    simp only [firstOccurrences]
    rw [if_neg (hs y (List.mem_cons_self _ _))]
    congr 1
    refine ih (y :: seen) (List.Nodup.of_cons hn) (fun x hx hmem => ?_)
    rcases List.mem_cons.mp hmem with rfl | h
    · exact (List.nodup_cons.mp hn).1 hx
    · exact hs x (List.mem_cons_of_mem _ hx) h

theorem firstOccurrences_length_eq {α : Type} [DecidableEq α] (seen l : List α)
    (h : (firstOccurrences seen l).length = l.length) :
    l.Nodup ∧ ∀ x ∈ l, x ∉ seen := by
  induction l generalizing seen with
  | nil => simp
  | cons y ys ih =>
    simp only [firstOccurrences] at h
    split at h
    · rename_i hy
      have := length_firstOccurrences_le seen ys
      simp only [List.length_cons] at h
      omega
    · rename_i hy
      simp only [List.length_cons, Nat.succ.injEq] at h
      obtain ⟨h1, h2⟩ := ih (y :: seen) h
      refine ⟨List.nodup_cons.mpr ⟨fun hmem => ?_, h1⟩, ?_⟩
      · exact h2 y hmem (List.mem_cons_self _ _)
      · intro x hx
        rcases List.mem_cons.mp hx with rfl | h
        · exact hy
        · exact fun hs => h2 x h (List.mem_cons_of_mem _ hs)

/-! ## Fold congruence helpers -/

theorem foldl_congr_mem {α β : Type} {f g : β → α → β} (l : List α)
    (h : ∀ b, ∀ a ∈ l, f b a = g b a) (b : β) : l.foldl f b = l.foldl g b := by
  induction l generalizing b with
  | nil => rfl
  | cons x xs ih =>
    simp only [List.foldl_cons]
    rw [h b x (List.mem_cons_self _ _)]
    exact ih (fun b a ha => h b a (List.mem_cons_of_mem _ ha)) _

/-! ## The stable sort -/

theorem stableInsert_perm {α : Type} (le : α → α → Bool) (x : α) (l : List α) :
    stableInsert le x l ~ x :: l := by
  induction l with
  | nil => rfl
  | cons y ys ih =>
    simp only [stableInsert]
    split
    · exact ((ih.cons y).trans (List.Perm.swap x y ys))
    · rfl

theorem stableSortBy_foldl_perm {α : Type} (le : α → α → Bool) (l acc : List α) :
    l.foldl (fun a x => stableInsert le x a) acc ~ l ++ acc := by
  induction l generalizing acc with
  | nil => simp
  | cons x xs ih =>
    simp only [List.foldl_cons, List.cons_append]
    refine (ih (stableInsert le x acc)).trans ?_
    refine (List.Perm.append_left xs (stableInsert_perm le x acc)).trans ?_
    exact (List.perm_append_comm_assoc xs [x] acc).trans (by simp)

theorem stableSortBy_perm {α : Type} (le : α → α → Bool) (l : List α) :
    stableSortBy le l ~ l := by
  simpa using stableSortBy_foldl_perm le l []

theorem mem_stableSortBy {α : Type} (le : α → α → Bool) (l : List α) (x : α) :
    x ∈ stableSortBy le l ↔ x ∈ l :=
  (stableSortBy_perm le l).mem_iff

/-! ## Injectivity of the dedup key

`normalizeActivityDependencies` deduplicates through the string key
`` `${activityId}|${type}|${lagDays}` ``.  To relate this to deduplication by
the triple itself we prove the key injective: decimal digit strings are
analysed through `Nat.toDigitsCore`. -/

theorem toDigitsCore_acc (b : Nat) : ∀ (fuel n : Nat) (ds : List Char),
    Nat.toDigitsCore b fuel n ds = Nat.toDigitsCore b fuel n [] ++ ds := by
  intro fuel
  induction fuel with
  | zero => intro n ds; rfl
  | succ fuel ih =>
    intro n ds
    simp only [Nat.toDigitsCore]
    by_cases h : n / b = 0
    · simp [h]
    · rw [if_neg h, if_neg h, ih (n / b) (Nat.digitChar (n % b) :: ds),
        ih (n / b) [Nat.digitChar (n % b)], List.append_assoc]
      rfl

theorem toDigitsCore_fuel_stable : ∀ (fuel₁ fuel₂ n : Nat), n < fuel₁ → n < fuel₂ →
    Nat.toDigitsCore 10 fuel₁ n [] = Nat.toDigitsCore 10 fuel₂ n [] := by
  intro fuel₁
  induction fuel₁ with
  | zero => intro fuel₂ n h1; omega
  | succ fuel₁ ih =>
    intro fuel₂ n h1 h2
    cases fuel₂ with
    | zero => omega
    | succ fuel₂ =>
      simp only [Nat.toDigitsCore]
      by_cases h : n / 10 = 0
      · simp [h]
      · rw [if_neg h, if_neg h, toDigitsCore_acc, toDigitsCore_acc 10 fuel₂]
        have hn : 0 < n := by
          rcases Nat.eq_zero_or_pos n with rfl | hn
          · simp at h
          · exact hn
        have hlt : n / 10 < n := Nat.div_lt_self hn (by omega)
        rw [ih fuel₂ (n / 10) (by omega) (by omega)]

theorem toDigits_rec (n : Nat) : Nat.toDigits 10 n =
    if n < 10 then [Nat.digitChar n]
    else Nat.toDigits 10 (n / 10) ++ [Nat.digitChar (n % 10)] := by
  by_cases h : n < 10
  · rw [if_pos h]
    simp only [Nat.toDigits, Nat.toDigitsCore]
    rw [if_pos (Nat.div_eq_of_lt h), Nat.mod_eq_of_lt h]
  · rw [if_neg h]
    have h10 : (10 : Nat) ≤ n := le_of_not_lt h
    have hle : 1 ≤ n / 10 := (Nat.le_div_iff_mul_le (by norm_num)).mpr (by omega)
    simp only [Nat.toDigits, Nat.toDigitsCore]
    rw [if_neg (by omega), toDigitsCore_acc]
    congr 1
    exact toDigitsCore_fuel_stable n (n / 10 + 1) (n / 10)
      (lt_of_lt_of_le (Nat.div_lt_self (by omega) (by norm_num)) (le_refl n)) (Nat.lt_succ_self _)

theorem digitsVal_append_singleton (l : List Char) (c : Char) :
    digitsVal (l ++ [c]) = 10 * digitsVal l + (c.toNat - 48) := by
  simp [digitsVal, List.foldl_append]

theorem digitChar_val : ∀ m, m < 10 → (Nat.digitChar m).toNat - 48 = m := by decide

theorem digitChar_isDigit : ∀ m, m < 10 → (Nat.digitChar m).isDigit = true := by decide

theorem digitsVal_toDigits (n : Nat) : digitsVal (Nat.toDigits 10 n) = n := by
  induction n using Nat.strong_induction_on with
  | _ n ih =>
    rw [toDigits_rec]
    by_cases h : n < 10
    · rw [if_pos h]
      have : digitsVal [Nat.digitChar n] = (Nat.digitChar n).toNat - 48 := by
        simp [digitsVal]
      rw [this, digitChar_val n h]
    · rw [if_neg h, digitsVal_append_singleton,
        ih (n / 10) (Nat.div_lt_self (by omega) (by norm_num)),
        digitChar_val (n % 10) (Nat.mod_lt n (by norm_num))]
      omega

theorem mem_toDigits_isDigit (n : Nat) : ∀ c ∈ Nat.toDigits 10 n, c.isDigit = true := by
  induction n using Nat.strong_induction_on with
  | _ n ih =>
    rw [toDigits_rec]
    by_cases h : n < 10
    · rw [if_pos h]
      intro c hc
      rcases List.mem_singleton.mp hc with rfl
      exact digitChar_isDigit n h
    · rw [if_neg h]
      intro c hc
      rcases List.mem_append.mp hc with hc | hc
      · exact ih (n / 10) (Nat.div_lt_self (by omega) (by norm_num)) c hc
      · rcases List.mem_singleton.mp hc with rfl
        exact digitChar_isDigit (n % 10) (Nat.mod_lt n (by norm_num))

theorem natRepr_inj {n m : Nat} (h : Nat.repr n = Nat.repr m) : n = m := by
  have hd : (Nat.toDigits 10 n) = (Nat.toDigits 10 m) := by
    have := congrArg String.data h
    simpa [Nat.repr, List.asString] using this
  have := congrArg digitsVal hd
  rwa [digitsVal_toDigits, digitsVal_toDigits] at this

theorem isDigit_ne_of_not_digit {c d : Char} (hc : c.isDigit = true) (hd : d.isDigit = false) :
    c ≠ d := by
  intro h
  rw [h] at hc
  rw [hc] at hd
  cases hd

theorem toString_nat_data (n : Nat) : (toString n).data = Nat.toDigits 10 n := by
  rfl

theorem toString_int_ofNat (m : Nat) : toString (Int.ofNat m) = toString m := rfl

theorem toString_int_negSucc (m : Nat) :
    toString (Int.negSucc m) = "-" ++ toString (m + 1) := rfl

theorem mem_toString_int {i : Int} {c : Char} (h : c ∈ (toString i).data) :
    c.isDigit = true ∨ c = '-' := by
  cases i with
  | ofNat m =>
    rw [toString_int_ofNat, toString_nat_data] at h
    exact Or.inl (mem_toDigits_isDigit m c h)
  | negSucc m =>
    rw [toString_int_negSucc, String.data_append] at h
    rcases List.mem_append.mp h with h | h
    · right
      simpa using h
    · rw [toString_nat_data] at h
      exact Or.inl (mem_toDigits_isDigit (m + 1) c h)

theorem pipe_not_mem_toString_int (i : Int) : '|' ∉ (toString i).data := by
  intro h
  rcases mem_toString_int h with h | h
  · exact isDigit_ne_of_not_digit h (by decide) rfl
  · cases h

theorem toString_int_inj {i j : Int} (h : toString i = toString j) : i = j := by
  cases i with
  | ofNat m =>
    cases j with
    | ofNat k =>
      rw [toString_int_ofNat, toString_int_ofNat] at h
      have h' : Nat.repr m = Nat.repr k := h
      exact congrArg Int.ofNat (natRepr_inj h')
    | negSucc k =>
      exfalso
      rw [toString_int_ofNat, toString_int_negSucc] at h
      have hdata := congrArg String.data h
      rw [String.data_append, toString_nat_data] at hdata
      have hmem : '-' ∈ Nat.toDigits 10 m := by
        rw [hdata]
        exact List.mem_append_left _ (by decide)
      exact isDigit_ne_of_not_digit (mem_toDigits_isDigit m '-' hmem) (by decide) rfl
  | negSucc m =>
    cases j with
    | ofNat k =>
      exfalso
      rw [toString_int_ofNat, toString_int_negSucc] at h
      have hdata := congrArg String.data h
      rw [String.data_append, toString_nat_data k] at hdata
      have hmem : '-' ∈ Nat.toDigits 10 k := by
        rw [← hdata]
        exact List.mem_append_left _ (by decide)
      exact isDigit_ne_of_not_digit (mem_toDigits_isDigit k '-' hmem) (by decide) rfl
    | negSucc k =>
      rw [toString_int_negSucc, toString_int_negSucc] at h
      have hdata := congrArg String.data h
      rw [String.data_append, String.data_append] at hdata
      have hd2 : (toString (m + 1)).data = (toString (k + 1)).data :=
        List.append_cancel_left hdata
      have hs : Nat.repr (m + 1) = Nat.repr (k + 1) := String.ext hd2
      have : m + 1 = k + 1 := natRepr_inj hs
      exact congrArg Int.negSucc (by omega)

theorem append_pipe_cancel : ∀ (ys ys' xs xs' : List Char), '|' ∉ xs → '|' ∉ xs' →
    ys ++ '|' :: xs = ys' ++ '|' :: xs' → ys = ys' ∧ xs = xs' := by
  intro ys
  induction ys with
  | nil =>
    intro ys' xs xs' hxs hxs' h
    cases ys' with
    | nil =>
      simp only [List.nil_append, List.cons.injEq] at h
      exact ⟨rfl, h.2⟩
    | cons y' t' =>
      exfalso
      simp only [List.nil_append, List.cons_append, List.cons.injEq] at h
      obtain ⟨rfl, h2⟩ := h
      exact hxs (h2 ▸ List.mem_append_right t' (List.mem_cons_self _ _))
  | cons y t ih =>
    intro ys' xs xs' hxs hxs' h
    cases ys' with
    | nil =>
      exfalso
      simp only [List.nil_append, List.cons_append, List.cons.injEq] at h
      obtain ⟨rfl, h2⟩ := h
      exact hxs' (h2 ▸ List.mem_append_right t (List.mem_cons_self _ _))
    | cons y' t' =>
      simp only [List.cons_append, List.cons.injEq] at h
      obtain ⟨rfl, h2⟩ := h
      obtain ⟨rfl, h3⟩ := ih t' xs xs' hxs hxs' h2
      exact ⟨rfl, h3⟩

theorem pipe_not_mem_depTypeStr (t : SchedulerDependencyType) : '|' ∉ (depTypeStr t).data := by
  cases t <;> decide

theorem depTypeStr_inj {t t' : SchedulerDependencyType} (h : depTypeStr t = depTypeStr t') :
    t = t' := by
  cases t <;> cases t' <;> first | rfl | (exfalso; revert h; decide)

theorem depKey_data (dep : SchedulerDependency) :
    (depKey dep).data =
      (dep.activityId.data ++ '|' :: (depTypeStr dep.type).data) ++
        '|' :: (toString dep.lagDays).data := by
  simp only [depKey, String.data_append]
  simp [List.append_assoc]

theorem depKey_inj {d d' : SchedulerDependency} (h : depKey d = depKey d') : d = d' := by
  have hdata := congrArg String.data h
  rw [depKey_data, depKey_data] at hdata
  obtain ⟨h1, h2⟩ := append_pipe_cancel _ _ _ _
    (pipe_not_mem_toString_int d.lagDays) (pipe_not_mem_toString_int d'.lagDays) hdata
  obtain ⟨h3, h4⟩ := append_pipe_cancel _ _ _ _
    (pipe_not_mem_depTypeStr d.type) (pipe_not_mem_depTypeStr d'.type) h1
  have hid : d.activityId = d'.activityId := String.ext h3
  have htype : d.type = d'.type := depTypeStr_inj (String.ext h4)
  have hlag : d.lagDays = d'.lagDays := toString_int_inj (String.ext h2)
  cases d
  cases d'
  simp_all

/-! ## The normalizer as a two-phase dedup (claims C4, C6, C7) -/

theorem appendDep_seen_mono {st : List String × List SchedulerDependency}
    {dep : SchedulerDependency} {k : String} (h : k ∈ st.1) : k ∈ (appendDep st dep).1 := by
  unfold appendDep
  split
  · exact h
  · split
    · exact h
    · exact List.mem_cons_of_mem _ h

theorem explicitStep_eq_appendDep (st : List String × List SchedulerDependency)
    (od : Option RawDependency) :
    explicitStep st od = match explicitEntry od with
      | none => st
      | some d => appendDep st d := by
  cases od with
  | none => rfl
  | some dep =>
    cases hid : dep.activityId with
    | none => simp [explicitStep, explicitEntry, hid]
    | some rawId =>
      simp only [explicitStep, explicitEntry, hid]
      by_cases he : jsTrim rawId = ""
      · simp [he]
      · simp [he]

theorem legacyStep_eq_appendDep (st : List String × List SchedulerDependency)
    (op : Option String) :
    legacyStep st op = match legacyEntry op with
      | none => st
      | some d => appendDep st d := by
  cases op with
  | none => rfl
  | some predId =>
    simp only [legacyStep, legacyEntry]
    by_cases he : jsTrim predId = ""
    · simp [he]
    · simp [he]

theorem foldl_explicitStep (ds : List (Option RawDependency))
    (st : List String × List SchedulerDependency) :
    ds.foldl explicitStep st = (ds.filterMap explicitEntry).foldl appendDep st := by
  induction ds generalizing st with
  | nil => rfl
  | cons od rest ih =>
    rw [List.foldl_cons, List.filterMap_cons, explicitStep_eq_appendDep]
    cases explicitEntry od with
    | none => exact ih st
    | some d => rw [List.foldl_cons]; exact ih _

theorem foldl_legacyStep (ps : List (Option String))
    (st : List String × List SchedulerDependency) :
    ps.foldl legacyStep st = (ps.filterMap legacyEntry).foldl appendDep st := by
  induction ps generalizing st with
  | nil => rfl
  | cons op rest ih =>
    rw [List.foldl_cons, List.filterMap_cons, legacyStep_eq_appendDep]
    cases legacyEntry op with
    | none => exact ih st
    | some d => rw [List.foldl_cons]; exact ih _

theorem explicitEntry_ne_empty {od : Option RawDependency} {d : SchedulerDependency}
    (h : explicitEntry od = some d) : d.activityId ≠ "" := by
  cases od with
  | none => cases h
  | some dep =>
    cases hid : dep.activityId with
    | none => rw [explicitEntry, hid] at h; cases h
    | some rawId =>
      rw [explicitEntry, hid] at h
      by_cases he : jsTrim rawId = ""
      · simp [he] at h
      · simp only [he, if_neg, ite_false] at h
        cases h
        exact he

theorem legacyEntry_ne_empty {op : Option String} {d : SchedulerDependency}
    (h : legacyEntry op = some d) : d.activityId ≠ "" := by
  cases op with
  | none => cases h
  | some predId =>
    rw [legacyEntry] at h
    by_cases he : jsTrim predId = ""
    · simp [he] at h
    · simp only [he, if_neg, ite_false] at h
      cases h
      exact he

theorem foldl_appendDep_seen_mono (l : List SchedulerDependency)
    (st : List String × List SchedulerDependency) (k : String) (h : k ∈ st.1) :
    k ∈ (l.foldl appendDep st).1 := by
  induction l generalizing st with
  | nil => exact h
  | cons d rest ih => exact ih _ (appendDep_seen_mono h)

theorem foldl_appendDep_key_mem (l : List SchedulerDependency)
    (st : List String × List SchedulerDependency) (d : SchedulerDependency)
    (hd : d ∈ l) (hne : d.activityId ≠ "") : depKey d ∈ (l.foldl appendDep st).1 := by
  induction l generalizing st with
  | nil => cases hd
  | cons x rest ih =>
    rcases List.mem_cons.mp hd with rfl | hd
    · rw [List.foldl_cons]
      refine foldl_appendDep_seen_mono _ _ _ ?_
      unfold appendDep
      rw [if_neg hne]
      split
      · assumption
      · exact List.mem_cons_self _ _
    · exact ih _ hd

theorem appendDep_eq {d : SchedulerDependency} (st : List String × List SchedulerDependency)
    (hne : d.activityId ≠ "") :
    appendDep st d = if depKey d ∈ st.1 then st else (depKey d :: st.1, st.2 ++ [d]) := by
  unfold appendDep
  rw [if_neg hne]

theorem foldl_appendDep_eq_firstOccurrences :
    ∀ (l : List SchedulerDependency) (seen : List String) (out ts : List SchedulerDependency),
    (∀ d : SchedulerDependency, d.activityId ≠ "" → (depKey d ∈ seen ↔ d ∈ ts)) →
    (∀ d ∈ l, d.activityId ≠ "") →
    (l.foldl appendDep (seen, out)).2 = out ++ firstOccurrences ts l := by
  intro l
  induction l with
  | nil => intro seen out ts _ _; simp [firstOccurrences]
  | cons d rest ih =>
    intro seen out ts hsync hl
    have hd : d.activityId ≠ "" := hl d (List.mem_cons_self _ _)
    have hrest : ∀ x ∈ rest, x.activityId ≠ "" := fun x hx => hl x (List.mem_cons_of_mem _ hx)
    rw [List.foldl_cons, firstOccurrences, appendDep_eq _ hd]
    by_cases hk : depKey d ∈ seen
    · rw [if_pos hk, if_pos ((hsync d hd).mp hk)]
      exact ih seen out ts hsync hrest
    · rw [if_neg hk, if_neg (fun hts => hk ((hsync d hd).mpr hts))]
      have hsync' : ∀ x : SchedulerDependency, x.activityId ≠ "" →
          (depKey x ∈ depKey d :: seen ↔ x ∈ d :: ts) := by
        intro x hx
        constructor
        · intro hmem
          rcases List.mem_cons.mp hmem with heq | hmem
          · exact (depKey_inj heq) ▸ List.mem_cons_self _ _
          · exact List.mem_cons_of_mem _ ((hsync x hx).mp hmem)
        · intro hmem
          rcases List.mem_cons.mp hmem with rfl | hmem
          · exact List.mem_cons_self _ _
          · exact List.mem_cons_of_mem _ ((hsync x hx).mpr hmem)
      rw [ih (depKey d :: seen) (out ++ [d]) (d :: ts) hsync' hrest]
      simp

/-- Claim C4 — Normalizer contract: the normalizer's output is exactly the
explicit phase followed by the legacy phase, deduplicated by the triple
(activityId, type, lagDays) with the first occurrence winning, in insertion
order.  (A `SchedulerDependency` record *is* that triple, so first-occurrence
deduplication of the records is deduplication by the key.) -/
theorem C4_normalizer_contract (activity : SchedulerActivity) :
    normalizeActivityDependencies activity =
      firstOccurrences [] (explicitPhaseSpec activity ++ legacyPhaseSpec activity) := by
  obtain ⟨id, dur, preds, deps, ms⟩ := activity
  have h1 : normalizeActivityDependencies ⟨id, dur, preds, deps, ms⟩ =
      ((explicitPhaseSpec ⟨id, dur, preds, deps, ms⟩ ++
        legacyPhaseSpec ⟨id, dur, preds, deps, ms⟩).foldl appendDep ([], [])).2 := by
    cases deps <;> cases preds <;>
      simp [normalizeActivityDependencies, explicitPhaseSpec, legacyPhaseSpec,
        foldl_explicitStep, foldl_legacyStep, List.foldl_append]
  rw [h1]
  refine foldl_appendDep_eq_firstOccurrences _ [] [] [] (by simp) ?_
  intro d hd
  rcases List.mem_append.mp hd with hd | hd
  · rcases deps with _ | ds
    · simp [explicitPhaseSpec] at hd
    · obtain ⟨od, _, hod⟩ := List.mem_filterMap.mp hd
      exact explicitEntry_ne_empty hod
  · rcases preds with _ | ps
    · simp [legacyPhaseSpec] at hd
    · obtain ⟨op, _, hop⟩ := List.mem_filterMap.mp hd
      exact legacyEntry_ne_empty hop

theorem mem_explicitPhaseSpec_ne_empty {a : SchedulerActivity} {d : SchedulerDependency}
    (h : d ∈ explicitPhaseSpec a) : d.activityId ≠ "" := by
  unfold explicitPhaseSpec at h
  rcases hd : a.dependencies with _ | ds
  · rw [hd] at h
    cases h
  · rw [hd] at h
    obtain ⟨od, _, hod⟩ := List.mem_filterMap.mp h
    exact explicitEntry_ne_empty hod

theorem normalize_drop_dup_legacy (a : SchedulerActivity) (P : String)
    (l₁ l₂ : List (Option String))
    (hmem : (⟨P, .FS, 0⟩ : SchedulerDependency) ∈ explicitPhaseSpec a)
    (htrim : jsTrim P = P)
    (hpreds : a.predecessors = some (l₁ ++ some P :: l₂)) :
    normalizeActivityDependencies a =
      normalizeActivityDependencies { a with predecessors := some (l₁ ++ l₂) } := by
  have hP : P ≠ "" := mem_explicitPhaseSpec_ne_empty hmem
  obtain ⟨id, dur, preds, deps, ms⟩ := a
  subst hpreds
  rcases deps with _ | ds
  · simp [explicitPhaseSpec] at hmem
  · simp only [explicitPhaseSpec] at hmem
    simp only [normalizeActivityDependencies, foldl_explicitStep, foldl_legacyStep]
    have hkey : depKey ⟨P, .FS, 0⟩ ∈ ((ds.filterMap explicitEntry).foldl appendDep ([], [])).1 :=
      foldl_appendDep_key_mem _ _ _ hmem hP
    have hentry : legacyEntry (some P) = some ⟨P, .FS, 0⟩ := by
      simp [legacyEntry, htrim, hP]
    rw [List.filterMap_append, List.filterMap_cons, hentry, List.filterMap_append,
      List.foldl_append, List.foldl_append, List.foldl_cons]
    congr 1
    rw [appendDep_eq _ hP,
      if_pos (foldl_appendDep_seen_mono _ _ _ hkey)]

/-- Claim C6 — Deduplication invariance: listing the same link both as a typed
dependency (id P, type FS, lag 0) and as the legacy predecessor id P yields
exactly the same schedule as listing it only through the typed list. -/
theorem C6_dedup_invariance (pre post : List SchedulerActivity) (a : SchedulerActivity)
    (P : String) (l₁ l₂ : List (Option String))
    (hmem : (⟨P, .FS, 0⟩ : SchedulerDependency) ∈ explicitPhaseSpec a)
    (htrim : jsTrim P = P)
    (hpreds : a.predecessors = some (l₁ ++ some P :: l₂)) :
    calculateSchedule (pre ++ a :: post) =
      calculateSchedule (pre ++ { a with predecessors := some (l₁ ++ l₂) } :: post) := by
  have hnorm : normalizeActivity a = normalizeActivity { a with predecessors := some (l₁ ++ l₂) } := by
    unfold normalizeActivity
    rw [← normalize_drop_dup_legacy a P l₁ l₂ hmem htrim hpreds]
  unfold calculateSchedule
  rw [List.map_append, List.map_cons, hnorm, ← List.map_cons, ← List.map_append]
  have hlen : (pre ++ a :: post).isEmpty = (pre ++ { a with predecessors := some (l₁ ++ l₂) } :: post).isEmpty := by
    cases pre <;> rfl
  rw [hlen]

theorem selfFilterSync_appendDep_self {selfId : String}
    {st₁ st₂ : List String × List SchedulerDependency} (h : SelfFilterSync selfId st₁ st₂)
    (d : SchedulerDependency) (hid : d.activityId = selfId) (hne : d.activityId ≠ "") :
    SelfFilterSync selfId (appendDep st₁ d) st₂ := by
  obtain ⟨h1, h2, h3⟩ := h
  rw [appendDep_eq _ hne]
  split
  · exact ⟨h1, h2, h3⟩
  · refine ⟨?_, ?_, ?_⟩
    · simp only [List.filter_append, h1]
      have : (List.filter (fun d => decide (d.activityId ≠ selfId)) [d]) = [] := by
        simp [hid]
      rw [this, List.append_nil]
    · intro k hk
      exact List.mem_cons_of_mem _ (h2 k hk)
    · intro k hk
      rcases List.mem_cons.mp hk with rfl | hk
      · right
        exact ⟨d.type, d.lagDays, by rw [← hid]⟩
      · exact h3 k hk

theorem selfFilterSync_appendDep_other {selfId : String}
    {st₁ st₂ : List String × List SchedulerDependency} (h : SelfFilterSync selfId st₁ st₂)
    (d : SchedulerDependency) (hid : d.activityId ≠ selfId) (hne : d.activityId ≠ "") :
    SelfFilterSync selfId (appendDep st₁ d) (appendDep st₂ d) := by
  obtain ⟨h1, h2, h3⟩ := h
  have hmem : depKey d ∈ st₁.1 ↔ depKey d ∈ st₂.1 := by
    constructor
    · intro hk
      rcases h3 _ hk with hk | ⟨t, lag, hkey⟩
      · exact hk
      · exfalso
        have := depKey_inj hkey
        rw [this] at hid
        exact hid rfl
    · exact h2 _
  rw [appendDep_eq _ hne, appendDep_eq _ hne]
  by_cases hk : depKey d ∈ st₁.1
  · rw [if_pos hk, if_pos (hmem.mp hk)]
    exact ⟨h1, h2, h3⟩
  · rw [if_neg hk, if_neg (fun hc => hk (hmem.mpr hc))]
    refine ⟨?_, ?_, ?_⟩
    · simp only [List.filter_append, h1]
    · intro k hkm
      rcases List.mem_cons.mp hkm with rfl | hkm
      · exact List.mem_cons_self _ _
      · exact List.mem_cons_of_mem _ (h2 k hkm)
    · intro k hkm
      rcases List.mem_cons.mp hkm with rfl | hkm
      · exact Or.inl (List.mem_cons_self _ _)
      · rcases h3 k hkm with hk2 | hk2
        · exact Or.inl (List.mem_cons_of_mem _ hk2)
        · exact Or.inr hk2

theorem isSelfRawDep_true_elim {selfId : String} {od : Option RawDependency}
    (h : isSelfRawDep selfId od = true) :
    ∃ dep s, od = some dep ∧ dep.activityId = some s ∧ jsTrim s = selfId := by
  cases od with
  | none => cases h
  | some dep =>
    cases hid : dep.activityId with
    | none => rw [isSelfRawDep, hid] at h; cases h
    | some s =>
      rw [isSelfRawDep, hid] at h
      exact ⟨dep, s, rfl, hid, of_decide_eq_true h⟩

theorem explicitEntry_not_self {selfId : String} {od : Option RawDependency}
    {d : SchedulerDependency} (he : explicitEntry od = some d)
    (hs : isSelfRawDep selfId od = false) : d.activityId ≠ selfId := by
  cases od with
  | none => cases he
  | some dep =>
    cases hid : dep.activityId with
    | none => rw [explicitEntry, hid] at he; cases he
    | some s =>
      rw [explicitEntry, hid] at he
      rw [isSelfRawDep, hid] at hs
      by_cases hemp : jsTrim s = ""
      · simp [hemp] at he
      · simp only [hemp, ite_false, Option.some.injEq] at he
        subst he
        exact of_decide_eq_false hs

theorem isSelfRawPred_true_elim {selfId : String} {op : Option String}
    (h : isSelfRawPred selfId op = true) :
    ∃ s, op = some s ∧ jsTrim s = selfId := by
  cases op with
  | none => cases h
  | some s => exact ⟨s, rfl, of_decide_eq_true h⟩

theorem legacyEntry_not_self {selfId : String} {op : Option String}
    {d : SchedulerDependency} (he : legacyEntry op = some d)
    (hs : isSelfRawPred selfId op = false) : d.activityId ≠ selfId := by
  cases op with
  | none => cases he
  | some s =>
    rw [legacyEntry] at he
    by_cases hemp : jsTrim s = ""
    · simp [hemp] at he
    · simp only [hemp, ite_false, Option.some.injEq] at he
      subst he
      exact of_decide_eq_false hs

theorem selfFilterSync_foldl_explicit {selfId : String} (ds : List (Option RawDependency)) :
    ∀ {st₁ st₂ : List String × List SchedulerDependency}, SelfFilterSync selfId st₁ st₂ →
    SelfFilterSync selfId (ds.foldl explicitStep st₁)
      ((ds.filter (fun od => !(isSelfRawDep selfId od))).foldl explicitStep st₂) := by
  induction ds with
  | nil => intro st₁ st₂ h; exact h
  | cons od rest ih =>
    intro st₁ st₂ h
    by_cases hs : isSelfRawDep selfId od = true
    · rw [List.filter_cons_of_neg (by simp [hs]), List.foldl_cons]
      refine ih ?_
      obtain ⟨dep, s, rfl, hid, htrim⟩ := isSelfRawDep_true_elim hs
      rw [explicitStep_eq_appendDep]
      cases he : explicitEntry (some dep) with
      | none => exact h
      | some d =>
        have hds : d.activityId = selfId := by
          rw [explicitEntry, hid] at he
          by_cases hemp : jsTrim s = ""
          · simp [hemp] at he
          · simp only [hemp, ite_false, Option.some.injEq] at he
            subst he
            exact htrim
        exact selfFilterSync_appendDep_self h d hds (explicitEntry_ne_empty he)
    · have hs' : isSelfRawDep selfId od = false := by
        cases hb : isSelfRawDep selfId od
        · rfl
        · exact absurd hb hs
      rw [List.filter_cons_of_pos (by simp [hs']), List.foldl_cons, List.foldl_cons]
      refine ih ?_
      rw [explicitStep_eq_appendDep, explicitStep_eq_appendDep]
      cases he : explicitEntry od with
      | none => exact h
      | some d =>
        exact selfFilterSync_appendDep_other h d (explicitEntry_not_self he hs')
          (explicitEntry_ne_empty he)

theorem selfFilterSync_foldl_legacy {selfId : String} (ps : List (Option String)) :
    ∀ {st₁ st₂ : List String × List SchedulerDependency}, SelfFilterSync selfId st₁ st₂ →
    SelfFilterSync selfId (ps.foldl legacyStep st₁)
      ((ps.filter (fun op => !(isSelfRawPred selfId op))).foldl legacyStep st₂) := by
  induction ps with
  | nil => intro st₁ st₂ h; exact h
  | cons op rest ih =>
    intro st₁ st₂ h
    by_cases hs : isSelfRawPred selfId op = true
    · rw [List.filter_cons_of_neg (by simp [hs]), List.foldl_cons]
      refine ih ?_
      obtain ⟨s, rfl, htrim⟩ := isSelfRawPred_true_elim hs
      rw [legacyStep_eq_appendDep]
      cases he : legacyEntry (some s) with
      | none => exact h
      | some d =>
        have hds : d.activityId = selfId := by
          rw [legacyEntry] at he
          by_cases hemp : jsTrim s = ""
          · simp [hemp] at he
          · simp only [hemp, ite_false, Option.some.injEq] at he
            subst he
            exact htrim
        exact selfFilterSync_appendDep_self h d hds (legacyEntry_ne_empty he)
    · have hs' : isSelfRawPred selfId op = false := by
        cases hb : isSelfRawPred selfId op
        · rfl
        · exact absurd hb hs
      rw [List.filter_cons_of_pos (by simp [hs']), List.foldl_cons, List.foldl_cons]
      refine ih ?_
      rw [legacyStep_eq_appendDep, legacyStep_eq_appendDep]
      cases he : legacyEntry op with
      | none => exact h
      | some d =>
        exact selfFilterSync_appendDep_other h d (legacyEntry_not_self he hs')
          (legacyEntry_ne_empty he)

theorem normalize_dropSelfDeps (a : SchedulerActivity) :
    (normalizeActivityDependencies a).filter (fun d => decide (d.activityId ≠ a.id)) =
      (normalizeActivityDependencies (dropSelfDeps a)).filter
        (fun d => decide (d.activityId ≠ a.id)) := by
  obtain ⟨id, dur, preds, deps, ms⟩ := a
  have h0 : SelfFilterSync id ([], []) ([], []) := by
    refine ⟨rfl, ?_, ?_⟩ <;> intro k hk <;> cases hk
  have hfinal : SelfFilterSync id
      ((match preds with
        | some ps => ps.foldl legacyStep
            (match deps with
              | some ds => ds.foldl explicitStep ([], [])
              | none => ([], []))
        | none => (match deps with
              | some ds => ds.foldl explicitStep ([], [])
              | none => ([], []))))
      ((match preds.map (fun ps => ps.filter (fun op => !(isSelfRawPred id op))) with
        | some ps => ps.foldl legacyStep
            (match deps.map (fun ds => ds.filter (fun od => !(isSelfRawDep id od))) with
              | some ds => ds.foldl explicitStep ([], [])
              | none => ([], []))
        | none => (match deps.map (fun ds => ds.filter (fun od => !(isSelfRawDep id od))) with
              | some ds => ds.foldl explicitStep ([], [])
              | none => ([], [])))) := by
    cases deps with
    | none =>
      cases preds with
      | none => exact h0
      | some ps => exact selfFilterSync_foldl_legacy ps h0
    | some ds =>
      cases preds with
      | none => exact selfFilterSync_foldl_explicit ds h0
      | some ps => exact selfFilterSync_foldl_legacy ps (selfFilterSync_foldl_explicit ds h0)
  exact hfinal.1

/-- Claim C7 — Self-dependency removal: an activity that lists its own id as a
typed dependency or legacy predecessor is scheduled exactly as if those links
were absent. -/
theorem C7_self_dependency (pre post : List SchedulerActivity) (a : SchedulerActivity) :
    calculateSchedule (pre ++ a :: post) = calculateSchedule (pre ++ dropSelfDeps a :: post) := by
  have hnorm : normalizeActivity a = normalizeActivity (dropSelfDeps a) := by
    unfold normalizeActivity
    have hid : (dropSelfDeps a).id = a.id := rfl
    have hdur : (dropSelfDeps a).duration = a.duration := rfl
    have hms : (dropSelfDeps a).manualStart = a.manualStart := rfl
    rw [hid, hdur, hms]
    have := normalize_dropSelfDeps a
    simp only [ne_eq] at this ⊢
    rw [this]
  unfold calculateSchedule
  rw [List.map_append, List.map_cons, hnorm, ← List.map_cons, ← List.map_append]
  have hlen : (pre ++ a :: post).isEmpty = (pre ++ dropSelfDeps a :: post).isEmpty := by
    cases pre <;> rfl
  rw [hlen]

/-! ## The sequential fallback (claim C3) -/

theorem sequentialFallback_foldl (l : List NormalizedActivity) :
    ∀ (c : Int) (acc : List ScheduledActivity),
    (l.foldl
      (fun (st : Int × List ScheduledActivity) activity =>
        let startDay := max st.1 (toValidStartDay activity.manualStart)
        let duration := toPositiveDuration (.fin (activity.duration : ℚ))
        let endDay := startDay + duration - 1
        (endDay + 1,
         st.2 ++ [{ id := activity.id, duration := duration, startDay := startDay,
                    endDay := endDay, totalFloat := 0, freeFloat := 0, isCritical := true }]))
      (c, acc)).2 = acc ++ seqSpec c l := by
  induction l with
  | nil => intro c acc; simp [seqSpec]
  | cons a rest ih =>
    intro c acc
    rw [List.foldl_cons, seqSpec]
    rw [ih]
    simp

theorem sequentialFallback_eq_seqSpec (l : List NormalizedActivity) :
    sequentialFallback l = seqSpec 1 l := by
  unfold sequentialFallback
  rw [sequentialFallback_foldl]
  simp

theorem seqSpec_flags : ∀ (c : Int) (l : List NormalizedActivity) (r : ScheduledActivity),
    r ∈ seqSpec c l → r.totalFloat = 0 ∧ r.freeFloat = 0 ∧ r.isCritical = true := by
  intro c l
  induction l generalizing c with
  | nil => intro r hr; cases hr
  | cons a rest ih =>
    intro r hr
    rw [seqSpec] at hr
    rcases List.mem_cons.mp hr with rfl | hr
    · exact ⟨rfl, rfl, rfl⟩
    · exact ih _ r hr

/-- Claim C3 — Cycle fallback: when Kahn's topological order is shorter than
the activity count, `calculateSchedule` returns the sequential schedule over
the normalized activities in input order (start = max(cursor, manual floor),
end = start + duration − 1, cursor := end + 1), with every activity critical
and both floats zero. -/
theorem C3_cycle_fallback (acts : List SchedulerActivity)
    (h : (sortedN (acts.map normalizeActivity)).length < acts.length) :
    calculateSchedule acts = seqSpec 1 (acts.map normalizeActivity) ∧
      ∀ r ∈ calculateSchedule acts,
        r.isCritical = true ∧ r.totalFloat = 0 ∧ r.freeFloat = 0 := by
  have hne : acts.isEmpty = false := by
    cases acts with
    | nil => simp [sortedN] at h
    | cons x xs => rfl
  have hmain : calculateSchedule acts = seqSpec 1 (acts.map normalizeActivity) := by
    unfold calculateSchedule
    rw [hne]
    simp only [Bool.false_eq_true, if_false]
    unfold scheduleN
    rw [if_pos (by rw [List.length_map]; omega)]
    exact sequentialFallback_eq_seqSpec _
  refine ⟨hmain, fun r hr => ?_⟩
  rw [hmain] at hr
  obtain ⟨h1, h2, h3⟩ := seqSpec_flags _ _ _ hr
  exact ⟨h3, h1, h2⟩

/-! ## Edge counting -/

theorem receivedCount_append (succ : String → Option (List SuccessorRelation))
    (l₁ l₂ : List String) (v : String) :
    receivedCount succ (l₁ ++ l₂) v = receivedCount succ l₁ v + receivedCount succ l₂ v := by
  simp [receivedCount, List.sum_append]

theorem receivedCount_singleton (succ : String → Option (List SuccessorRelation))
    (u v : String) : receivedCount succ [u] v = succCount succ u v := by
  simp [receivedCount]

theorem receivedCount_le_of_subset (succ : String → Option (List SuccessorRelation))
    {l m : List String} (hn : l.Nodup) (hs : l ⊆ m) (v : String) :
    receivedCount succ l v ≤ receivedCount succ m v := by
  obtain ⟨l', hp, hsub⟩ := hn.subperm hs
  have h1 : receivedCount succ l v = receivedCount succ l' v :=
    ((hp.map (fun u => succCount succ u v)).sum_eq).symm
  rw [h1]
  exact List.Sublist.sum_le_sum (hsub.map _) (fun a _ => Nat.zero_le a)

theorem succCount_pos_of_mem {succ : String → Option (List SuccessorRelation)}
    {u v : String} {rel : SuccessorRelation} (h : rel ∈ (succ u).getD [])
    (hv : rel.successorId = v) : 0 < succCount succ u v := by
  unfold succCount
  exact List.countP_pos_iff.mpr ⟨rel, h, by simp [hv]⟩

theorem succCount_zero_outside {succ : String → Option (List SuccessorRelation)}
    {keys s₁ : List String} (hs : s₁ ⊆ keys) (hn : s₁.Nodup)
    {v u : String} (heq : receivedCount succ s₁ v = receivedCount succ keys v)
    (hu : u ∈ keys) (hnot : u ∉ s₁) : succCount succ u v = 0 := by
  by_contra h
  have hpos : 0 < succCount succ u v := Nat.pos_of_ne_zero h
  have hnodup : (s₁ ++ [u]).Nodup := by
    rw [List.nodup_append]
    exact ⟨hn, List.nodup_singleton u, by simpa using hnot⟩
  have hsubset : (s₁ ++ [u]) ⊆ keys := by
    intro x hx
    rcases List.mem_append.mp hx with hx | hx
    · exact hs hx
    · rcases List.mem_singleton.mp hx with rfl
      exact hu
  have hle := receivedCount_le_of_subset succ hnodup hsubset v
  rw [receivedCount_append, receivedCount_singleton] at hle
  omega

/-! ## Graph construction -/

theorem mem_idsOfN_cons {k : String} {a : NormalizedActivity} {rest : List NormalizedActivity} :
    k ∈ idsOfN (a :: rest) ↔ k = a.id ∨ k ∈ idsOfN rest := by
  simp [idsOfN]

theorem foldl_setConst {β : Type} (val : β) (acts : List NormalizedActivity) :
    ∀ (m : String → Option β) (k : String),
    (acts.foldl (fun m a => fun j => if j = a.id then some val else m j) m) k =
      if k ∈ idsOfN acts then some val else m k := by
  induction acts with
  | nil => intro m k; simp [idsOfN]
  | cons a rest ih =>
    intro m k
    rw [List.foldl_cons, ih]
    by_cases hk : k ∈ idsOfN rest
    · rw [if_pos hk, if_pos (mem_idsOfN_cons.mpr (Or.inr hk))]
    · rw [if_neg hk]
      by_cases hka : k = a.id
      · rw [if_pos hka, if_pos (mem_idsOfN_cons.mpr (Or.inl hka))]
      · rw [if_neg hka, if_neg (fun hm => by
          rcases mem_idsOfN_cons.mp hm with h | h
          · exact hka h
          · exact hk h)]

theorem initGraph_inDegree (acts : List NormalizedActivity) (k : String) :
    (initGraph acts).inDegree k = if k ∈ idsOfN acts then some 0 else none :=
  foldl_setConst 0 acts _ k

theorem initGraph_successors (acts : List NormalizedActivity) (u : String) :
    (initGraph acts).successors u = if u ∈ idsOfN acts then some [] else none :=
  foldl_setConst [] acts _ u

theorem buildActivityMap_spec (acts : List NormalizedActivity) :
    ∀ (m : String → Option NormalizedActivity) (k : String),
    ((acts.foldl (fun m a => fun j => if j = a.id then some a else m j) m) k = m k ∧
      k ∉ idsOfN acts) ∨
    (∃ a ∈ acts, a.id = k ∧
      (acts.foldl (fun m a => fun j => if j = a.id then some a else m j) m) k = some a) := by
  induction acts with
  | nil => intro m k; left; exact ⟨rfl, by simp [idsOfN]⟩
  | cons a rest ih =>
    intro m k
    rw [List.foldl_cons]
    rcases ih (fun j => if j = a.id then some a else m j) k with ⟨heq, hnot⟩ | ⟨b, hb, hbk, hbv⟩
    · by_cases hka : k = a.id
      · right
        refine ⟨a, List.mem_cons_self _ _, hka.symm, ?_⟩
        rw [heq, if_pos hka]
      · left
        rw [heq, if_neg hka]
        exact ⟨rfl, fun hm => by
          rcases mem_idsOfN_cons.mp hm with h | h
          · exact hka h
          · exact hnot h⟩
    · right
      exact ⟨b, List.mem_cons_of_mem _ hb, hbk, hbv⟩

theorem amapN_isSome (acts : List NormalizedActivity) (k : String) :
    (amapN acts k).isSome ↔ k ∈ idsOfN acts := by
  rcases buildActivityMap_spec acts (fun _ => none) k with ⟨heq, hnot⟩ | ⟨a, ha, hak, hav⟩
  · constructor
    · intro hs
      exfalso
      rw [show amapN acts k = (fun _ => none : String → Option NormalizedActivity) k from heq]
        at hs
      cases hs
    · intro hm
      exact absurd hm hnot
  · constructor
    · intro _
      rw [← hak]
      exact List.mem_map_of_mem _ ha
    · intro _
      rw [show amapN acts k = some a from hav]
      rfl

theorem amapN_eq_some {acts : List NormalizedActivity} {k : String} {a : NormalizedActivity}
    (h : amapN acts k = some a) : a ∈ acts ∧ a.id = k := by
  rcases buildActivityMap_spec acts (fun _ => none) k with ⟨heq, _⟩ | ⟨b, hb, hbk, hbv⟩
  · rw [show amapN acts k = (fun _ => none : String → Option NormalizedActivity) k from heq] at h
    cases h
  · rw [show amapN acts k = some b from hbv] at h
    cases h
    exact ⟨hb, hbk⟩

theorem amapN_self {acts : List NormalizedActivity} (hn : (idsOfN acts).Nodup)
    {a : NormalizedActivity} (ha : a ∈ acts) : amapN acts a.id = some a := by
  have hs : (amapN acts a.id).isSome := (amapN_isSome acts a.id).mpr (List.mem_map_of_mem _ ha)
  obtain ⟨b, hb⟩ := Option.isSome_iff_exists.mp hs
  obtain ⟨hbmem, hbid⟩ := amapN_eq_some hb
  have : b = a := List.inj_on_of_nodup_map hn hbmem ha hbid
  rw [hb, this]

theorem sum_map_delta {l : List String} (hn : l.Nodup) {u : String} (hu : u ∈ l)
    (f g : String → Nat) (d : Nat) (hsame : ∀ x ∈ l, x ≠ u → g x = f x)
    (hdelta : g u = f u + d) : (l.map g).sum = (l.map f).sum + d := by
  induction l with
  | nil => cases hu
  | cons x rest ih =>
    rw [List.map_cons, List.map_cons, List.sum_cons, List.sum_cons]
    rcases List.mem_cons.mp hu with rfl | hu2
    · have hrest : ∀ y ∈ rest, g y = f y := by
        intro y hy
        refine hsame y (List.mem_cons_of_mem _ hy) (fun hyu => ?_)
        subst hyu
        exact (List.nodup_cons.mp hn).1 hy
      rw [hdelta, List.map_congr_left hrest]
      omega
    · have hx : x ≠ u := by
        intro hxu
        subst hxu
        exact (List.nodup_cons.mp hn).1 hu2
      rw [hsame x (List.mem_cons_self _ _) hx,
        ih (List.nodup_cons.mp hn).2 hu2 (fun y hy hyu => hsame y (List.mem_cons_of_mem _ hy) hyu)]
      omega

theorem pushSuccessor_eq {succ : String → Option (List SuccessorRelation)} {key : String}
    {rels : List SuccessorRelation} (hrels : succ key = some rels) (rel : SuccessorRelation) :
    pushSuccessor succ key rel =
      fun k => if k = key then some (rels ++ [rel]) else succ k := by
  unfold pushSuccessor
  rw [hrels]

theorem pushSuccessor_apply {succ : String → Option (List SuccessorRelation)} {key : String}
    {rels : List SuccessorRelation} (hrels : succ key = some rels) (rel : SuccessorRelation)
    (u : String) :
    pushSuccessor succ key rel u = if u = key then some (rels ++ [rel]) else succ u := by
  unfold pushSuccessor
  rw [hrels]

theorem receivedCount_pushSuccessor {succ : String → Option (List SuccessorRelation)}
    {keys : List String} (hkn : keys.Nodup) {u : String} (hu : u ∈ keys)
    {rels : List SuccessorRelation} (hrels : succ u = some rels) (rel : SuccessorRelation)
    (k : String) :
    receivedCount (pushSuccessor succ u rel) keys k =
      receivedCount succ keys k + (if rel.successorId = k then 1 else 0) := by
  unfold receivedCount
  refine sum_map_delta hkn hu _ _ _ ?_ ?_
  · intro x hx hxu
    unfold succCount
    rw [pushSuccessor_eq hrels]
    simp only [if_neg hxu]
  · unfold succCount
    rw [pushSuccessor_eq hrels]
    simp only [if_pos rfl, hrels]
    simp [List.countP_append, List.countP_cons]

theorem addEdge_edgeInv {ids keys : List String} (hkeys : keys.Nodup)
    (hmemkeys : ∀ x, x ∈ keys ↔ x ∈ ids)
    {amap : String → Option NormalizedActivity} (hamap : ∀ t, (amap t).isSome ↔ t ∈ ids)
    {aid : String} (haid : aid ∈ ids)
    {st : GraphState} (hinv : EdgeInv ids keys st) (d : SchedulerDependency) :
    EdgeInv ids keys (addEdge amap aid st d) := by
  obtain ⟨hdom, hsdom, htgt, htot⟩ := hinv
  by_cases hg : (amap d.activityId).isSome
  · have htin : d.activityId ∈ ids := (hamap _).mp hg
    have hsome : (st.successors d.activityId).isSome := (hsdom _).mpr htin
    obtain ⟨rels, hrels⟩ := Option.isSome_iff_exists.mp hsome
    have hstep : addEdge amap aid st d =
        { inDegree := fun k => if k = aid then some ((st.inDegree aid).getD 0 + 1)
            else st.inDegree k
          successors := fun k => if k = d.activityId then some (rels ++ [⟨aid, d⟩])
            else st.successors k } := by
      unfold addEdge
      rw [if_pos hg, pushSuccessor_eq hrels]
      rfl
    rw [hstep]
    refine ⟨?_, ?_, ?_, ?_⟩
    · intro k
      by_cases hk : k = aid
      · subst hk; simp [haid]
      · simp only [if_neg hk]; exact hdom k
    · intro u
      by_cases hu : u = d.activityId
      · subst hu; simp [htin]
      · simp only [if_neg hu]; exact hsdom u
    · intro u rel hrel
      simp only at hrel
      by_cases hu : u = d.activityId
      · subst hu
        rw [if_pos rfl] at hrel
        simp only [Option.getD_some] at hrel
        rcases List.mem_append.mp hrel with hrel | hrel
        · exact htgt _ rel (by rw [hrels]; exact hrel)
        · rcases List.mem_singleton.mp hrel with rfl
          exact haid
      · rw [if_neg hu] at hrel
        exact htgt u rel hrel
    · intro k hk
      have hrece : receivedCount
          (fun k => if k = d.activityId then some (rels ++ [⟨aid, d⟩]) else st.successors k)
          keys k =
          receivedCount st.successors keys k + (if aid = k then 1 else 0) := by
        rw [← pushSuccessor_eq hrels]
        exact receivedCount_pushSuccessor hkeys ((hmemkeys _).mpr htin) hrels _ k
      simp only
      rw [hrece]
      by_cases hka : k = aid
      · rw [← hka, if_pos rfl, htot k hk, if_pos rfl]
        simp only [Option.getD_some]
        push_cast
        ring_nf
      · rw [if_neg hka, htot k hk, if_neg (fun hc : aid = k => hka hc.symm)]
        norm_num
  · unfold addEdge
    rw [if_neg hg]
    exact ⟨hdom, hsdom, htgt, htot⟩

theorem foldl_addEdge_edgeInv {ids keys : List String} (hkeys : keys.Nodup)
    (hmemkeys : ∀ x, x ∈ keys ↔ x ∈ ids)
    {amap : String → Option NormalizedActivity} (hamap : ∀ t, (amap t).isSome ↔ t ∈ ids)
    {aid : String} (haid : aid ∈ ids) (deps : List SchedulerDependency) :
    ∀ {st : GraphState}, EdgeInv ids keys st →
    EdgeInv ids keys (deps.foldl (addEdge amap aid) st) := by
  induction deps with
  | nil => intro st h; exact h
  | cons d rest ih =>
    intro st h
    exact ih (addEdge_edgeInv hkeys hmemkeys hamap haid h d)

theorem buildEdges_edgeInv {ids keys : List String} (hkeys : keys.Nodup)
    (hmemkeys : ∀ x, x ∈ keys ↔ x ∈ ids)
    {amap : String → Option NormalizedActivity} (hamap : ∀ t, (amap t).isSome ↔ t ∈ ids)
    (acts : List NormalizedActivity) (hacts : ∀ a ∈ acts, a.id ∈ ids) :
    ∀ {st : GraphState}, EdgeInv ids keys st → EdgeInv ids keys (buildEdges amap acts st) := by
  induction acts with
  | nil => intro st h; exact h
  | cons a rest ih =>
    intro st h
    unfold buildEdges
    rw [List.foldl_cons]
    exact ih (fun b hb => hacts b (List.mem_cons_of_mem _ hb))
      (foldl_addEdge_edgeInv hkeys hmemkeys hamap (hacts a (List.mem_cons_self _ _)) _ h)

theorem mem_keysOfN (acts : List NormalizedActivity) (x : String) :
    x ∈ keysOfN acts ↔ x ∈ idsOfN acts := by
  unfold keysOfN
  rw [mem_firstOccurrences]
  simp

theorem nodup_keysOfN (acts : List NormalizedActivity) : (keysOfN acts).Nodup :=
  nodup_firstOccurrences _ _

theorem initGraph_edgeInv (acts : List NormalizedActivity) :
    EdgeInv (idsOfN acts) (keysOfN acts) (initGraph acts) := by
  refine ⟨?_, ?_, ?_, ?_⟩
  · intro k
    rw [initGraph_inDegree]
    split <;> simp_all
  · intro u
    rw [initGraph_successors]
    split <;> simp_all
  · intro u rel hrel
    rw [initGraph_successors] at hrel
    split at hrel <;> simp_all
  · intro k hk
    rw [initGraph_inDegree, if_pos hk]
    have : receivedCount (initGraph acts).successors (keysOfN acts) k = 0 := by
      apply List.sum_eq_zero
      intro x hx
      obtain ⟨u, _, rfl⟩ := List.mem_map.mp hx
      unfold succCount
      rw [initGraph_successors]
      split <;> simp
    rw [this]
    rfl

theorem graphN_edgeInv (acts : List NormalizedActivity) :
    EdgeInv (idsOfN acts) (keysOfN acts) (graphN acts) := by
  unfold graphN
  exact buildEdges_edgeInv (nodup_keysOfN acts) (mem_keysOfN acts) (amapN_isSome acts)
    acts (fun a ha => List.mem_map_of_mem _ ha) (initGraph_edgeInv acts)

theorem pushSuccessor_mono {succ : String → Option (List SuccessorRelation)} {key : String}
    {r' : SuccessorRelation} {u : String} {rel : SuccessorRelation}
    (h : rel ∈ (succ u).getD []) : rel ∈ ((pushSuccessor succ key r') u).getD [] := by
  cases hk : succ key with
  | none =>
    unfold pushSuccessor
    rw [hk]
    exact h
  | some rels =>
    rw [pushSuccessor_apply hk]
    by_cases hu : u = key
    · rw [if_pos hu]
      simp only [Option.getD_some]
      rw [hu, hk] at h
      simp only [Option.getD_some] at h
      exact List.mem_append_left _ h
    · rw [if_neg hu]
      exact h

theorem addEdge_succ_mono {amap : String → Option NormalizedActivity} {aid : String}
    {st : GraphState} {d : SchedulerDependency} {u : String} {rel : SuccessorRelation}
    (h : rel ∈ (st.successors u).getD []) :
    rel ∈ ((addEdge amap aid st d).successors u).getD [] := by
  unfold addEdge
  split
  · exact pushSuccessor_mono h
  · exact h

theorem foldl_addEdge_succ_mono {amap : String → Option NormalizedActivity} {aid : String}
    (deps : List SchedulerDependency) :
    ∀ {st : GraphState} {u : String} {rel : SuccessorRelation},
    rel ∈ (st.successors u).getD [] →
    rel ∈ ((deps.foldl (addEdge amap aid) st).successors u).getD [] := by
  induction deps with
  | nil => intro st u rel h; exact h
  | cons d rest ih => intro st u rel h; exact ih (addEdge_succ_mono h)

theorem buildEdges_succ_mono {amap : String → Option NormalizedActivity}
    (acts : List NormalizedActivity) :
    ∀ {st : GraphState} {u : String} {rel : SuccessorRelation},
    rel ∈ (st.successors u).getD [] →
    rel ∈ ((buildEdges amap acts st).successors u).getD [] := by
  induction acts with
  | nil => intro st u rel h; exact h
  | cons a rest ih =>
    intro st u rel h
    unfold buildEdges
    rw [List.foldl_cons]
    exact ih (foldl_addEdge_succ_mono _ h)

theorem graphN_edge_mem (acts : List NormalizedActivity) {a : NormalizedActivity}
    (ha : a ∈ acts) {dep : SchedulerDependency} (hdep : dep ∈ a.dependencies)
    (hsome : (amapN acts dep.activityId).isSome) :
    (⟨a.id, dep⟩ : SuccessorRelation) ∈ ((graphN acts).successors dep.activityId).getD [] := by
  obtain ⟨l₁, l₂, rfl⟩ := List.append_of_mem ha
  obtain ⟨d₁, d₂, hdeps⟩ := List.append_of_mem hdep
  have hids : ∀ b ∈ l₁ ++ a :: l₂, b.id ∈ idsOfN (l₁ ++ a :: l₂) :=
    fun b hb => List.mem_map_of_mem _ hb
  have hinvmid : EdgeInv (idsOfN (l₁ ++ a :: l₂)) (keysOfN (l₁ ++ a :: l₂))
      (d₁.foldl (addEdge (amapN (l₁ ++ a :: l₂)) a.id)
        (buildEdges (amapN (l₁ ++ a :: l₂)) l₁ (initGraph (l₁ ++ a :: l₂)))) := by
    refine foldl_addEdge_edgeInv (nodup_keysOfN _) (mem_keysOfN _) (amapN_isSome _)
      (hids a (List.mem_append_right _ (List.mem_cons_self _ _))) _ ?_
    exact buildEdges_edgeInv (nodup_keysOfN _) (mem_keysOfN _) (amapN_isSome _) l₁
      (fun b hb => hids b (List.mem_append_left _ hb)) (initGraph_edgeInv _)
  have htin : dep.activityId ∈ idsOfN (l₁ ++ a :: l₂) := (amapN_isSome _ _).mp hsome
  set stmid := d₁.foldl (addEdge (amapN (l₁ ++ a :: l₂)) a.id)
    (buildEdges (amapN (l₁ ++ a :: l₂)) l₁ (initGraph (l₁ ++ a :: l₂))) with hstmid
  have hsmid : (stmid.successors dep.activityId).isSome := (hinvmid.2.1 _).mpr htin
  obtain ⟨rels, hrels⟩ := Option.isSome_iff_exists.mp hsmid
  have hmem1 : (⟨a.id, dep⟩ : SuccessorRelation) ∈
      ((addEdge (amapN (l₁ ++ a :: l₂)) a.id stmid dep).successors dep.activityId).getD [] := by
    unfold addEdge
    rw [if_pos hsome]
    simp only
    rw [pushSuccessor_apply hrels, if_pos rfl]
    simp
  have hgraph : graphN (l₁ ++ a :: l₂) =
      buildEdges (amapN (l₁ ++ a :: l₂)) l₂
        (d₂.foldl (addEdge (amapN (l₁ ++ a :: l₂)) a.id)
          (addEdge (amapN (l₁ ++ a :: l₂)) a.id stmid dep)) := by
    unfold graphN buildEdges
    rw [List.foldl_append, List.foldl_cons, hdeps, List.foldl_append, List.foldl_cons, hstmid]
    unfold buildEdges
    rfl
  rw [hgraph]
  exact buildEdges_succ_mono _ (foldl_addEdge_succ_mono _ hmem1)

/-! ## Kahn's loop -/

theorem kahnDecrement_foldl_deg (L : List SuccessorRelation) :
    ∀ (deg : String → Option Int) (q : List String) (k : String),
    (L.foldl kahnDecrement (deg, q)).1 k =
      if L.countP (fun r => decide (r.successorId = k)) = 0 then deg k
      else some ((deg k).getD 0 - (L.countP (fun r => decide (r.successorId = k)) : Int)) := by
  induction L with
  | nil => intro deg q k; simp
  | cons rel rest ih =>
    obtain ⟨w, dd⟩ := rel
    intro deg q k
    rw [List.foldl_cons]
    have hstep : kahnDecrement (deg, q) ⟨w, dd⟩ =
        ((fun j => if j = w then some ((deg w).getD 0 - 1) else deg j),
         if (deg w).getD 0 - 1 = 0 then q ++ [w] else q) := rfl
    rw [hstep, ih]
    by_cases hk : k = w
    · subst hk
      have hcnt : ((⟨k, dd⟩ : SuccessorRelation) :: rest).countP
          (fun r => decide (r.successorId = k)) =
          rest.countP (fun r => decide (r.successorId = k)) + 1 := by
        rw [List.countP_cons]
        simp
      rw [if_pos (rfl : k = k), hcnt]
      by_cases hr : rest.countP (fun r => decide (r.successorId = k)) = 0
      · rw [if_pos hr, hr, if_neg (by omega)]
        simp only [Option.some.injEq]
        push_cast
        ring
      · rw [if_neg hr, if_neg (by omega)]
        simp only [Option.getD_some, Option.some.injEq]
        push_cast
        ring
    · have hwk : ¬(w = k) := fun h => hk h.symm
      have hcnt : ((⟨w, dd⟩ : SuccessorRelation) :: rest).countP
          (fun r => decide (r.successorId = k)) =
          rest.countP (fun r => decide (r.successorId = k)) := by
        rw [List.countP_cons]
        simp [hwk]
      rw [if_neg hk, hcnt]

theorem kahnDecrement_foldl_queue (L : List SuccessorRelation) :
    ∀ (deg : String → Option Int) (q : List String),
    (∀ k, 0 < L.countP (fun r => decide (r.successorId = k)) →
      ∃ old : Int, deg k = some old ∧
        (L.countP (fun r => decide (r.successorId = k)) : Int) ≤ old) →
    ∃ news : List String,
      (L.foldl kahnDecrement (deg, q)).2 = q ++ news ∧ news.Nodup ∧
      (∀ t, t ∈ news ↔ (0 < L.countP (fun r => decide (r.successorId = t)) ∧
        (deg t).getD 0 = (L.countP (fun r => decide (r.successorId = t)) : Int))) := by
  induction L with
  | nil =>
    intro deg q _
    exact ⟨[], by simp, List.nodup_nil, fun t => by simp⟩
  | cons rel rest ih =>
    obtain ⟨w, dd⟩ := rel
    intro deg q hbound
    have hcnthd : ∀ t, ((⟨w, dd⟩ : SuccessorRelation) :: rest).countP
        (fun r => decide (r.successorId = t)) =
        rest.countP (fun r => decide (r.successorId = t)) + (if w = t then 1 else 0) := by
      intro t
      rw [List.countP_cons]
      by_cases h : w = t <;> simp [h]
    have hwpos : 0 < ((⟨w, dd⟩ : SuccessorRelation) :: rest).countP
        (fun r => decide (r.successorId = w)) := by
      rw [hcnthd]
      simp
    obtain ⟨old, hold, holdge⟩ := hbound w hwpos
    have holdw : (deg w).getD 0 = old := by rw [hold]; rfl
    have hcw : ((⟨w, dd⟩ : SuccessorRelation) :: rest).countP
        (fun r => decide (r.successorId = w)) =
        rest.countP (fun r => decide (r.successorId = w)) + 1 := by
      rw [hcnthd, if_pos rfl]
    rw [List.foldl_cons]
    have hstep : kahnDecrement (deg, q) ⟨w, dd⟩ =
        ((fun j => if j = w then some (old - 1) else deg j),
         if old - 1 = 0 then q ++ [w] else q) := by
      show ((fun k => if k = w then some ((deg w).getD 0 - 1) else deg k),
        if (deg w).getD 0 - 1 = 0 then q ++ [w] else q) = _
      rw [holdw]
    rw [hstep]
    have hvw : ((fun j => if j = w then some (old - 1) else deg j) w) = some (old - 1) := by
      simp
    have hvt : ∀ t, t ≠ w → ((fun j => if j = w then some (old - 1) else deg j) t) = deg t := by
      intro t ht
      simp [ht]
    have hbound' : ∀ k, 0 < rest.countP (fun r => decide (r.successorId = k)) →
        ∃ o : Int,
          (fun j => if j = w then some (old - 1) else deg j) k = some o ∧
          (rest.countP (fun r => decide (r.successorId = k)) : Int) ≤ o := by
      intro k hkpos
      by_cases hk : k = w
      · subst hk
        refine ⟨old - 1, hvw, ?_⟩
        rw [hcw] at holdge
        push_cast at holdge ⊢
        omega
      · obtain ⟨o, ho, hoge⟩ := hbound k (by rw [hcnthd]; omega)
        refine ⟨o, by rw [hvt k hk, ho], ?_⟩
        have h1 := hcnthd k
        rw [if_neg (fun h => hk h.symm)] at h1
        rw [h1] at hoge
        push_cast at hoge ⊢
        omega
    by_cases hzero : old - 1 = 0
    · rw [if_pos hzero]
      obtain ⟨news, hq, hnodup, hchar⟩ := ih _ (q ++ [w]) hbound'
      refine ⟨w :: news, ?_, ?_, ?_⟩
      · rw [hq, List.append_assoc]
        rfl
      · refine List.Nodup.cons (fun hmem => ?_) hnodup
        have hc := (hchar _).mp hmem
        rw [if_pos (rfl : w = w)] at hc
        simp only [Option.getD_some] at hc
        omega
      · intro t
        by_cases ht : t = w
        · subst ht
          simp only [List.mem_cons, true_or, true_iff]
          rw [hcw, holdw]
          rw [hcw] at holdge
          push_cast at holdge ⊢
          omega
        · rw [List.mem_cons]
          simp only [ht, false_or]
          rw [hchar t, if_neg ht]
          have h1 := hcnthd t
          rw [if_neg (fun h => ht h.symm)] at h1
          rw [h1]
          omega
    · rw [if_neg hzero]
      obtain ⟨news, hq, hnodup, hchar⟩ := ih _ q hbound'
      refine ⟨news, hq, hnodup, ?_⟩
      intro t
      rw [hchar t]
      by_cases ht : t = w
      · subst ht
        rw [if_pos (rfl : t = t), hcw, holdw]
        simp only [Option.getD_some]
        rw [hcw] at holdge
        push_cast at holdge ⊢
        constructor
        · rintro ⟨ha, hb⟩
          omega
        · rintro ⟨ha, hb⟩
          omega
      · rw [if_neg ht]
        have h1 := hcnthd t
        rw [if_neg (fun h => ht h.symm)] at h1
        rw [h1]
        omega

theorem append_singleton_split {α : Type} {l : List α} {c : α} {s₁ s₂ : List α} {v : α}
    (h : l ++ [c] = s₁ ++ v :: s₂) :
    (s₂ = [] ∧ s₁ = l ∧ v = c) ∨ (∃ s₂', s₂ = s₂' ++ [c] ∧ l = s₁ ++ v :: s₂') := by
  rcases s₂.eq_nil_or_concat with rfl | ⟨s₂', a, rfl⟩
  · left
    have h2 : l ++ [c] = s₁ ++ [v] := h
    have := List.append_inj' h2 rfl
    obtain ⟨h3, h4⟩ := this
    simp only [List.cons.injEq] at h4
    exact ⟨rfl, h3.symm, h4.1.symm⟩
  · right
    have h2 : l ++ [c] = (s₁ ++ v :: s₂') ++ [a] := by
      rw [h]
      simp
    have := List.append_inj' h2 rfl
    obtain ⟨h3, h4⟩ := this
    simp only [List.cons.injEq] at h4
    exact ⟨s₂', by rw [h4.1, List.concat_eq_append], h3⟩

theorem kahnInv_extract {keys : List String} {succ : String → Option (List SuccessorRelation)}
    {queue : List String} {deg : String → Option Int} {sorted : List String}
    (hinv : KahnInv keys succ queue deg sorted) :
    sorted.Nodup ∧ (∀ v ∈ sorted, v ∈ keys) ∧
      (∀ s₁ v s₂, sorted = s₁ ++ v :: s₂ →
        receivedCount succ s₁ v = receivedCount succ keys v) := by
  obtain ⟨hnd, hmem, _, _, htopo⟩ := hinv
  exact ⟨hnd.of_append_left, fun v hv => hmem v (List.mem_append_left _ hv), htopo⟩

theorem kahnInv_step {keys : List String} {succ : String → Option (List SuccessorRelation)}
    (htargets : ∀ u, ∀ rel ∈ (succ u).getD [], rel.successorId ∈ keys)
    {current : String} {rest : List String} {deg : String → Option Int} {sorted : List String}
    (hinv : KahnInv keys succ (current :: rest) deg sorted) :
    KahnInv keys succ (((succ current).getD []).foldl kahnDecrement (deg, rest)).2
      (((succ current).getD []).foldl kahnDecrement (deg, rest)).1 (sorted ++ [current]) := by
  obtain ⟨hnd, hmem, hdeg, hq, htopo⟩ := hinv
  have hcntL : ∀ k, ((succ current).getD []).countP (fun r => decide (r.successorId = k)) =
      succCount succ current k := fun _ => rfl
  have hcur : current ∈ keys :=
    hmem current (List.mem_append_right _ (List.mem_cons_self _ _))
  have hsorted_sub : ∀ v ∈ sorted, v ∈ keys := fun v hv => hmem v (List.mem_append_left _ hv)
  have hsorted_nd : sorted.Nodup := hnd.of_append_left
  have hsc_sl : sorted ++ [current] <+ sorted ++ current :: rest :=
    (List.Sublist.refl sorted).append (List.cons_sublist_cons.mpr (List.nil_sublist rest))
  have hsc_nd : (sorted ++ [current]).Nodup := hsc_sl.nodup hnd
  have hsc_sub : ∀ v ∈ sorted ++ [current], v ∈ keys := by
    intro v hv
    rcases List.mem_append.mp hv with hv | hv
    · exact hsorted_sub v hv
    · rcases List.mem_singleton.mp hv with rfl
      exact hcur
  have hrec_sorted_le : ∀ k, receivedCount succ sorted k ≤ receivedCount succ keys k :=
    fun k => receivedCount_le_of_subset succ hsorted_nd hsorted_sub k
  have hrec_sc_le : ∀ k, receivedCount succ (sorted ++ [current]) k ≤
      receivedCount succ keys k :=
    fun k => receivedCount_le_of_subset succ hsc_nd hsc_sub k
  have hrec_sc : ∀ k, receivedCount succ (sorted ++ [current]) k =
      receivedCount succ sorted k + succCount succ current k := by
    intro k
    rw [receivedCount_append, receivedCount_singleton]
  have hreccur : receivedCount succ sorted current = receivedCount succ keys current :=
    hq current (List.mem_cons_self _ _)
  have hnewskeys : ∀ t, 0 < ((succ current).getD []).countP
      (fun r => decide (r.successorId = t)) → t ∈ keys := by
    intro t hpos
    obtain ⟨rel, hrel, hrelid⟩ := List.countP_pos_iff.mp hpos
    have : rel.successorId = t := of_decide_eq_true hrelid
    exact this ▸ htargets current rel hrel
  have hbound : ∀ k, 0 < ((succ current).getD []).countP (fun r => decide (r.successorId = k)) →
      ∃ old : Int, deg k = some old ∧
        (((succ current).getD []).countP (fun r => decide (r.successorId = k)) : Int) ≤ old := by
    intro k hpos
    have hkk : k ∈ keys := hnewskeys k hpos
    refine ⟨(receivedCount succ keys k : Int) - receivedCount succ sorted k, hdeg k hkk, ?_⟩
    have h1 := hrec_sc_le k
    rw [hrec_sc k] at h1
    rw [hcntL k]
    omega
  obtain ⟨news, hq2, hnodupnews, hchar⟩ := kahnDecrement_foldl_queue _ deg rest hbound
  have hfull : ∀ t ∈ sorted ++ current :: rest,
      receivedCount succ sorted t = receivedCount succ keys t := by
    intro t ht
    rcases List.mem_append.mp ht with ht | ht
    · obtain ⟨s₁, s₂, heq⟩ := List.append_of_mem ht
      have h1 := htopo s₁ t s₂ heq
      have h2 : receivedCount succ s₁ t ≤ receivedCount succ sorted t := by
        rw [heq, receivedCount_append]
        omega
      have h3 := hrec_sorted_le t
      omega
    · exact hq t ht
  have hnews_disjoint : ∀ t ∈ news, t ∉ sorted ++ current :: rest := by
    intro t htn htmem
    have hc := (hchar t).mp htn
    have htk : t ∈ keys := hmem t htmem
    have hfull_t := hfull t htmem
    rw [hdeg t htk] at hc
    simp only [Option.getD_some] at hc
    obtain ⟨hc1, hc2⟩ := hc
    omega
  have hq2' : (((succ current).getD []).foldl kahnDecrement (deg, rest)).2 = rest ++ news := hq2
  have hdegval := kahnDecrement_foldl_deg ((succ current).getD []) deg rest
  refine ⟨?_, ?_, ?_, ?_, ?_⟩
  · rw [hq2']
    have hre : (sorted ++ [current]) ++ (rest ++ news) = (sorted ++ current :: rest) ++ news := by
      simp
    rw [hre, List.nodup_append]
    refine ⟨hnd, hnodupnews, ?_⟩
    intro a ha hb
    exact hnews_disjoint a hb ha
  · intro v hv
    rw [hq2'] at hv
    rcases List.mem_append.mp hv with hv | hv
    · exact hsc_sub v hv
    · rcases List.mem_append.mp hv with hv | hv
      · exact hmem v (List.mem_append_right _ (List.mem_cons_of_mem _ hv))
      · exact hnewskeys v ((hchar v).mp hv).1
  · intro k hk
    rw [hdegval k]
    rw [hrec_sc k, ← hcntL k]
    by_cases hz : ((succ current).getD []).countP (fun r => decide (r.successorId = k)) = 0
    · rw [if_pos hz, hz, hdeg k hk]
      simp
    · rw [if_neg hz, hdeg k hk]
      simp only [Option.getD_some, Option.some.injEq]
      push_cast
      ring
  · intro v hv
    rw [hq2'] at hv
    rw [hrec_sc v, ← hcntL v]
    rcases List.mem_append.mp hv with hv | hv
    · have h1 := hq v (List.mem_cons_of_mem _ hv)
      have h2 := hrec_sc_le v
      rw [hrec_sc v, ← hcntL v] at h2
      omega
    · have hc := (hchar v).mp hv
      have hvk : v ∈ keys := hnewskeys v hc.1
      rw [hdeg v hvk] at hc
      simp only [Option.getD_some] at hc
      obtain ⟨hc1, hc2⟩ := hc
      omega
  · intro s₁ v s₂ hsplit
    rcases append_singleton_split hsplit with ⟨rfl, rfl, rfl⟩ | ⟨s₂', rfl, heq⟩
    · exact hreccur
    · exact htopo s₁ v s₂' heq

theorem kahnLoop_invariant (keys : List String) (succ : String → Option (List SuccessorRelation))
    (htargets : ∀ u, ∀ rel ∈ (succ u).getD [], rel.successorId ∈ keys) :
    ∀ (fuel : Nat) (queue : List String) (deg : String → Option Int) (sorted : List String),
    KahnInv keys succ queue deg sorted →
    (kahnLoop succ fuel queue deg sorted).Nodup ∧
    (∀ v ∈ kahnLoop succ fuel queue deg sorted, v ∈ keys) ∧
    (∀ s₁ v s₂, kahnLoop succ fuel queue deg sorted = s₁ ++ v :: s₂ →
      receivedCount succ s₁ v = receivedCount succ keys v) := by
  intro fuel
  induction fuel with
  | zero =>
    intro queue deg sorted hinv
    exact kahnInv_extract hinv
  | succ fuel ih =>
    intro queue deg sorted hinv
    cases queue with
    | nil => exact kahnInv_extract hinv
    | cons current rest =>
      have hunfold : kahnLoop succ (fuel + 1) (current :: rest) deg sorted =
          kahnLoop succ fuel (((succ current).getD []).foldl kahnDecrement (deg, rest)).2
            (((succ current).getD []).foldl kahnDecrement (deg, rest)).1
            (sorted ++ [current]) := rfl
      rw [hunfold]
      exact ih _ _ _ (kahnInv_step htargets hinv)

theorem kahnLoop_fuel_stable (keys : List String) (succ : String → Option (List SuccessorRelation))
    (htargets : ∀ u, ∀ rel ∈ (succ u).getD [], rel.successorId ∈ keys) :
    ∀ (fuel : Nat) (queue : List String) (deg : String → Option Int) (sorted : List String),
    KahnInv keys succ queue deg sorted → keys.length - sorted.length ≤ fuel →
    kahnLoop succ fuel queue deg sorted = kahnLoop succ (fuel + 1) queue deg sorted := by
  intro fuel
  induction fuel with
  | zero =>
    intro queue deg sorted hinv hlen
    cases queue with
    | nil => rfl
    | cons current rest =>
      exfalso
      obtain ⟨hnd, hmem, _, _, _⟩ := hinv
      have hsc_sl : sorted ++ [current] <+ sorted ++ current :: rest :=
        (List.Sublist.refl sorted).append (List.cons_sublist_cons.mpr (List.nil_sublist rest))
      have hsc_nd : (sorted ++ [current]).Nodup := hsc_sl.nodup hnd
      have hsc_sub : sorted ++ [current] ⊆ keys := by
        intro v hv
        rcases List.mem_append.mp hv with hv | hv
        · exact hmem v (List.mem_append_left _ hv)
        · rcases List.mem_singleton.mp hv with rfl
          exact hmem _ (List.mem_append_right _ (List.mem_cons_self _ _))
      have hle : (sorted ++ [current]).length ≤ keys.length :=
        (hsc_nd.subperm hsc_sub).length_le
      simp only [List.length_append, List.length_singleton] at hle
      omega
  | succ fuel ih =>
    intro queue deg sorted hinv hlen
    cases queue with
    | nil => rfl
    | cons current rest =>
      have hunfold : ∀ f, kahnLoop succ (f + 1) (current :: rest) deg sorted =
          kahnLoop succ f (((succ current).getD []).foldl kahnDecrement (deg, rest)).2
            (((succ current).getD []).foldl kahnDecrement (deg, rest)).1
            (sorted ++ [current]) := fun _ => rfl
      rw [hunfold fuel, hunfold (fuel + 1)]
      exact ih _ _ _ (kahnInv_step htargets hinv)
        (by simp only [List.length_append, List.length_singleton]; omega)

/-! ## The schedule passes -/

theorem passStep_nonmem {amap : String → Option NormalizedActivity}
    {f : ((String → Option Int) × (String → Option Int)) → String → NormalizedActivity → Int}
    {st : (String → Option Int) × (String → Option Int)} {id k : String} (hk : k ≠ id) :
    (passStep amap f st id).1 k = st.1 k ∧ (passStep amap f st id).2 k = st.2 k := by
  unfold passStep
  cases amap id with
  | none => exact ⟨rfl, rfl⟩
  | some a => exact ⟨by simp [hk], by simp [hk]⟩

theorem foldl_passStep_nonmem (amap : String → Option NormalizedActivity)
    (f : ((String → Option Int) × (String → Option Int)) → String → NormalizedActivity → Int)
    (order : List String) :
    ∀ (st : (String → Option Int) × (String → Option Int)) (k : String), k ∉ order →
    (order.foldl (passStep amap f) st).1 k = st.1 k ∧
      (order.foldl (passStep amap f) st).2 k = st.2 k := by
  induction order with
  | nil => intro st k _; exact ⟨rfl, rfl⟩
  | cons id rest ih =>
    intro st k hk
    rw [List.foldl_cons]
    have h1 := ih (passStep amap f st id) k (fun h => hk (List.mem_cons_of_mem _ h))
    have h2 : (passStep amap f st id).1 k = st.1 k ∧ (passStep amap f st id).2 k = st.2 k :=
      passStep_nonmem (fun h : k = id => hk (h ▸ List.mem_cons_self _ _))
    exact ⟨h1.1.trans h2.1, h1.2.trans h2.2⟩

theorem schedulePass_nonmem (amap : String → Option NormalizedActivity)
    (f : ((String → Option Int) × (String → Option Int)) → String → NormalizedActivity → Int)
    (order : List String) (k : String) (hk : k ∉ order) :
    (schedulePass amap f order).1 k = none ∧ (schedulePass amap f order).2 k = none :=
  foldl_passStep_nonmem amap f order _ k hk

theorem schedulePass_isSome_mem (amap : String → Option NormalizedActivity)
    (f : ((String → Option Int) × (String → Option Int)) → String → NormalizedActivity → Int)
    (order : List String) (k : String) (h : ((schedulePass amap f order).1 k).isSome) :
    k ∈ order := by
  by_contra hk
  rw [(schedulePass_nonmem amap f order k hk).1] at h
  simp at h

theorem passStep_isSome_mono {amap : String → Option NormalizedActivity}
    {f : ((String → Option Int) × (String → Option Int)) → String → NormalizedActivity → Int}
    {st : (String → Option Int) × (String → Option Int)} {id k : String}
    (h : (st.1 k).isSome) : ((passStep amap f st id).1 k).isSome := by
  unfold passStep
  cases amap id with
  | none => exact h
  | some a =>
    by_cases hk : k = id
    · simp [hk]
    · simp only [if_neg hk]
      exact h

theorem foldl_passStep_isSome_mono (amap : String → Option NormalizedActivity)
    (f : ((String → Option Int) × (String → Option Int)) → String → NormalizedActivity → Int)
    (order : List String) :
    ∀ {st : (String → Option Int) × (String → Option Int)} {k : String},
    (st.1 k).isSome → ((order.foldl (passStep amap f) st).1 k).isSome := by
  induction order with
  | nil => intro st k h; exact h
  | cons id rest ih =>
    intro st k h
    rw [List.foldl_cons]
    exact ih (passStep_isSome_mono h)

theorem schedulePass_total (amap : String → Option NormalizedActivity)
    (f : ((String → Option Int) × (String → Option Int)) → String → NormalizedActivity → Int)
    {order : List String} {v : String} (hv : v ∈ order) {a : NormalizedActivity}
    (ha : amap v = some a) : ((schedulePass amap f order).1 v).isSome := by
  obtain ⟨p, r, rfl⟩ := List.append_of_mem hv
  unfold schedulePass
  rw [List.foldl_append, List.foldl_cons]
  apply foldl_passStep_isSome_mono
  unfold passStep
  rw [ha]
  simp

theorem passStep_none_iff {amap : String → Option NormalizedActivity}
    {f : ((String → Option Int) × (String → Option Int)) → String → NormalizedActivity → Int}
    {st : (String → Option Int) × (String → Option Int)} {id k : String}
    (h : st.1 k = none ↔ st.2 k = none) :
    ((passStep amap f st id).1 k = none ↔ (passStep amap f st id).2 k = none) := by
  unfold passStep
  cases amap id with
  | none => exact h
  | some a =>
    by_cases hk : k = id
    · simp [hk]
    · simp only [if_neg hk]
      exact h

theorem schedulePass_none_iff (amap : String → Option NormalizedActivity)
    (f : ((String → Option Int) × (String → Option Int)) → String → NormalizedActivity → Int)
    (order : List String) (k : String) :
    (schedulePass amap f order).1 k = none ↔ (schedulePass amap f order).2 k = none := by
  unfold schedulePass
  induction order using List.reverseRecOn with
  | nil => exact Iff.rfl
  | append_singleton rest id ih =>
    rw [List.foldl_append, List.foldl_cons, List.foldl_nil]
    exact passStep_none_iff ih

theorem schedulePass_processed (amap : String → Option NormalizedActivity)
    (f : ((String → Option Int) × (String → Option Int)) → String → NormalizedActivity → Int)
    {p : List String} {v : String} {r : List String} (hnd : (p ++ v :: r).Nodup)
    {a : NormalizedActivity} (ha : amap v = some a) :
    (schedulePass amap f (p ++ v :: r)).1 v = some (f (schedulePass amap f p) v a) ∧
    (schedulePass amap f (p ++ v :: r)).2 v =
      some (f (schedulePass amap f p) v a + a.duration - 1) := by
  unfold schedulePass
  rw [List.foldl_append, List.foldl_cons]
  have hvr : v ∉ r := (List.nodup_cons.mp (List.Nodup.of_append_right hnd)).1
  have hstep : passStep amap f (p.foldl (passStep amap f) ((fun _ => none), (fun _ => none))) v =
      ((fun k => if k = v then
          some (f (p.foldl (passStep amap f) ((fun _ => none), (fun _ => none))) v a)
        else (p.foldl (passStep amap f) ((fun _ => none), (fun _ => none))).1 k),
       (fun k => if k = v then
          some (f (p.foldl (passStep amap f) ((fun _ => none), (fun _ => none))) v a
            + a.duration - 1)
        else (p.foldl (passStep amap f) ((fun _ => none), (fun _ => none))).2 k)) := by
    unfold passStep
    rw [ha]
  have hrest := foldl_passStep_nonmem amap f r
    (passStep amap f (p.foldl (passStep amap f) ((fun _ => none), (fun _ => none))) v) v hvr
  constructor
  · rw [hrest.1, hstep]
    simp
  · rw [hrest.2, hstep]
    simp

theorem schedulePass_prefix_agree (amap : String → Option NormalizedActivity)
    (f : ((String → Option Int) × (String → Option Int)) → String → NormalizedActivity → Int)
    {p suf : List String} (hnd : (p ++ suf).Nodup) (t : String) (ht : t ∈ p) :
    (schedulePass amap f (p ++ suf)).1 t = (schedulePass amap f p).1 t ∧
    (schedulePass amap f (p ++ suf)).2 t = (schedulePass amap f p).2 t := by
  unfold schedulePass
  rw [List.foldl_append]
  have htsuf : t ∉ suf := fun hm => (List.disjoint_of_nodup_append hnd) ht hm
  exact foldl_passStep_nonmem amap f suf _ t htsuf

/-! ## Kahn's loop at the canonical start state -/

theorem kahnInv_initial (acts : List NormalizedActivity) :
    KahnInv (keysOfN acts) (graphN acts).successors (queueN acts) (graphN acts).inDegree [] := by
  obtain ⟨_, _, _, htot⟩ := graphN_edgeInv acts
  have hqfilter : queueN acts = (keysOfN acts).filter
      (fun id => decide ((graphN acts).inDegree id = some 0)) := rfl
  refine ⟨?_, ?_, ?_, ?_, ?_⟩
  · rw [List.nil_append, hqfilter]
    exact (nodup_keysOfN acts).filter _
  · intro v hv
    rw [List.nil_append, hqfilter] at hv
    exact (List.mem_filter.mp hv).1
  · intro k hk
    have h := htot k ((mem_keysOfN acts k).mp hk)
    rw [h]
    have h0 : receivedCount (graphN acts).successors [] k = 0 := rfl
    rw [h0]
    simp
  · intro v hv
    rw [hqfilter] at hv
    obtain ⟨hvk, hdeg⟩ := List.mem_filter.mp hv
    have hdeg2 : (graphN acts).inDegree v = some 0 := of_decide_eq_true hdeg
    have h := htot v ((mem_keysOfN acts v).mp hvk)
    rw [hdeg2] at h
    injection h with h
    have h0 : receivedCount (graphN acts).successors [] v = 0 := rfl
    omega
  · intro s₁ v s₂ h
    exact absurd h (by cases s₁ <;> simp)

theorem sortedN_facts (acts : List NormalizedActivity) :
    (sortedN acts).Nodup ∧ (∀ v ∈ sortedN acts, v ∈ keysOfN acts) ∧
    (∀ s₁ v s₂, sortedN acts = s₁ ++ v :: s₂ →
      receivedCount (graphN acts).successors s₁ v =
        receivedCount (graphN acts).successors (keysOfN acts) v) := by
  obtain ⟨_, _, htgt, _⟩ := graphN_edgeInv acts
  exact kahnLoop_invariant (keysOfN acts) (graphN acts).successors
    (fun u rel hrel => (mem_keysOfN acts _).mpr (htgt u rel hrel))
    acts.length (queueN acts) (graphN acts).inDegree [] (kahnInv_initial acts)

/-! ## The acyclic case -/

theorem acyclic_ids_nodup (acts : List NormalizedActivity)
    (hlen : (sortedN acts).length = acts.length) : (idsOfN acts).Nodup := by
  obtain ⟨hnd, hsub, _⟩ := sortedN_facts acts
  have h1 : (sortedN acts).length ≤ (keysOfN acts).length :=
    (hnd.subperm (fun v hv => hsub v hv)).length_le
  have h2 : (keysOfN acts).length ≤ (idsOfN acts).length := length_firstOccurrences_le _ _
  have h3 : (idsOfN acts).length = acts.length := List.length_map _ _
  have h4 : (firstOccurrences [] (idsOfN acts)).length = (keysOfN acts).length := rfl
  exact (firstOccurrences_length_eq [] (idsOfN acts) (by omega)).1

theorem acyclic_keys_eq (acts : List NormalizedActivity)
    (hlen : (sortedN acts).length = acts.length) : keysOfN acts = idsOfN acts := by
  unfold keysOfN
  exact firstOccurrences_eq_self [] (idsOfN acts) (acyclic_ids_nodup acts hlen) (by simp)

theorem acyclic_sorted_perm (acts : List NormalizedActivity)
    (hlen : (sortedN acts).length = acts.length) : sortedN acts ~ keysOfN acts := by
  obtain ⟨hnd, hsub, _⟩ := sortedN_facts acts
  refine (hnd.subperm (fun v hv => hsub v hv)).perm_of_length_le ?_
  have h2 : (keysOfN acts).length ≤ (idsOfN acts).length := length_firstOccurrences_le _ _
  have h3 : (idsOfN acts).length = acts.length := List.length_map _ _
  omega

theorem acyclic_mem_sorted (acts : List NormalizedActivity)
    (hlen : (sortedN acts).length = acts.length) (v : String) :
    v ∈ sortedN acts ↔ v ∈ idsOfN acts := by
  rw [(acyclic_sorted_perm acts hlen).mem_iff, mem_keysOfN]

theorem acyclic_source_in_prefix (acts : List NormalizedActivity)
    {s₁ s₂ : List String} {v : String} (hsplit : sortedN acts = s₁ ++ v :: s₂)
    {u : String} (hu : u ∈ keysOfN acts)
    (hcnt : succCount (graphN acts).successors u v ≠ 0) : u ∈ s₁ := by
  obtain ⟨hnd, hsub, htopo⟩ := sortedN_facts acts
  by_contra hnot
  have hs₁sub : s₁ ⊆ keysOfN acts := by
    intro x hx
    have hxs : x ∈ sortedN acts := by
      rw [hsplit]
      exact List.mem_append_left _ hx
    exact hsub x hxs
  have hs₁nd : s₁.Nodup := by
    rw [hsplit] at hnd
    exact hnd.of_append_left
  exact hcnt (succCount_zero_outside hs₁sub hs₁nd (htopo s₁ v s₂ hsplit) hu hnot)

theorem append_pivot_cancel {α : Type} {v : α} :
    ∀ (ys ys' xs xs' : List α), v ∉ ys → v ∉ ys' →
    ys ++ v :: xs = ys' ++ v :: xs' → ys = ys' ∧ xs = xs' := by
  intro ys
  induction ys with
  | nil =>
    intro ys' xs xs' _ hys' h
    cases ys' with
    | nil =>
      simp only [List.nil_append, List.cons.injEq] at h
      exact ⟨rfl, h.2⟩
    | cons y t =>
      simp only [List.nil_append, List.cons_append, List.cons.injEq] at h
      exact absurd (show v ∈ y :: t by rw [h.1]; exact List.mem_cons_self _ _) hys'
  | cons y t ih =>
    intro ys' xs xs' hys hys' h
    cases ys' with
    | nil =>
      simp only [List.cons_append, List.nil_append, List.cons.injEq] at h
      exact absurd (show v ∈ y :: t by rw [← h.1]; exact List.mem_cons_self _ _) hys
    | cons w t' =>
      simp only [List.cons_append, List.cons.injEq] at h
      obtain ⟨h1, h2⟩ := h
      obtain ⟨h3, h4⟩ := ih t' xs xs' (fun hm => hys (List.mem_cons_of_mem _ hm))
        (fun hm => hys' (List.mem_cons_of_mem _ hm)) h2
      exact ⟨by rw [h1, h3], h4⟩

theorem nodup_split_unique {α : Type} {l s₁ s₂ p q : List α} {v : α} (hnd : l.Nodup)
    (h1 : l = s₁ ++ v :: s₂) (h2 : l = p ++ v :: q) : s₁ = p ∧ s₂ = q := by
  have hv1 : v ∉ s₁ := by
    rw [h1] at hnd
    exact fun hm => (List.disjoint_of_nodup_append hnd) hm (List.mem_cons_self _ _)
  have hv2 : v ∉ p := by
    rw [h2] at hnd
    exact fun hm => (List.disjoint_of_nodup_append hnd) hm (List.mem_cons_self _ _)
  exact append_pivot_cancel s₁ p s₂ q hv1 hv2 (h1.symm.trans h2)

theorem pushSuccessor_rel_elim {succ : String → Option (List SuccessorRelation)} {key : String}
    {new : SuccessorRelation} {u : String} {rel : SuccessorRelation}
    (h : rel ∈ ((pushSuccessor succ key new) u).getD []) :
    rel ∈ (succ u).getD [] ∨ (rel = new ∧ u = key) := by
  cases hk : succ key with
  | none =>
    left
    unfold pushSuccessor at h
    rw [hk] at h
    exact h
  | some rels =>
    rw [pushSuccessor_apply hk] at h
    by_cases hu : u = key
    · rw [if_pos hu] at h
      simp only [Option.getD_some] at h
      rcases List.mem_append.mp h with h2 | h2
      · left
        rw [hu, hk]
        simpa using h2
      · right
        exact ⟨List.mem_singleton.mp h2, hu⟩
    · rw [if_neg hu] at h
      left
      exact h

theorem addEdge_rel_elim {amap : String → Option NormalizedActivity} {aid : String}
    {st : GraphState} {d : SchedulerDependency} {u : String} {rel : SuccessorRelation}
    (h : rel ∈ ((addEdge amap aid st d).successors u).getD []) :
    rel ∈ (st.successors u).getD [] ∨ (rel = ⟨aid, d⟩ ∧ u = d.activityId) := by
  unfold addEdge at h
  split at h
  · exact pushSuccessor_rel_elim h
  · left
    exact h

theorem foldl_addEdge_rel_elim {amap : String → Option NormalizedActivity} {aid : String}
    (deps : List SchedulerDependency) :
    ∀ {st : GraphState} {u : String} {rel : SuccessorRelation},
    rel ∈ ((deps.foldl (addEdge amap aid) st).successors u).getD [] →
    rel ∈ (st.successors u).getD [] ∨
      ∃ d ∈ deps, rel = ⟨aid, d⟩ ∧ u = d.activityId := by
  induction deps with
  | nil =>
    intro st u rel h
    left
    exact h
  | cons d rest ih =>
    intro st u rel h
    rw [List.foldl_cons] at h
    rcases ih h with h2 | ⟨d₂, hd₂, hrel, hu⟩
    · rcases addEdge_rel_elim h2 with h3 | ⟨hrel, hu⟩
      · left
        exact h3
      · right
        exact ⟨d, List.mem_cons_self _ _, hrel, hu⟩
    · right
      exact ⟨d₂, List.mem_cons_of_mem _ hd₂, hrel, hu⟩

theorem buildEdges_rel_elim {amap : String → Option NormalizedActivity}
    (acts : List NormalizedActivity) :
    ∀ {st : GraphState} {u : String} {rel : SuccessorRelation},
    rel ∈ ((buildEdges amap acts st).successors u).getD [] →
    rel ∈ (st.successors u).getD [] ∨
      ∃ a ∈ acts, ∃ d ∈ a.dependencies, rel = ⟨a.id, d⟩ ∧ u = d.activityId := by
  induction acts with
  | nil =>
    intro st u rel h
    left
    exact h
  | cons a rest ih =>
    intro st u rel h
    unfold buildEdges at h
    rw [List.foldl_cons] at h
    rcases ih h with h2 | ⟨b, hb, d, hd, hrel, hu⟩
    · rcases foldl_addEdge_rel_elim _ h2 with h3 | ⟨d, hd, hrel, hu⟩
      · left
        exact h3
      · right
        exact ⟨a, List.mem_cons_self _ _, d, hd, hrel, hu⟩
    · right
      exact ⟨b, List.mem_cons_of_mem _ hb, d, hd, hrel, hu⟩

theorem graphN_rel_sound (acts : List NormalizedActivity) {u : String} {rel : SuccessorRelation}
    (h : rel ∈ ((graphN acts).successors u).getD []) :
    ∃ a ∈ acts, ∃ d ∈ a.dependencies, rel = ⟨a.id, d⟩ ∧ u = d.activityId := by
  unfold graphN at h
  rcases buildEdges_rel_elim acts h with h2 | hex
  · exfalso
    rw [initGraph_successors] at h2
    split at h2 <;> simp_all
  · exact hex

theorem acyclic_target_in_suffix (acts : List NormalizedActivity)
    (hlen : (sortedN acts).length = acts.length)
    {s₁ s₂ : List String} {v : String} (hsplit : sortedN acts = s₁ ++ v :: s₂)
    {rel : SuccessorRelation} (hrel : rel ∈ ((graphN acts).successors v).getD []) :
    rel.successorId ∈ s₂ := by
  obtain ⟨hnd, hsub, _⟩ := sortedN_facts acts
  obtain ⟨_, _, htgt, _⟩ := graphN_edgeInv acts
  have hw_ids : rel.successorId ∈ idsOfN acts := htgt v rel hrel
  have hw_sorted : rel.successorId ∈ sortedN acts :=
    (acyclic_mem_sorted acts hlen rel.successorId).mpr hw_ids
  obtain ⟨t₁, t₂, hsplit2⟩ := List.append_of_mem hw_sorted
  have hv_t₁ : v ∈ t₁ := by
    refine acyclic_source_in_prefix acts hsplit2 ?_ ?_
    · exact hsub v (by rw [hsplit]; exact List.mem_append_right _ (List.mem_cons_self _ _))
    · have := succCount_pos_of_mem hrel rfl
      omega
  obtain ⟨p, q, rfl⟩ := List.append_of_mem hv_t₁
  have hsplit3 : sortedN acts = p ++ v :: (q ++ rel.successorId :: t₂) := by
    rw [hsplit2]
    simp
  obtain ⟨_, hs₂⟩ := nodup_split_unique hnd hsplit hsplit3
  rw [hs₂]
  exact List.mem_append_right _ (List.mem_cons_self _ _)

/-! ## Characterizing the forward and backward passes in the acyclic case -/

theorem forwardStep_state_agree {st st2 : (String → Option Int) × (String → Option Int)}
    {v : String} {a : NormalizedActivity}
    (h : ∀ dep ∈ a.dependencies, st.1 dep.activityId = st2.1 dep.activityId ∧
      st.2 dep.activityId = st2.2 dep.activityId) :
    forwardStep st v a = forwardStep st2 v a := by
  unfold forwardStep
  refine foldl_congr_mem _ ?_ _
  intro b dep hdep
  rw [(h dep hdep).1, (h dep hdep).2]

theorem backwardStep_state_agree {succ : String → Option (List SuccessorRelation)} {pd : Int}
    {st st2 : (String → Option Int) × (String → Option Int)}
    {v : String} {a : NormalizedActivity}
    (h : ∀ rel ∈ (succ v).getD [], st.1 rel.successorId = st2.1 rel.successorId ∧
      st.2 rel.successorId = st2.2 rel.successorId) :
    backwardStep succ pd st v a = backwardStep succ pd st2 v a := by
  have h2 : ((succ v).getD []).foldl
      (fun latestStart rel =>
        match st.1 rel.successorId, st.2 rel.successorId with
        | some successorLateStart, some successorLateFinish =>
          min latestStart (latestStartUpperBoundFromSuccessor rel.dependency.type
            rel.dependency.lagDays a.duration successorLateStart successorLateFinish)
        | _, _ => latestStart) (pd - a.duration + 1) =
      ((succ v).getD []).foldl
      (fun latestStart rel =>
        match st2.1 rel.successorId, st2.2 rel.successorId with
        | some successorLateStart, some successorLateFinish =>
          min latestStart (latestStartUpperBoundFromSuccessor rel.dependency.type
            rel.dependency.lagDays a.duration successorLateStart successorLateFinish)
        | _, _ => latestStart) (pd - a.duration + 1) := by
    refine foldl_congr_mem _ ?_ _
    intro b rel hrel
    rw [(h rel hrel).1, (h rel hrel).2]
  exact congrArg (fun x => max 1 x) h2

theorem earlyN_char (acts : List NormalizedActivity)
    (hlen : (sortedN acts).length = acts.length) {v : String} {a : NormalizedActivity}
    (ha : amapN acts v = some a) :
    (earlyN acts).1 v = some (forwardStep (earlyN acts) v a) ∧
    (earlyN acts).2 v = some (forwardStep (earlyN acts) v a + a.duration - 1) := by
  have hvids : v ∈ idsOfN acts := by
    have h := amapN_isSome acts v
    rw [ha] at h
    exact h.mp rfl
  have hvs : v ∈ sortedN acts := (acyclic_mem_sorted acts hlen v).mpr hvids
  obtain ⟨p, r, hsplit⟩ := List.append_of_mem hvs
  have hnd : (p ++ v :: r).Nodup := by
    rw [← hsplit]
    exact (sortedN_facts acts).1
  have hearly : earlyN acts = schedulePass (amapN acts) forwardStep (p ++ v :: r) := by
    unfold earlyN
    rw [hsplit]
  have hagree : forwardStep (schedulePass (amapN acts) forwardStep p) v a =
      forwardStep (schedulePass (amapN acts) forwardStep (p ++ v :: r)) v a := by
    apply forwardStep_state_agree
    intro dep hdep
    by_cases hdt : dep.activityId ∈ idsOfN acts
    · have hdepp : dep.activityId ∈ p := by
        refine acyclic_source_in_prefix acts hsplit ((mem_keysOfN acts _).mpr hdt) ?_
        obtain ⟨hamem, haid⟩ := amapN_eq_some ha
        have hrelmem := graphN_edge_mem acts hamem hdep ((amapN_isSome acts _).mpr hdt)
        have hpos : 0 < succCount (graphN acts).successors dep.activityId v :=
          succCount_pos_of_mem hrelmem
            (show ({ successorId := a.id, dependency := dep } :
              SuccessorRelation).successorId = v by simp [haid])
        omega
      have h := schedulePass_prefix_agree (amapN acts) forwardStep hnd dep.activityId hdepp
      exact ⟨h.1.symm, h.2.symm⟩
    · have hns : dep.activityId ∉ sortedN acts := by
        intro hm
        exact hdt ((mem_keysOfN acts _).mp ((sortedN_facts acts).2.1 _ hm))
      have hnfull : dep.activityId ∉ p ++ v :: r := by
        rw [← hsplit]
        exact hns
      have hnp : dep.activityId ∉ p := fun hm => hnfull (List.mem_append_left _ hm)
      have h1 := schedulePass_nonmem (amapN acts) forwardStep p dep.activityId hnp
      have h2 := schedulePass_nonmem (amapN acts) forwardStep (p ++ v :: r) dep.activityId hnfull
      rw [h1.1, h1.2, h2.1, h2.2]
      exact ⟨rfl, rfl⟩
  obtain ⟨h1, h2⟩ := schedulePass_processed (amapN acts) forwardStep hnd ha
  rw [hearly, h1, h2, hagree]
  exact ⟨rfl, rfl⟩

theorem earlyN_total (acts : List NormalizedActivity)
    (hlen : (sortedN acts).length = acts.length) {v : String} (hv : v ∈ idsOfN acts) :
    ((earlyN acts).1 v).isSome := by
  have hvs : v ∈ sortedN acts := (acyclic_mem_sorted acts hlen v).mpr hv
  obtain ⟨a, ha⟩ := Option.isSome_iff_exists.mp ((amapN_isSome acts v).mpr hv)
  unfold earlyN
  exact schedulePass_total _ _ hvs ha

theorem earlyN_domain (acts : List NormalizedActivity) (k : String)
    (h : ((earlyN acts).1 k).isSome) : k ∈ idsOfN acts := by
  unfold earlyN at h
  have hmem := schedulePass_isSome_mem _ _ _ _ h
  exact (mem_keysOfN acts k).mp ((sortedN_facts acts).2.1 k hmem)

theorem lateN_char (acts : List NormalizedActivity)
    (hlen : (sortedN acts).length = acts.length) {v : String} {a : NormalizedActivity}
    (ha : amapN acts v = some a) :
    (lateN acts).1 v = some (backwardStep (graphN acts).successors (pdN acts) (lateN acts) v a) ∧
    (lateN acts).2 v = some (backwardStep (graphN acts).successors (pdN acts) (lateN acts) v a
      + a.duration - 1) := by
  have hvids : v ∈ idsOfN acts := by
    have h := amapN_isSome acts v
    rw [ha] at h
    exact h.mp rfl
  have hvs : v ∈ (sortedN acts).reverse :=
    List.mem_reverse.mpr ((acyclic_mem_sorted acts hlen v).mpr hvids)
  obtain ⟨p, r, hsplit⟩ := List.append_of_mem hvs
  have hnd : (p ++ v :: r).Nodup := by
    rw [← hsplit]
    exact List.nodup_reverse.mpr (sortedN_facts acts).1
  have hlate : lateN acts =
      schedulePass (amapN acts) (backwardStep (graphN acts).successors (pdN acts))
        (p ++ v :: r) := by
    unfold lateN
    rw [hsplit]
  have hss : sortedN acts = r.reverse ++ v :: p.reverse := by
    have h := congrArg List.reverse hsplit
    rw [List.reverse_reverse] at h
    rw [h]
    simp
  have hagree : backwardStep (graphN acts).successors (pdN acts)
        (schedulePass (amapN acts) (backwardStep (graphN acts).successors (pdN acts)) p) v a =
      backwardStep (graphN acts).successors (pdN acts)
        (schedulePass (amapN acts) (backwardStep (graphN acts).successors (pdN acts))
          (p ++ v :: r)) v a := by
    apply backwardStep_state_agree
    intro rel hrel
    have hwp : rel.successorId ∈ p :=
      List.mem_reverse.mp (acyclic_target_in_suffix acts hlen hss hrel)
    have h := schedulePass_prefix_agree (amapN acts)
      (backwardStep (graphN acts).successors (pdN acts)) hnd rel.successorId hwp
    exact ⟨h.1.symm, h.2.symm⟩
  obtain ⟨h1, h2⟩ := schedulePass_processed (amapN acts)
    (backwardStep (graphN acts).successors (pdN acts)) hnd ha
  rw [hlate, h1, h2, hagree]
  exact ⟨rfl, rfl⟩

theorem lateN_total (acts : List NormalizedActivity)
    (hlen : (sortedN acts).length = acts.length) {v : String} (hv : v ∈ idsOfN acts) :
    ((lateN acts).1 v).isSome := by
  have hvs : v ∈ (sortedN acts).reverse :=
    List.mem_reverse.mpr ((acyclic_mem_sorted acts hlen v).mpr hv)
  obtain ⟨a, ha⟩ := Option.isSome_iff_exists.mp ((amapN_isSome acts v).mpr hv)
  unfold lateN
  exact schedulePass_total _ _ hvs ha

/-! ## Fold bounds for the pass bodies -/

theorem forwardStep_eq (st : (String → Option Int) × (String → Option Int)) (id : String)
    (a : NormalizedActivity) :
    forwardStep st id a =
      a.dependencies.foldl (forwardUpdate st a.duration) (toValidStartDay a.manualStart) := by
  unfold forwardStep
  refine foldl_congr_mem _ ?_ _
  intro b dep _
  cases h1 : st.1 dep.activityId <;> cases h2 : st.2 dep.activityId <;>
    simp [forwardUpdate, h1, h2]

theorem backwardStep_eq (succ : String → Option (List SuccessorRelation)) (pd : Int)
    (st : (String → Option Int) × (String → Option Int)) (id : String)
    (a : NormalizedActivity) :
    backwardStep succ pd st id a =
      max 1 (((succ id).getD []).foldl (backwardUpdate st a.duration)
        (pd - a.duration + 1)) := by
  have h : ((succ id).getD []).foldl
      (fun latestStart rel =>
        match st.1 rel.successorId, st.2 rel.successorId with
        | some successorLateStart, some successorLateFinish =>
          min latestStart (latestStartUpperBoundFromSuccessor rel.dependency.type
            rel.dependency.lagDays a.duration successorLateStart successorLateFinish)
        | _, _ => latestStart) (pd - a.duration + 1) =
      ((succ id).getD []).foldl (backwardUpdate st a.duration) (pd - a.duration + 1) := by
    refine foldl_congr_mem _ ?_ _
    intro b rel _
    cases h1 : st.1 rel.successorId <;> cases h2 : st.2 rel.successorId <;>
      simp [backwardUpdate, h1, h2]
  exact congrArg (fun x => max 1 x) h

theorem foldl_forwardUpdate_ge_init (st : (String → Option Int) × (String → Option Int))
    (dur : Int) (l : List SchedulerDependency) : ∀ b : Int, b ≤ l.foldl (forwardUpdate st dur) b := by
  induction l with
  | nil => intro b; simp
  | cons dep rest ih =>
    intro b
    rw [List.foldl_cons]
    refine le_trans ?_ (ih _)
    unfold forwardUpdate
    cases st.1 dep.activityId with
    | none => exact le_refl b
    | some ps =>
      cases st.2 dep.activityId with
      | none => exact le_refl b
      | some pf => exact le_max_left _ _

theorem foldl_forwardUpdate_ge_mem (st : (String → Option Int) × (String → Option Int))
    (dur : Int) (l : List SchedulerDependency) {dep : SchedulerDependency} (hdep : dep ∈ l)
    {ps pf : Int} (h1 : st.1 dep.activityId = some ps) (h2 : st.2 dep.activityId = some pf) :
    ∀ b : Int, earliestStartFromDependency dep ps pf dur ≤ l.foldl (forwardUpdate st dur) b := by
  obtain ⟨l₁, l₂, rfl⟩ := List.append_of_mem hdep
  intro b
  rw [List.foldl_append, List.foldl_cons]
  refine le_trans ?_ (foldl_forwardUpdate_ge_init st dur l₂ _)
  unfold forwardUpdate
  rw [h1, h2]
  exact le_max_right _ _

theorem foldl_backwardUpdate_le_init (st : (String → Option Int) × (String → Option Int))
    (dur : Int) (l : List SuccessorRelation) : ∀ b : Int, l.foldl (backwardUpdate st dur) b ≤ b := by
  induction l with
  | nil => intro b; simp
  | cons rel rest ih =>
    intro b
    rw [List.foldl_cons]
    refine le_trans (ih _) ?_
    unfold backwardUpdate
    cases st.1 rel.successorId with
    | none => exact le_refl b
    | some x =>
      cases st.2 rel.successorId with
      | none => exact le_refl b
      | some y => exact min_le_left _ _

theorem foldl_backwardUpdate_le_mem (st : (String → Option Int) × (String → Option Int))
    (dur : Int) (l : List SuccessorRelation) {rel : SuccessorRelation} (hrel : rel ∈ l)
    {sls slf : Int} (h1 : st.1 rel.successorId = some sls)
    (h2 : st.2 rel.successorId = some slf) :
    ∀ b : Int, l.foldl (backwardUpdate st dur) b ≤
      latestStartUpperBoundFromSuccessor rel.dependency.type rel.dependency.lagDays dur
        sls slf := by
  obtain ⟨l₁, l₂, rfl⟩ := List.append_of_mem hrel
  intro b
  rw [List.foldl_append, List.foldl_cons]
  refine le_trans (foldl_backwardUpdate_le_init st dur l₂ _) ?_
  unfold backwardUpdate
  rw [h1, h2]
  exact min_le_right _ _

theorem foldl_backwardUpdate_ge (st : (String → Option Int) × (String → Option Int))
    (dur : Int) (x : Int) :
    ∀ (l : List SuccessorRelation),
    (∀ rel ∈ l, ∀ sls slf : Int, st.1 rel.successorId = some sls →
      st.2 rel.successorId = some slf →
      x ≤ latestStartUpperBoundFromSuccessor rel.dependency.type rel.dependency.lagDays dur
        sls slf) →
    ∀ b : Int, x ≤ b → x ≤ l.foldl (backwardUpdate st dur) b := by
  intro l
  induction l with
  | nil => intro _ b hb; simpa using hb
  | cons rel rest ih =>
    intro h b hb
    rw [List.foldl_cons]
    refine ih (fun r hr => h r (List.mem_cons_of_mem _ hr)) _ ?_
    unfold backwardUpdate
    cases h1 : st.1 rel.successorId with
    | none => exact hb
    | some sls =>
      cases h2 : st.2 rel.successorId with
      | none => exact hb
      | some slf => exact le_min hb (h rel (List.mem_cons_self _ _) sls slf h1 h2)

theorem forwardStep_ge_base (st : (String → Option Int) × (String → Option Int)) (id : String)
    (a : NormalizedActivity) : toValidStartDay a.manualStart ≤ forwardStep st id a := by
  rw [forwardStep_eq]
  exact foldl_forwardUpdate_ge_init st a.duration _ _

/-! ## Bounds on the project duration -/

theorem foldl_max_ge_init (l : List Int) : ∀ b : Int, b ≤ l.foldl max b := by
  induction l with
  | nil => intro b; simp
  | cons x xs ih =>
    intro b
    rw [List.foldl_cons]
    exact le_trans (le_max_left b x) (ih _)

theorem foldl_max_ge_mem (l : List Int) : ∀ (b x : Int), x ∈ l → x ≤ l.foldl max b := by
  induction l with
  | nil => intro b x hx; cases hx
  | cons y ys ih =>
    intro b x hx
    rw [List.foldl_cons]
    rcases List.mem_cons.mp hx with rfl | hx
    · exact le_trans (le_max_right b x) (foldl_max_ge_init ys _)
    · exact ih _ x hx

theorem pdN_ge_one (acts : List NormalizedActivity) : 1 ≤ pdN acts :=
  foldl_max_ge_init _ 1

theorem pdN_ge_ef (acts : List NormalizedActivity)
    (hlen : (sortedN acts).length = acts.length) {v : String} (hv : v ∈ idsOfN acts)
    {f : Int} (hf : (earlyN acts).2 v = some f) : f ≤ pdN acts := by
  unfold pdN
  apply foldl_max_ge_mem
  apply List.mem_filterMap.mpr
  refine ⟨v, ?_, hf⟩
  unfold passKeys
  rw [mem_firstOccurrences]
  refine ⟨List.mem_filter.mpr ⟨(acyclic_mem_sorted acts hlen v).mpr hv, ?_⟩, by simp⟩
  exact (amapN_isSome acts v).mpr hv

/-! ## Latest start dominates earliest start (acyclic case) -/

theorem lateN_ge_earlyN (acts : List NormalizedActivity)
    (hlen : (sortedN acts).length = acts.length) :
    ∀ (n : Nat) (s₁ : List String) (v : String) (s₂ : List String),
    s₂.length = n → sortedN acts = s₁ ++ v :: s₂ →
    ∀ es ls : Int, (earlyN acts).1 v = some es → (lateN acts).1 v = some ls → es ≤ ls := by
  intro n
  induction n using Nat.strong_induction_on with
  | _ n ih =>
    intro s₁ v s₂ hn hsplit es ls hes hls
    have hvs : v ∈ sortedN acts := by
      rw [hsplit]
      exact List.mem_append_right _ (List.mem_cons_self _ _)
    have hvids : v ∈ idsOfN acts := (acyclic_mem_sorted acts hlen v).mp hvs
    obtain ⟨a, ha⟩ := Option.isSome_iff_exists.mp ((amapN_isSome acts v).mpr hvids)
    obtain ⟨hE1, hE2⟩ := earlyN_char acts hlen ha
    obtain ⟨hL1, hL2⟩ := lateN_char acts hlen ha
    have hesv : es = forwardStep (earlyN acts) v a := by
      rw [hes] at hE1
      exact Option.some.inj hE1
    have hefv : (earlyN acts).2 v = some (es + a.duration - 1) := by
      rw [hE2, hesv]
    have hlsv : ls = backwardStep (graphN acts).successors (pdN acts) (lateN acts) v a := by
      rw [hls] at hL1
      exact Option.some.inj hL1
    have hpd : es + a.duration - 1 ≤ pdN acts := pdN_ge_ef acts hlen hvids hefv
    rw [hlsv, backwardStep_eq]
    refine le_trans ?_ (le_max_right 1 _)
    refine foldl_backwardUpdate_ge (lateN acts) a.duration es _ ?_ _ (by omega)
    intro rel hrel sls slf h1 h2
    obtain ⟨b, hbmem, d, hd, hreleq, hveq⟩ := graphN_rel_sound acts hrel
    have hidnd : (idsOfN acts).Nodup := acyclic_ids_nodup acts hlen
    have hwb : rel.successorId = b.id := by rw [hreleq]
    have hbmap : amapN acts rel.successorId = some b := by
      rw [hwb]
      exact amapN_self hidnd hbmem
    obtain ⟨hLw1, hLw2⟩ := lateN_char acts hlen hbmap
    have hslsX : sls = backwardStep (graphN acts).successors (pdN acts) (lateN acts)
        rel.successorId b := by
      have h3 := h1.symm.trans hLw1
      exact Option.some.inj h3
    have hslf : slf = sls + b.duration - 1 := by
      have h3 := h2.symm.trans hLw2
      have h4 := Option.some.inj h3
      omega
    have hwids : rel.successorId ∈ idsOfN acts := by
      rw [hwb]
      exact List.mem_map_of_mem _ hbmem
    obtain ⟨esw, hesw⟩ := Option.isSome_iff_exists.mp (earlyN_total acts hlen hwids)
    obtain ⟨hEw1, hEw2⟩ := earlyN_char acts hlen hbmap
    have heswX : esw = forwardStep (earlyN acts) rel.successorId b := by
      have h3 := hesw.symm.trans hEw1
      exact Option.some.inj h3
    have hwsuf : rel.successorId ∈ s₂ := acyclic_target_in_suffix acts hlen hsplit hrel
    obtain ⟨q₁, q₂, hq⟩ := List.append_of_mem hwsuf
    have hsplit2 : sortedN acts = (s₁ ++ v :: q₁) ++ rel.successorId :: q₂ := by
      rw [hsplit, hq]
      simp
    have hq2len : q₂.length < n := by
      have hs₂len : s₂.length = q₁.length + 1 + q₂.length := by
        rw [hq]
        simp
        omega
      omega
    have hIH : esw ≤ sls := ih q₂.length hq2len (s₁ ++ v :: q₁) rel.successorId q₂ rfl
      hsplit2 esw sls hesw h1
    have hstep : earliestStartFromDependency d es (es + a.duration - 1) b.duration ≤
        forwardStep (earlyN acts) rel.successorId b := by
      rw [forwardStep_eq]
      refine foldl_forwardUpdate_ge_mem (earlyN acts) b.duration _ hd ?_ ?_ _
      · rw [← hveq]
        exact hes
      · rw [← hveq]
        exact hefv
    have hese : earliestStartFromDependency d es (es + a.duration - 1) b.duration ≤ sls := by
      omega
    have hreldep : rel.dependency = d := by rw [hreleq]
    rw [hreldep]
    obtain ⟨did, dtype, dlag⟩ := d
    cases dtype <;>
      (simp only [earliestStartFromDependency, latestStartUpperBoundFromSuccessor] at hese ⊢;
        omega)

/-! ## Bridges between the source formulas and the specification formulas -/

theorem toValidStartDay_eq_spec (m : Option JSNum) : toValidStartDay m = validStartSpec m := by
  match m with
  | none => rfl
  | some .nan => rfl
  | some .posInf => rfl
  | some .negInf => rfl
  | some (.fin q) =>
    show (if q < 1 then 1 else jsFloor q) = (if 1 ≤ q then ⌊q⌋ else 1)
    by_cases h : q < 1
    · rw [if_pos h, if_neg (fun h2 => absurd h (not_lt.mpr h2))]
    · rw [if_neg h, if_pos (not_lt.mp h)]
      rfl

theorem earliestStart_eq_spec (dep : SchedulerDependency) (ps pf cur : Int) :
    earliestStartFromDependency dep ps pf cur =
      edgeContribSpec dep.type dep.lagDays ps pf cur := by
  cases h : dep.type <;> simp [earliestStartFromDependency, edgeContribSpec, h]

theorem latestBound_eq_spec (t : SchedulerDependencyType) (lag pd sls slf : Int) :
    latestStartUpperBoundFromSuccessor t lag pd sls slf =
      backwardBoundSpec t lag pd sls slf := by
  cases t <;> rfl

theorem freeSlack_eq_spec (dep : SchedulerDependency) (as af ss sf : Int) :
    freeFloatAgainstSuccessor dep as af ss sf =
      freeSlackSpec dep.type dep.lagDays as af ss sf := by
  cases h : dep.type <;> simp [freeFloatAgainstSuccessor, freeSlackSpec, h]

/-! ## Minimum folds -/

theorem foldl_min_le_init (l : List Int) : ∀ b : Int, l.foldl min b ≤ b := by
  induction l with
  | nil => intro b; simp
  | cons x xs ih =>
    intro b
    rw [List.foldl_cons]
    exact le_trans (ih _) (min_le_left _ _)

theorem foldl_min_le_mem (l : List Int) : ∀ (b x : Int), x ∈ l → l.foldl min b ≤ x := by
  induction l with
  | nil => intro b x hx; cases hx
  | cons y ys ih =>
    intro b x hx
    rw [List.foldl_cons]
    rcases List.mem_cons.mp hx with rfl | hx
    · exact le_trans (foldl_min_le_init ys _) (min_le_right _ _)
    · exact ih _ x hx

theorem foldl_min_mem (l : List Int) : ∀ b : Int, l.foldl min b = b ∨ l.foldl min b ∈ l := by
  induction l with
  | nil => intro b; left; rfl
  | cons x xs ih =>
    intro b
    rw [List.foldl_cons]
    rcases ih (min b x) with h | h
    · rcases le_total b x with hbx | hxb
      · left
        rw [h, min_eq_left hbx]
      · right
        rw [h, min_eq_right hxb]
        exact List.mem_cons_self _ _
    · right
      exact List.mem_cons_of_mem _ h

theorem foldl_min_mem_cons (l : List Int) (b : Int) : l.foldl min b ∈ b :: l := by
  rcases foldl_min_mem l b with h | h
  · rw [h]
    exact List.mem_cons_self _ _
  · exact List.mem_cons_of_mem _ h

theorem foldl_min_ge (l : List Int) : ∀ (b x : Int), x ≤ b → (∀ y ∈ l, x ≤ y) →
    x ≤ l.foldl min b := by
  induction l with
  | nil => intro b x hb _; simpa using hb
  | cons y ys ih =>
    intro b x hb h
    rw [List.foldl_cons]
    exact ih _ x (le_min hb (h y (List.mem_cons_self _ _)))
      (fun z hz => h z (List.mem_cons_of_mem _ hz))

/-! ## Further totality facts and record characterizations -/

theorem earlyN_snd_total (acts : List NormalizedActivity)
    (hlen : (sortedN acts).length = acts.length) {v : String} (hv : v ∈ idsOfN acts) :
    ((earlyN acts).2 v).isSome := by
  have h1 := earlyN_total acts hlen hv
  unfold earlyN at h1 ⊢
  rw [Option.isSome_iff_ne_none] at h1 ⊢
  intro h2
  exact h1 ((schedulePass_none_iff (amapN acts) forwardStep (sortedN acts) v).mpr h2)

theorem lateN_snd_total (acts : List NormalizedActivity)
    (hlen : (sortedN acts).length = acts.length) {v : String} (hv : v ∈ idsOfN acts) :
    ((lateN acts).2 v).isSome := by
  have h1 := lateN_total acts hlen hv
  unfold lateN at h1 ⊢
  rw [Option.isSome_iff_ne_none] at h1 ⊢
  intro h2
  exact h1 ((schedulePass_none_iff (amapN acts)
    (backwardStep (graphN acts).successors (pdN acts)) (sortedN acts).reverse v).mpr h2)

theorem mem_calculateSchedule {acts : List SchedulerActivity} {r : ScheduledActivity}
    (hr : r ∈ calculateSchedule acts) : r ∈ scheduleN (acts.map normalizeActivity) := by
  unfold calculateSchedule at hr
  split at hr
  · cases hr
  · exact hr

theorem scheduleN_mem_acyclic (acts : List NormalizedActivity)
    (hlen : (sortedN acts).length = acts.length) {r : ScheduledActivity}
    (hr : r ∈ scheduleN acts) :
    ∃ a ∈ acts, r = assembleActivity (earlyN acts).1 (earlyN acts).2 (lateN acts).1
      (graphN acts).successors a := by
  unfold scheduleN at hr
  rw [if_neg (by omega)] at hr
  rw [mem_stableSortBy] at hr
  obtain ⟨a, ha, hra⟩ := List.mem_map.mp hr
  exact ⟨a, ha, hra.symm⟩

theorem acyclic_record_char (acts : List NormalizedActivity)
    (hlen : (sortedN acts).length = acts.length) {a : NormalizedActivity} (ha : a ∈ acts) :
    ∃ es ls : Int,
      (earlyN acts).1 a.id = some es ∧
      (earlyN acts).2 a.id = some (es + a.duration - 1) ∧
      (lateN acts).1 a.id = some ls ∧
      (lateN acts).2 a.id = some (ls + a.duration - 1) ∧
      es = forwardStep (earlyN acts) a.id a ∧
      ls = backwardStep (graphN acts).successors (pdN acts) (lateN acts) a.id a ∧
      1 ≤ es ∧ es ≤ ls := by
  have hmap : amapN acts a.id = some a := amapN_self (acyclic_ids_nodup acts hlen) ha
  obtain ⟨hE1, hE2⟩ := earlyN_char acts hlen hmap
  obtain ⟨hL1, hL2⟩ := lateN_char acts hlen hmap
  refine ⟨forwardStep (earlyN acts) a.id a,
    backwardStep (graphN acts).successors (pdN acts) (lateN acts) a.id a,
    hE1, hE2, hL1, hL2, rfl, rfl, ?_, ?_⟩
  · exact le_trans (toValidStartDay_pos a.manualStart) (forwardStep_ge_base _ _ _)
  · have hvs : a.id ∈ sortedN acts :=
      (acyclic_mem_sorted acts hlen a.id).mpr (List.mem_map_of_mem _ ha)
    obtain ⟨s₁, s₂, hsplit⟩ := List.append_of_mem hvs
    exact lateN_ge_earlyN acts hlen s₂.length s₁ a.id s₂ rfl hsplit _ _ hE1 hL1

theorem assembleActivity_resolved (es ef ls : String → Option Int)
    (succ : String → Option (List SuccessorRelation)) (a : NormalizedActivity)
    {s e l : Int} (hes : es a.id = some s) (hef : ef a.id = some e) (hls : ls a.id = some l) :
    assembleActivity es ef ls succ a =
      { id := a.id, duration := a.duration, startDay := s, endDay := e,
        totalFloat := l - s,
        freeFloat :=
          if ((succ a.id).getD []).length > 0 then
            match ((succ a.id).getD []).filterMap (fun rel =>
              match es rel.successorId, ef rel.successorId with
              | some successorStart, some successorFinish =>
                some (freeFloatAgainstSuccessor rel.dependency s e successorStart
                  successorFinish)
              | _, _ => none) with
            | [] => l - s
            | s0 :: rest => rest.foldl min s0
          else l - s,
        isCritical := decide (l - s = 0) } := by
  unfold assembleActivity
  rw [hes, hef, hls]
  rfl

/-! ## The project duration in the acyclic case -/

theorem passKeys_acyclic (acts : List NormalizedActivity) :
    passKeys (amapN acts) (sortedN acts) = sortedN acts := by
  unfold passKeys
  have hfilter : (sortedN acts).filter (fun id => (amapN acts id).isSome) = sortedN acts := by
    apply List.filter_eq_self.mpr
    intro v hv
    exact (amapN_isSome acts v).mpr ((mem_keysOfN acts v).mp ((sortedN_facts acts).2.1 v hv))
  rw [hfilter]
  exact firstOccurrences_eq_self [] _ (sortedN_facts acts).1 (by simp)

theorem filterMap_eq_map_getD {α : Type} (f : α → Option Int) :
    ∀ (l : List α), (∀ x ∈ l, (f x).isSome) →
    l.filterMap f = l.map (fun x => (f x).getD 0) := by
  intro l
  induction l with
  | nil => intro _; rfl
  | cons x xs ih =>
    intro h
    obtain ⟨v, hv⟩ := Option.isSome_iff_exists.mp (h x (List.mem_cons_self _ _))
    rw [List.filterMap_cons, List.map_cons, hv, ih (fun y hy => h y (List.mem_cons_of_mem _ hy))]
    simp

theorem pdN_eq_spec (acts : List NormalizedActivity)
    (hlen : (sortedN acts).length = acts.length) :
    pdN acts = projectDurationSpec acts (earlyN acts).2 := by
  unfold pdN projectDurationSpec
  rw [passKeys_acyclic acts]
  rw [filterMap_eq_map_getD _ _ (fun v hv => earlyN_snd_total acts hlen
    ((mem_keysOfN acts v).mp ((sortedN_facts acts).2.1 v hv)))]
  have hp2 : sortedN acts ~ idsOfN acts := by
    have h := acyclic_sorted_perm acts hlen
    rwa [acyclic_keys_eq acts hlen] at h
  have hmapeq : (idsOfN acts).map (fun v => ((earlyN acts).2 v).getD 0) =
      acts.map (fun a => ((earlyN acts).2 a.id).getD 0) := by
    unfold idsOfN
    rw [List.map_map]
    rfl
  rw [← hmapeq]
  exact (hp2.map _).foldl_eq' (fun x _hx y _hy z => sup_right_comm z x y) 1

theorem forwardStep_eq_spec (acts : List NormalizedActivity)
    (hlen : (sortedN acts).length = acts.length) (a : NormalizedActivity) (id : String) :
    forwardStep (earlyN acts) id a =
      forwardSpec (idsOfN acts) (earlyN acts).1 (earlyN acts).2 a := by
  rw [forwardStep_eq]
  unfold forwardSpec
  rw [toValidStartDay_eq_spec]
  refine foldl_congr_mem _ ?_ _
  intro b dep _
  unfold forwardUpdate
  by_cases hdt : dep.activityId ∈ idsOfN acts
  · obtain ⟨ps, hps⟩ := Option.isSome_iff_exists.mp (earlyN_total acts hlen hdt)
    obtain ⟨pf, hpf⟩ := Option.isSome_iff_exists.mp (earlyN_snd_total acts hlen hdt)
    rw [hps, hpf, if_pos hdt]
    simp only [Option.getD_some]
    show max b (earliestStartFromDependency dep ps pf a.duration) =
      max b (edgeContribSpec dep.type dep.lagDays ps pf a.duration)
    rw [earliestStart_eq_spec]
  · have h1 : (earlyN acts).1 dep.activityId = none := by
      by_contra h
      exact hdt (earlyN_domain acts _ (Option.isSome_iff_ne_none.mpr h))
    have h2 : (earlyN acts).2 dep.activityId = none := by
      unfold earlyN at h1 ⊢
      exact (schedulePass_none_iff _ _ _ _).mp h1
    rw [h1, h2, if_neg hdt]

theorem backwardStep_eq_spec (acts : List NormalizedActivity)
    (hlen : (sortedN acts).length = acts.length) (a : NormalizedActivity) (id : String) :
    backwardStep (graphN acts).successors (pdN acts) (lateN acts) id a =
      backwardSpec (lateN acts).1 (lateN acts).2 (pdN acts)
        (((graphN acts).successors id).getD []) a.duration := by
  rw [backwardStep_eq]
  unfold backwardSpec
  congr 1
  refine foldl_congr_mem _ ?_ _
  intro b rel hrel
  unfold backwardUpdate
  have hw : rel.successorId ∈ idsOfN acts := (graphN_edgeInv acts).2.2.1 id rel hrel
  obtain ⟨sls, hsls⟩ := Option.isSome_iff_exists.mp (lateN_total acts hlen hw)
  obtain ⟨slf, hslf⟩ := Option.isSome_iff_exists.mp (lateN_snd_total acts hlen hw)
  rw [hsls, hslf]
  simp only [Option.getD_some]
  show min b (latestStartUpperBoundFromSuccessor rel.dependency.type rel.dependency.lagDays
      a.duration sls slf) =
    min b (backwardBoundSpec rel.dependency.type rel.dependency.lagDays a.duration sls slf)
  rw [latestBound_eq_spec]

/-! ## The spec claims about the two passes and the floats -/

/-- C1: forward pass, acyclic case.  Every returned record stems from an input
activity; its startDay is the value of the forward map at that id, equal to the
specification's maximum of the start floor (manualStart when a finite number
≥ 1, floored; else 1) and the per-edge contributions over the dependencies
whose target exists in the input; and the returned endDay is that earliest
start plus the duration minus 1. -/
theorem C1_forward_pass (acts : List SchedulerActivity)
    (hlen : (sortedN (acts.map normalizeActivity)).length =
      (acts.map normalizeActivity).length)
    {r : ScheduledActivity} (hr : r ∈ calculateSchedule acts) :
    ∃ a ∈ acts.map normalizeActivity, r.id = a.id ∧ r.duration = a.duration ∧
      (earlyN (acts.map normalizeActivity)).1 a.id = some r.startDay ∧
      (earlyN (acts.map normalizeActivity)).2 a.id = some r.endDay ∧
      r.startDay = forwardSpec (idsOfN (acts.map normalizeActivity))
        (earlyN (acts.map normalizeActivity)).1 (earlyN (acts.map normalizeActivity)).2 a ∧
      r.endDay = r.startDay + a.duration - 1 := by
  obtain ⟨a, ha, hra⟩ := scheduleN_mem_acyclic (acts.map normalizeActivity) hlen
    (mem_calculateSchedule hr)
  obtain ⟨es, ls, hE1, hE2, hL1, hL2, hesdef, hlsdef, hes1, hesls⟩ :=
    acyclic_record_char (acts.map normalizeActivity) hlen ha
  have hrec := assembleActivity_resolved (earlyN (acts.map normalizeActivity)).1
    (earlyN (acts.map normalizeActivity)).2 (lateN (acts.map normalizeActivity)).1
    (graphN (acts.map normalizeActivity)).successors a hE1 hE2 hL1
  rw [hrec] at hra
  subst hra
  refine ⟨a, ha, rfl, rfl, hE1, hE2, ?_, rfl⟩
  show es = forwardSpec (idsOfN (acts.map normalizeActivity))
    (earlyN (acts.map normalizeActivity)).1 (earlyN (acts.map normalizeActivity)).2 a
  rw [hesdef]
  exact forwardStep_eq_spec (acts.map normalizeActivity) hlen a a.id

/-- C2: backward pass, acyclic case.  The project duration equals the
specification's max(1, maximum earliest finish over all activities); every
returned record stems from an input activity whose latest start (the value of
the backward map) equals max 1 of the minimum of the tail-end bound and every
per-successor inverted bound, whose latest finish is latest start + duration
− 1, and whose returned totalFloat is latest start − earliest start with
isCritical exactly when that is 0. -/
theorem C2_backward_pass (acts : List SchedulerActivity)
    (hlen : (sortedN (acts.map normalizeActivity)).length =
      (acts.map normalizeActivity).length)
    {r : ScheduledActivity} (hr : r ∈ calculateSchedule acts) :
    pdN (acts.map normalizeActivity) =
      projectDurationSpec (acts.map normalizeActivity)
        (earlyN (acts.map normalizeActivity)).2 ∧
    ∃ a ∈ acts.map normalizeActivity, r.id = a.id ∧ ∃ es ls : Int,
      (earlyN (acts.map normalizeActivity)).1 a.id = some es ∧
      (lateN (acts.map normalizeActivity)).1 a.id = some ls ∧
      (lateN (acts.map normalizeActivity)).2 a.id = some (ls + a.duration - 1) ∧
      ls = backwardSpec (lateN (acts.map normalizeActivity)).1
        (lateN (acts.map normalizeActivity)).2 (pdN (acts.map normalizeActivity))
        (((graphN (acts.map normalizeActivity)).successors a.id).getD []) a.duration ∧
      r.totalFloat = ls - es ∧ (r.isCritical = true ↔ r.totalFloat = 0) := by
  obtain ⟨a, ha, hra⟩ := scheduleN_mem_acyclic (acts.map normalizeActivity) hlen
    (mem_calculateSchedule hr)
  obtain ⟨es, ls, hE1, hE2, hL1, hL2, hesdef, hlsdef, hes1, hesls⟩ :=
    acyclic_record_char (acts.map normalizeActivity) hlen ha
  have hrec := assembleActivity_resolved (earlyN (acts.map normalizeActivity)).1
    (earlyN (acts.map normalizeActivity)).2 (lateN (acts.map normalizeActivity)).1
    (graphN (acts.map normalizeActivity)).successors a hE1 hE2 hL1
  rw [hrec] at hra
  subst hra
  refine ⟨pdN_eq_spec (acts.map normalizeActivity) hlen, a, ha, rfl, es, ls, hE1, hL1, hL2,
    ?_, rfl, by simp⟩
  rw [hlsdef]
  exact backwardStep_eq_spec (acts.map normalizeActivity) hlen a a.id

/-- C5: free float, acyclic case.  Every returned record stems from an input
activity; when that activity has no successor edge its freeFloat equals its
totalFloat, and when it has at least one, its freeFloat is the minimum of the
per-edge slacks evaluated with earliest dates on both sides. -/
theorem C5_free_float (acts : List SchedulerActivity)
    (hlen : (sortedN (acts.map normalizeActivity)).length =
      (acts.map normalizeActivity).length)
    {r : ScheduledActivity} (hr : r ∈ calculateSchedule acts) :
    ∃ a ∈ acts.map normalizeActivity, r.id = a.id ∧
      ∃ slacks : List Int,
        slacks = (((graphN (acts.map normalizeActivity)).successors a.id).getD []).map
          (fun rel => freeSlackSpec rel.dependency.type rel.dependency.lagDays
            r.startDay r.endDay
            (((earlyN (acts.map normalizeActivity)).1 rel.successorId).getD 0)
            (((earlyN (acts.map normalizeActivity)).2 rel.successorId).getD 0)) ∧
        ((((graphN (acts.map normalizeActivity)).successors a.id).getD []) = [] →
          r.freeFloat = r.totalFloat) ∧
        ((((graphN (acts.map normalizeActivity)).successors a.id).getD []) ≠ [] →
          r.freeFloat ∈ slacks ∧ ∀ s ∈ slacks, r.freeFloat ≤ s) := by
  obtain ⟨a, ha, hra⟩ := scheduleN_mem_acyclic (acts.map normalizeActivity) hlen
    (mem_calculateSchedule hr)
  obtain ⟨es, ls, hE1, hE2, hL1, hL2, hesdef, hlsdef, hes1, hesls⟩ :=
    acyclic_record_char (acts.map normalizeActivity) hlen ha
  have hrec := assembleActivity_resolved (earlyN (acts.map normalizeActivity)).1
    (earlyN (acts.map normalizeActivity)).2 (lateN (acts.map normalizeActivity)).1
    (graphN (acts.map normalizeActivity)).successors a hE1 hE2 hL1
  rw [hrec] at hra
  subst hra
  have htgt := (graphN_edgeInv (acts.map normalizeActivity)).2.2.1
  have hfm : (((graphN (acts.map normalizeActivity)).successors a.id).getD []).filterMap
      (fun rel =>
        match (earlyN (acts.map normalizeActivity)).1 rel.successorId,
            (earlyN (acts.map normalizeActivity)).2 rel.successorId with
        | some successorStart, some successorFinish =>
          some (freeFloatAgainstSuccessor rel.dependency es (es + a.duration - 1)
            successorStart successorFinish)
        | _, _ => none) =
      (((graphN (acts.map normalizeActivity)).successors a.id).getD []).map
        (fun rel => freeSlackSpec rel.dependency.type rel.dependency.lagDays
          es (es + a.duration - 1)
          (((earlyN (acts.map normalizeActivity)).1 rel.successorId).getD 0)
          (((earlyN (acts.map normalizeActivity)).2 rel.successorId).getD 0)) := by
    rw [filterMap_eq_map_getD _ _ (fun rel hrel => ?_)]
    · refine List.map_congr_left (fun rel hrel => ?_)
      have hw := htgt a.id rel hrel
      obtain ⟨ss, hss⟩ := Option.isSome_iff_exists.mp
        (earlyN_total (acts.map normalizeActivity) hlen hw)
      obtain ⟨sf, hsf⟩ := Option.isSome_iff_exists.mp
        (earlyN_snd_total (acts.map normalizeActivity) hlen hw)
      rw [hss, hsf]
      simp only [Option.getD_some]
      rw [freeSlack_eq_spec]
    · have hw := htgt a.id rel hrel
      obtain ⟨ss, hss⟩ := Option.isSome_iff_exists.mp
        (earlyN_total (acts.map normalizeActivity) hlen hw)
      obtain ⟨sf, hsf⟩ := Option.isSome_iff_exists.mp
        (earlyN_snd_total (acts.map normalizeActivity) hlen hw)
      rw [hss, hsf]
      rfl
  refine ⟨a, ha, rfl, _, rfl, ?_, ?_⟩
  · intro hnil
    show (if (((graphN (acts.map normalizeActivity)).successors a.id).getD []).length > 0
      then _ else ls - es) = ls - es
    rw [if_neg (by rw [hnil]; simp)]
  · intro hne
    obtain ⟨rel0, rest, hcons⟩ := List.exists_cons_of_ne_nil hne
    have hpos : (((graphN (acts.map normalizeActivity)).successors a.id).getD []).length > 0 := by
      rw [hcons]
      simp
    constructor
    · show (if (((graphN (acts.map normalizeActivity)).successors a.id).getD []).length > 0
        then _ else ls - es) ∈ _
      rw [if_pos hpos, hfm, hcons, List.map_cons]
      exact foldl_min_mem_cons _ _
    · intro s hs
      show (if (((graphN (acts.map normalizeActivity)).successors a.id).getD []).length > 0
        then _ else ls - es) ≤ s
      rw [if_pos hpos, hfm, hcons, List.map_cons]
      rw [hcons, List.map_cons] at hs
      rcases List.mem_cons.mp hs with rfl | hs
      · exact foldl_min_le_init _ _
      · exact foldl_min_le_mem _ _ _ hs

/-! ## The day-value and float invariants -/

theorem seqSpec_day : ∀ (c : Int) (l : List NormalizedActivity) (r : ScheduledActivity),
    1 ≤ c → r ∈ seqSpec c l →
    1 ≤ r.duration ∧ 1 ≤ r.startDay ∧ r.endDay = r.startDay + r.duration - 1 := by
  intro c l
  induction l generalizing c with
  | nil => intro r _ hr; cases hr
  | cons a rest ih =>
    intro r hc hr
    rw [seqSpec] at hr
    rcases List.mem_cons.mp hr with rfl | hr
    · refine ⟨?_, ?_, rfl⟩
      · show (1:Int) ≤ toPositiveDuration (JSNum.fin (a.duration : ℚ))
        exact toPositiveDuration_pos _
      · show (1:Int) ≤ max c (toValidStartDay a.manualStart)
        exact le_trans hc (le_max_left _ _)
    · refine ih _ r ?_ hr
      have h1 := toPositiveDuration_pos (JSNum.fin (a.duration : ℚ))
      have h3 : (1:Int) ≤ max c (toValidStartDay a.manualStart) :=
        le_trans hc (le_max_left _ _)
      omega

theorem slack_nonneg (acts : List NormalizedActivity)
    (hlen : (sortedN acts).length = acts.length) {a : NormalizedActivity}
    {es : Int} (hE1 : (earlyN acts).1 a.id = some es)
    (hE2 : (earlyN acts).2 a.id = some (es + a.duration - 1))
    {rel : SuccessorRelation} (hrel : rel ∈ ((graphN acts).successors a.id).getD [])
    {ss sf : Int} (hss : (earlyN acts).1 rel.successorId = some ss)
    (hsf : (earlyN acts).2 rel.successorId = some sf) :
    0 ≤ freeFloatAgainstSuccessor rel.dependency es (es + a.duration - 1) ss sf := by
  obtain ⟨b, hbmem, d, hd, hreleq, hveq⟩ := graphN_rel_sound acts hrel
  have hidnd := acyclic_ids_nodup acts hlen
  have hwb : rel.successorId = b.id := by rw [hreleq]
  have hbmap : amapN acts rel.successorId = some b := by
    rw [hwb]
    exact amapN_self hidnd hbmem
  obtain ⟨hEw1, hEw2⟩ := earlyN_char acts hlen hbmap
  have hssX : ss = forwardStep (earlyN acts) rel.successorId b :=
    Option.some.inj (hss.symm.trans hEw1)
  have hsfX : sf = ss + b.duration - 1 := by
    have h4 := Option.some.inj (hsf.symm.trans hEw2)
    omega
  have hstep : earliestStartFromDependency d es (es + a.duration - 1) b.duration ≤
      forwardStep (earlyN acts) rel.successorId b := by
    rw [forwardStep_eq]
    refine foldl_forwardUpdate_ge_mem (earlyN acts) b.duration _ hd ?_ ?_ _
    · rw [← hveq]
      exact hE1
    · rw [← hveq]
      exact hE2
  have hles : earliestStartFromDependency d es (es + a.duration - 1) b.duration ≤ ss := by
    omega
  have hreldep : rel.dependency = d := by rw [hreleq]
  rw [hreldep]
  obtain ⟨did, dtype, dlag⟩ := d
  cases dtype <;>
    (simp only [earliestStartFromDependency, freeFloatAgainstSuccessor] at hles ⊢; omega)

/-- C9: day-value invariant — on both the cyclic-fallback branch and the
acyclic branch, every returned activity has duration ≥ 1, startDay ≥ 1 and
endDay = startDay + duration − 1 (hence every day value is ≥ 1). -/
theorem C9_day_values (acts : List SchedulerActivity) {r : ScheduledActivity}
    (hr : r ∈ calculateSchedule acts) :
    1 ≤ r.duration ∧ 1 ≤ r.startDay ∧ r.endDay = r.startDay + r.duration - 1 := by
  have hr2 := mem_calculateSchedule hr
  unfold scheduleN at hr2
  split at hr2
  · rw [sequentialFallback_eq_seqSpec] at hr2
    exact seqSpec_day 1 _ r le_rfl hr2
  · rename_i hcond
    have hlen : (sortedN (acts.map normalizeActivity)).length =
        (acts.map normalizeActivity).length := by omega
    rw [mem_stableSortBy] at hr2
    obtain ⟨a, ha, hra⟩ := List.mem_map.mp hr2
    obtain ⟨es, ls, hE1, hE2, hL1, hL2, hesdef, hlsdef, hes1, hesls⟩ :=
      acyclic_record_char (acts.map normalizeActivity) hlen ha
    have hrec := assembleActivity_resolved (earlyN (acts.map normalizeActivity)).1
      (earlyN (acts.map normalizeActivity)).2 (lateN (acts.map normalizeActivity)).1
      (graphN (acts.map normalizeActivity)).successors a hE1 hE2 hL1
    rw [hrec] at hra
    subst hra
    refine ⟨?_, hes1, rfl⟩
    obtain ⟨raw, _, hrawa⟩ := List.mem_map.mp ha
    show (1:Int) ≤ a.duration
    rw [← hrawa]
    exact toPositiveDuration_pos _

/-- C10: non-negative float — on both the cyclic-fallback branch (both floats
are 0) and the acyclic branch, every returned activity has totalFloat ≥ 0 and
freeFloat ≥ 0. -/
theorem C10_nonnegative_float (acts : List SchedulerActivity) {r : ScheduledActivity}
    (hr : r ∈ calculateSchedule acts) : 0 ≤ r.totalFloat ∧ 0 ≤ r.freeFloat := by
  have hr2 := mem_calculateSchedule hr
  unfold scheduleN at hr2
  split at hr2
  · rw [sequentialFallback_eq_seqSpec] at hr2
    obtain ⟨h1, h2, _⟩ := seqSpec_flags 1 _ r hr2
    rw [h1, h2]
    exact ⟨le_refl 0, le_refl 0⟩
  · rename_i hcond
    have hlen : (sortedN (acts.map normalizeActivity)).length =
        (acts.map normalizeActivity).length := by omega
    rw [mem_stableSortBy] at hr2
    obtain ⟨a, ha, hra⟩ := List.mem_map.mp hr2
    obtain ⟨es, ls, hE1, hE2, hL1, hL2, hesdef, hlsdef, hes1, hesls⟩ :=
      acyclic_record_char (acts.map normalizeActivity) hlen ha
    have hrec := assembleActivity_resolved (earlyN (acts.map normalizeActivity)).1
      (earlyN (acts.map normalizeActivity)).2 (lateN (acts.map normalizeActivity)).1
      (graphN (acts.map normalizeActivity)).successors a hE1 hE2 hL1
    rw [hrec] at hra
    subst hra
    constructor
    · show (0:Int) ≤ ls - es
      omega
    · by_cases hpos :
        (((graphN (acts.map normalizeActivity)).successors a.id).getD []).length > 0
      · show (0:Int) ≤ if
          (((graphN (acts.map normalizeActivity)).successors a.id).getD []).length > 0
          then _ else ls - es
        rw [if_pos hpos]
        have hall : ∀ x ∈ (((graphN (acts.map normalizeActivity)).successors a.id).getD
            []).filterMap (fun rel =>
              match (earlyN (acts.map normalizeActivity)).1 rel.successorId,
                  (earlyN (acts.map normalizeActivity)).2 rel.successorId with
              | some successorStart, some successorFinish =>
                some (freeFloatAgainstSuccessor rel.dependency es (es + a.duration - 1)
                  successorStart successorFinish)
              | _, _ => none), 0 ≤ x := by
          intro x hx
          obtain ⟨rel, hrelmem, hfx⟩ := List.mem_filterMap.mp hx
          cases hss : (earlyN (acts.map normalizeActivity)).1 rel.successorId with
          | none =>
            rw [hss] at hfx
            simp at hfx
          | some ss =>
            cases hsf : (earlyN (acts.map normalizeActivity)).2 rel.successorId with
            | none =>
              rw [hss, hsf] at hfx
              simp at hfx
            | some sf =>
              rw [hss, hsf] at hfx
              have hx2 : x = freeFloatAgainstSuccessor rel.dependency es
                  (es + a.duration - 1) ss sf := (Option.some.inj hfx).symm
              rw [hx2]
              exact slack_nonneg (acts.map normalizeActivity) hlen hE1 hE2 hrelmem hss hsf
        cases hsplit : (((graphN (acts.map normalizeActivity)).successors a.id).getD
            []).filterMap (fun rel =>
              match (earlyN (acts.map normalizeActivity)).1 rel.successorId,
                  (earlyN (acts.map normalizeActivity)).2 rel.successorId with
              | some successorStart, some successorFinish =>
                some (freeFloatAgainstSuccessor rel.dependency es (es + a.duration - 1)
                  successorStart successorFinish)
              | _, _ => none) with
        | nil =>
          show (0:Int) ≤ ls - es
          omega
        | cons s0 rest =>
          show (0:Int) ≤ rest.foldl min s0
          refine foldl_min_ge rest s0 0 ?_ ?_
          · refine hall s0 ?_
            rw [hsplit]
            exact List.mem_cons_self _ _
          · intro y hy
            refine hall y ?_
            rw [hsplit]
            exact List.mem_cons_of_mem _ hy
      · show (0:Int) ≤ if
          (((graphN (acts.map normalizeActivity)).successors a.id).getD []).length > 0
          then _ else ls - es
        rw [if_neg hpos]
        omega

/-! ## Dangling-reference tolerance -/

theorem graphState_ext {g g2 : GraphState} (h1 : g.inDegree = g2.inDegree)
    (h2 : g.successors = g2.successors) : g = g2 := by
  cases g
  cases g2
  cases h1
  cases h2
  rfl

theorem buildActivityMap_update_diff (K : String) (x y : NormalizedActivity) :
    ∀ (l : List NormalizedActivity) (m m2 : String → Option NormalizedActivity),
    (∀ k, m k = m2 k ∨ (k = K ∧ m k = some x ∧ m2 k = some y)) →
    ∀ k, (l.foldl (fun m a => fun j => if j = a.id then some a else m j) m) k =
        (l.foldl (fun m a => fun j => if j = a.id then some a else m j) m2) k ∨
      (k = K ∧
        (l.foldl (fun m a => fun j => if j = a.id then some a else m j) m) k = some x ∧
        (l.foldl (fun m a => fun j => if j = a.id then some a else m j) m2) k = some y) := by
  intro l
  induction l with
  | nil => intro m m2 h k; exact h k
  | cons b rest ih =>
    intro m m2 h k
    rw [List.foldl_cons, List.foldl_cons]
    refine ih _ _ ?_ k
    intro j
    by_cases hj : j = b.id
    · left
      show (if j = b.id then some b else m j) = (if j = b.id then some b else m2 j)
      rw [if_pos hj, if_pos hj]
    · rcases h j with h2 | ⟨h2, h3, h4⟩
      · left
        show (if j = b.id then some b else m j) = (if j = b.id then some b else m2 j)
        rw [if_neg hj, if_neg hj]
        exact h2
      · right
        refine ⟨h2, ?_, ?_⟩
        · show (if j = b.id then some b else m j) = some x
          rw [if_neg hj]
          exact h3
        · show (if j = b.id then some b else m2 j) = some y
          rw [if_neg hj]
          exact h4

theorem addEdge_amap_congr {amap amap2 : String → Option NormalizedActivity}
    (hs : ∀ k, (amap k).isSome = (amap2 k).isSome) (aid : String) (st : GraphState)
    (dep : SchedulerDependency) : addEdge amap aid st dep = addEdge amap2 aid st dep := by
  unfold addEdge
  rw [hs dep.activityId]

theorem addEdge_none {amap : String → Option NormalizedActivity} {d : SchedulerDependency}
    (hnone : (amap d.activityId).isSome = false) (aid : String) (st : GraphState) :
    addEdge amap aid st d = st := by
  unfold addEdge
  rw [if_neg (by simp [hnone])]

theorem buildEdges_amap_congr {amap amap2 : String → Option NormalizedActivity}
    (hs : ∀ k, (amap k).isSome = (amap2 k).isSome) (acts : List NormalizedActivity)
    (st : GraphState) : buildEdges amap acts st = buildEdges amap2 acts st := by
  unfold buildEdges
  refine foldl_congr_mem _ ?_ _
  intro st2 b _
  refine foldl_congr_mem _ ?_ _
  intro st3 dep _
  exact addEdge_amap_congr hs b.id st3 dep

theorem buildEdges_middle_drop {amap : String → Option NormalizedActivity}
    (pre post : List NormalizedActivity) (a a2 : NormalizedActivity)
    (l₁ l₂ : List SchedulerDependency) (d : SchedulerDependency)
    (hdeps : a.dependencies = l₁ ++ d :: l₂) (hdeps2 : a2.dependencies = l₁ ++ l₂)
    (hid2 : a2.id = a.id)
    (hnone : (amap d.activityId).isSome = false) (st : GraphState) :
    buildEdges amap (pre ++ a :: post) st = buildEdges amap (pre ++ a2 :: post) st := by
  unfold buildEdges
  rw [List.foldl_append, List.foldl_append, List.foldl_cons, List.foldl_cons]
  congr 1
  rw [hdeps, hdeps2, hid2]
  rw [List.foldl_append, List.foldl_append, List.foldl_cons,
    addEdge_none hnone a.id (l₁.foldl (addEdge amap a.id)
      (List.foldl (fun st b => b.dependencies.foldl (addEdge amap b.id) st) st pre))]

theorem initGraph_eq_of_ids {acts acts2 : List NormalizedActivity}
    (hids : idsOfN acts = idsOfN acts2) : initGraph acts = initGraph acts2 := by
  refine graphState_ext ?_ ?_
  · funext k
    rw [initGraph_inDegree, initGraph_inDegree, hids]
  · funext u
    rw [initGraph_successors, initGraph_successors, hids]

theorem foldl_passStep_congr_inv (amap amap2 : String → Option NormalizedActivity)
    (f f2 : ((String → Option Int) × (String → Option Int)) → String →
      NormalizedActivity → Int)
    (P : ((String → Option Int) × (String → Option Int)) → Prop) :
    ∀ (order : List String),
    (∀ st, ∀ id ∈ order, P st → P (passStep amap f st id)) →
    (∀ st, ∀ id ∈ order, P st → passStep amap f st id = passStep amap2 f2 st id) →
    ∀ st, P st → order.foldl (passStep amap f) st = order.foldl (passStep amap2 f2) st := by
  intro order
  induction order with
  | nil => intro _ _ st _; rfl
  | cons id rest ih =>
    intro hP h st hst
    rw [List.foldl_cons, List.foldl_cons, ← h st id (List.mem_cons_self _ _) hst]
    exact ih (fun st2 id2 hid2 => hP st2 id2 (List.mem_cons_of_mem _ hid2))
      (fun st2 id2 hid2 => h st2 id2 (List.mem_cons_of_mem _ hid2))
      _ (hP st id (List.mem_cons_self _ _) hst)

theorem passStep_amap_congr {amap amap2 : String → Option NormalizedActivity}
    {f : ((String → Option Int) × (String → Option Int)) → String → NormalizedActivity → Int}
    {st : (String → Option Int) × (String → Option Int)} {id : String}
    (h : amap id = amap2 id) : passStep amap f st id = passStep amap2 f st id := by
  unfold passStep
  rw [h]

theorem passStep_some_congr {amap amap2 : String → Option NormalizedActivity}
    {f : ((String → Option Int) × (String → Option Int)) → String → NormalizedActivity → Int}
    {st : (String → Option Int) × (String → Option Int)} {id : String}
    {x y : NormalizedActivity} (hx : amap id = some x) (hy : amap2 id = some y)
    (hval : f st id x = f st id y) (hdur : x.duration = y.duration) :
    passStep amap f st id = passStep amap2 f st id := by
  unfold passStep
  rw [hx, hy]
  show ((fun k => if k = id then some (f st id x) else st.1 k),
        (fun k => if k = id then some (f st id x + x.duration - 1) else st.2 k)) =
       ((fun k => if k = id then some (f st id y) else st.1 k),
        (fun k => if k = id then some (f st id y + y.duration - 1) else st.2 k))
  rw [hval, hdur]

theorem forwardStep_skip (st : (String → Option Int) × (String → Option Int)) (id : String)
    (a a2 : NormalizedActivity) (l₁ l₂ : List SchedulerDependency) (d : SchedulerDependency)
    (hdeps : a.dependencies = l₁ ++ d :: l₂) (hdeps2 : a2.dependencies = l₁ ++ l₂)
    (hdur : a2.duration = a.duration) (hms : a2.manualStart = a.manualStart)
    (hnone : st.1 d.activityId = none) :
    forwardStep st id a = forwardStep st id a2 := by
  rw [forwardStep_eq, forwardStep_eq, hdeps, hdeps2, hdur, hms]
  have hstepd : ∀ X : Int, forwardUpdate st a.duration X d = X := by
    intro X
    show (match st.1 d.activityId, st.2 d.activityId with
      | some predecessorStart, some predecessorFinish =>
        max X (earliestStartFromDependency d predecessorStart predecessorFinish a.duration)
      | _, _ => X) = X
    rw [hnone]
  rw [List.foldl_append, List.foldl_append, List.foldl_cons, hstepd]

theorem backwardStep_dur_congr {succ : String → Option (List SuccessorRelation)} {pd : Int}
    {st : (String → Option Int) × (String → Option Int)} {id : String}
    {x y : NormalizedActivity} (h2 : x.duration = y.duration) :
    backwardStep succ pd st id x = backwardStep succ pd st id y := by
  rw [backwardStep_eq, backwardStep_eq, h2]

theorem assembleActivity_congr (es ef ls : String → Option Int)
    (succ : String → Option (List SuccessorRelation)) {x y : NormalizedActivity}
    (h1 : x.id = y.id) (h2 : x.duration = y.duration) :
    assembleActivity es ef ls succ x = assembleActivity es ef ls succ y := by
  unfold assembleActivity
  rw [h1, h2]

theorem seqSpec_middle (pre post : List NormalizedActivity) (x y : NormalizedActivity)
    (h1 : x.id = y.id) (h2 : x.duration = y.duration) (h3 : x.manualStart = y.manualStart) :
    ∀ c : Int, seqSpec c (pre ++ x :: post) = seqSpec c (pre ++ y :: post) := by
  induction pre with
  | nil =>
    intro c
    rw [List.nil_append, List.nil_append, seqSpec, seqSpec, h1, h2, h3]
  | cons p ps ih =>
    intro c
    rw [List.cons_append, List.cons_append, seqSpec, seqSpec, ih]

/-- C8: dangling-reference tolerance.  A dependency whose target id matches no
activity contributes no edge and no in-degree at graph construction, no
constraint to the forward pass, and the computed schedule equals the one
computed with that dependency removed. -/
theorem C8_dangling_reference (pre post : List NormalizedActivity)
    (a a2 : NormalizedActivity) (l₁ l₂ : List SchedulerDependency) (d : SchedulerDependency)
    (hdeps : a.dependencies = l₁ ++ d :: l₂)
    (ha2 : a2 = { a with dependencies := l₁ ++ l₂ })
    (hdangle : d.activityId ∉ idsOfN (pre ++ a :: post)) :
    graphN (pre ++ a :: post) = graphN (pre ++ a2 :: post) ∧
    earlyN (pre ++ a :: post) = earlyN (pre ++ a2 :: post) ∧
    scheduleN (pre ++ a :: post) = scheduleN (pre ++ a2 :: post) := by
  have hid2 : a2.id = a.id := by rw [ha2]
  have hdur2 : a2.duration = a.duration := by rw [ha2]
  have hms2 : a2.manualStart = a.manualStart := by rw [ha2]
  have hdeps2 : a2.dependencies = l₁ ++ l₂ := by rw [ha2]
  have hids : idsOfN (pre ++ a :: post) = idsOfN (pre ++ a2 :: post) := by
    unfold idsOfN
    rw [List.map_append, List.map_append, List.map_cons, List.map_cons, hid2]
  have hA : ∀ k, amapN (pre ++ a :: post) k = amapN (pre ++ a2 :: post) k ∨
      (k = a.id ∧ amapN (pre ++ a :: post) k = some a ∧
        amapN (pre ++ a2 :: post) k = some a2) := by
    intro k
    unfold amapN buildActivityMap
    rw [List.foldl_append, List.foldl_append, List.foldl_cons, List.foldl_cons]
    refine buildActivityMap_update_diff a.id a a2 post _ _ ?_ k
    intro j
    by_cases hj : j = a.id
    · right
      refine ⟨hj, ?_, ?_⟩
      · show (if j = a.id then some a else
          (pre.foldl (fun m b => fun i => if i = b.id then some b else m i)
            (fun _ => none)) j) = some a
        rw [if_pos hj]
      · show (if j = a2.id then some a2 else
          (pre.foldl (fun m b => fun i => if i = b.id then some b else m i)
            (fun _ => none)) j) = some a2
        rw [if_pos (by rw [hid2]; exact hj)]
    · left
      show (if j = a.id then some a else
          (pre.foldl (fun m b => fun i => if i = b.id then some b else m i)
            (fun _ => none)) j) =
        (if j = a2.id then some a2 else
          (pre.foldl (fun m b => fun i => if i = b.id then some b else m i)
            (fun _ => none)) j)
      rw [if_neg hj, if_neg (by rw [hid2]; exact hj)]
  have hSome : ∀ k, (amapN (pre ++ a :: post) k).isSome =
      (amapN (pre ++ a2 :: post) k).isSome := by
    intro k
    rcases hA k with h | ⟨_, h1, h2⟩
    · rw [h]
    · rw [h1, h2]
      rfl
  have hdangle2 : (amapN (pre ++ a2 :: post) d.activityId).isSome = false := by
    have h1 : ¬ (amapN (pre ++ a2 :: post) d.activityId).isSome = true := by
      intro h
      exact hdangle (hids ▸ (amapN_isSome _ _).mp h)
    exact Bool.not_eq_true _ ▸ h1
  have hG : graphN (pre ++ a :: post) = graphN (pre ++ a2 :: post) := by
    unfold graphN
    rw [buildEdges_amap_congr hSome (pre ++ a :: post) (initGraph (pre ++ a :: post)),
      initGraph_eq_of_ids hids]
    exact buildEdges_middle_drop pre post a a2 l₁ l₂ d hdeps hdeps2 hid2 hdangle2
      (initGraph (pre ++ a2 :: post))
  have hmapid : (pre ++ a :: post).map (fun b => b.id) =
      (pre ++ a2 :: post).map (fun b => b.id) := hids
  have hQ : queueN (pre ++ a :: post) = queueN (pre ++ a2 :: post) := by
    unfold queueN initialQueue
    rw [hG, hmapid]
  have hLen2 : (pre ++ a :: post).length = (pre ++ a2 :: post).length := by simp
  have hS : sortedN (pre ++ a :: post) = sortedN (pre ++ a2 :: post) := by
    unfold sortedN
    rw [hG, hQ, hLen2]
  have hE : earlyN (pre ++ a :: post) = earlyN (pre ++ a2 :: post) := by
    unfold earlyN
    rw [← hS]
    unfold schedulePass
    refine foldl_passStep_congr_inv (amapN (pre ++ a :: post)) (amapN (pre ++ a2 :: post))
      forwardStep forwardStep (fun st => ∀ k, k ∉ idsOfN (pre ++ a :: post) → st.1 k = none)
      (sortedN (pre ++ a :: post)) ?_ ?_ _ (fun _ _ => rfl)
    · intro st id hid hP k hk
      have hkid : k ≠ id := by
        intro h
        subst h
        exact hk ((mem_keysOfN _ k).mp ((sortedN_facts _).2.1 k hid))
      rw [(passStep_nonmem hkid).1]
      exact hP k hk
    · intro st id _ hP
      rcases hA id with h | ⟨_, h1, h2⟩
      · exact passStep_amap_congr h
      · exact passStep_some_congr h1 h2
          (forwardStep_skip st id a a2 l₁ l₂ d hdeps hdeps2 hdur2 hms2 (hP _ hdangle))
          hdur2.symm
  have hPD : pdN (pre ++ a :: post) = pdN (pre ++ a2 :: post) := by
    unfold pdN passKeys
    rw [← hS, hE, List.filter_congr (fun x _ => hSome x)]
  have hL : lateN (pre ++ a :: post) = lateN (pre ++ a2 :: post) := by
    unfold lateN
    rw [← hS, hG, hPD]
    unfold schedulePass
    refine foldl_passStep_congr_inv (amapN (pre ++ a :: post)) (amapN (pre ++ a2 :: post))
      (backwardStep (graphN (pre ++ a2 :: post)).successors (pdN (pre ++ a2 :: post)))
      (backwardStep (graphN (pre ++ a2 :: post)).successors (pdN (pre ++ a2 :: post)))
      (fun _ => True) (sortedN (pre ++ a :: post)).reverse
      (fun _ _ _ _ => trivial) ?_ _ trivial
    intro st id _ _
    rcases hA id with h | ⟨_, h1, h2⟩
    · exact passStep_amap_congr h
    · exact passStep_some_congr h1 h2 (backwardStep_dur_congr hdur2.symm) hdur2.symm
  refine ⟨hG, hE, ?_⟩
  unfold scheduleN
  rw [← hS, hLen2]
  by_cases hc : (sortedN (pre ++ a :: post)).length ≠ (pre ++ a2 :: post).length
  · rw [if_pos hc, if_pos hc, sequentialFallback_eq_seqSpec, sequentialFallback_eq_seqSpec]
    exact seqSpec_middle pre post a a2 hid2.symm hdur2.symm hms2.symm 1
  · rw [if_neg hc, if_neg hc, hE, hL, hG]
    have hmap : (pre ++ a :: post).map (assembleActivity (earlyN (pre ++ a2 :: post)).1
        (earlyN (pre ++ a2 :: post)).2 (lateN (pre ++ a2 :: post)).1
        (graphN (pre ++ a2 :: post)).successors) =
        (pre ++ a2 :: post).map (assembleActivity (earlyN (pre ++ a2 :: post)).1
        (earlyN (pre ++ a2 :: post)).2 (lateN (pre ++ a2 :: post)).1
        (graphN (pre ++ a2 :: post)).successors) := by
      rw [List.map_append, List.map_append, List.map_cons, List.map_cons,
        assembleActivity_congr _ _ _ _ hid2.symm hdur2.symm]
    rw [hmap]

/-! ## Closed-input witnesses -/

theorem C1_witness :
    ((sortedN (wActs.map normalizeActivity)).length =
      (wActs.map normalizeActivity).length) ∧
    wRecB ∈ calculateSchedule wActs ∧
    (∃ a ∈ wActs.map normalizeActivity, wRecB.id = a.id ∧ wRecB.duration = a.duration ∧
      (earlyN (wActs.map normalizeActivity)).1 a.id = some wRecB.startDay ∧
      (earlyN (wActs.map normalizeActivity)).2 a.id = some wRecB.endDay ∧
      wRecB.startDay = forwardSpec (idsOfN (wActs.map normalizeActivity))
        (earlyN (wActs.map normalizeActivity)).1 (earlyN (wActs.map normalizeActivity)).2 a ∧
      wRecB.endDay = wRecB.startDay + a.duration - 1) :=
  ⟨by decide, by decide,
    C1_forward_pass wActs (by decide) (show wRecB ∈ calculateSchedule wActs by decide)⟩

theorem C2_witness :
    ((sortedN (wActs.map normalizeActivity)).length =
      (wActs.map normalizeActivity).length) ∧
    wRecB ∈ calculateSchedule wActs ∧
    (pdN (wActs.map normalizeActivity) =
      projectDurationSpec (wActs.map normalizeActivity)
        (earlyN (wActs.map normalizeActivity)).2 ∧
    ∃ a ∈ wActs.map normalizeActivity, wRecB.id = a.id ∧ ∃ es ls : Int,
      (earlyN (wActs.map normalizeActivity)).1 a.id = some es ∧
      (lateN (wActs.map normalizeActivity)).1 a.id = some ls ∧
      (lateN (wActs.map normalizeActivity)).2 a.id = some (ls + a.duration - 1) ∧
      ls = backwardSpec (lateN (wActs.map normalizeActivity)).1
        (lateN (wActs.map normalizeActivity)).2 (pdN (wActs.map normalizeActivity))
        (((graphN (wActs.map normalizeActivity)).successors a.id).getD []) a.duration ∧
      wRecB.totalFloat = ls - es ∧ (wRecB.isCritical = true ↔ wRecB.totalFloat = 0)) :=
  ⟨by decide, by decide,
    C2_backward_pass wActs (by decide) (show wRecB ∈ calculateSchedule wActs by decide)⟩

theorem C3_witness :
    (sortedN (wCyc.map normalizeActivity)).length < wCyc.length ∧
    (calculateSchedule wCyc = seqSpec 1 (wCyc.map normalizeActivity) ∧
      ∀ r ∈ calculateSchedule wCyc,
        r.isCritical = true ∧ r.totalFloat = 0 ∧ r.freeFloat = 0) :=
  ⟨by decide, C3_cycle_fallback wCyc (by decide)⟩

theorem C5_witness :
    ((sortedN (wActs.map normalizeActivity)).length =
      (wActs.map normalizeActivity).length) ∧
    wRecA ∈ calculateSchedule wActs ∧
    (∃ a ∈ wActs.map normalizeActivity, wRecA.id = a.id ∧
      ∃ slacks : List Int,
        slacks = (((graphN (wActs.map normalizeActivity)).successors a.id).getD []).map
          (fun rel => freeSlackSpec rel.dependency.type rel.dependency.lagDays
            wRecA.startDay wRecA.endDay
            (((earlyN (wActs.map normalizeActivity)).1 rel.successorId).getD 0)
            (((earlyN (wActs.map normalizeActivity)).2 rel.successorId).getD 0)) ∧
        ((((graphN (wActs.map normalizeActivity)).successors a.id).getD []) = [] →
          wRecA.freeFloat = wRecA.totalFloat) ∧
        ((((graphN (wActs.map normalizeActivity)).successors a.id).getD []) ≠ [] →
          wRecA.freeFloat ∈ slacks ∧ ∀ s ∈ slacks, wRecA.freeFloat ≤ s)) :=
  ⟨by decide, by decide,
    C5_free_float wActs (by decide) (show wRecA ∈ calculateSchedule wActs by decide)⟩

theorem C6_witness :
    ((⟨"A", .FS, 0⟩ : SchedulerDependency) ∈ explicitPhaseSpec wE ∧
      jsTrim "A" = "A" ∧ wE.predecessors = some ([] ++ some "A" :: [])) ∧
    calculateSchedule ([wA] ++ wE :: []) =
      calculateSchedule ([wA] ++ { wE with predecessors := some ([] ++ []) } :: []) :=
  ⟨⟨by decide, by decide, by decide⟩,
    C6_dedup_invariance [wA] [] wE "A" [] [] (by decide) (by decide) (by decide)⟩

theorem C8_witness :
    (wNB.dependencies = [⟨"A", .FS, 0⟩] ++ (⟨"Z", .FS, 0⟩ : SchedulerDependency) :: [] ∧
      wNB2 = { wNB with dependencies := [⟨"A", .FS, 0⟩] ++ [] } ∧
      (⟨"Z", .FS, 0⟩ : SchedulerDependency).activityId ∉ idsOfN ([wNA] ++ wNB :: [])) ∧
    (graphN ([wNA] ++ wNB :: []) = graphN ([wNA] ++ wNB2 :: []) ∧
      earlyN ([wNA] ++ wNB :: []) = earlyN ([wNA] ++ wNB2 :: []) ∧
      scheduleN ([wNA] ++ wNB :: []) = scheduleN ([wNA] ++ wNB2 :: [])) :=
  ⟨⟨by decide, by decide, by decide⟩,
    C8_dangling_reference [wNA] [] wNB wNB2 [⟨"A", .FS, 0⟩] [] ⟨"Z", .FS, 0⟩
      (by decide) (by decide) (by decide)⟩

theorem C9_witness :
    wRecA ∈ calculateSchedule wActs ∧
    (1 ≤ wRecA.duration ∧ 1 ≤ wRecA.startDay ∧
      wRecA.endDay = wRecA.startDay + wRecA.duration - 1) :=
  ⟨by decide, C9_day_values wActs (show wRecA ∈ calculateSchedule wActs by decide)⟩

theorem C10_witness :
    wRecB ∈ calculateSchedule wActs ∧ (0 ≤ wRecB.totalFloat ∧ 0 ≤ wRecB.freeFloat) :=
  ⟨by decide, C10_nonnegative_float wActs (show wRecB ∈ calculateSchedule wActs by decide)⟩

end Scheduler
